import Mathlib

/-!
# Tetris engines of `Tetris_NEW.cpp` and `Tetris.cpp`

A shallow embedding of the two game engines of the repository and a
verification of their documented behaviour.

Conventions of the embedding.

* C++ `int` values are mathematical integers (`Int`); signed overflow is
  undefined behaviour in C++ and lies outside the model.  `unsigned char`
  cells are naturals, every store reduced modulo `256`.
* A `vector<vector<int>>` is a list of rows; the flat `unsigned char*` field
  of `Tetris.cpp` is a list of `240` cells.  A `for` loop over an index range
  is a fold over the list of the indices in the order the loop visits them.
* `rand() % 7` is an explicit argument (`draw`, reduced modulo `7`).
* Terminal output and sleeping (`drawGame`, `usleep`) do not touch the
  session state and are left out.
-/

namespace TetrisNew

/-! ## `Tetris_NEW.cpp`: data model -/

/-- Board width, `const int BOARD_WIDTH = 10`. -/
def BOARD_WIDTH : Nat := 10

/-- Board height, `const int BOARD_HEIGHT = 20`. -/
def BOARD_HEIGHT : Nat := 20

/-- A `vector<vector<int>>`. -/
abbrev Grid := List (List Int)

/-- The read `g[r][c]`. -/
def at2 (g : Grid) (r c : Nat) : Int := (g.getD r []).getD c 0

/-- The store `g[r][c] = v`. -/
def set2 (g : Grid) (r c : Nat) (v : Int) : Grid := g.set r ((g.getD r []).set c v)

/-- The seven catalog shapes `TETROMINO_SHAPES`, in the order I, O, T, S, Z, J, L. -/
def TETROMINO_SHAPES : List Grid :=
  [ [[0, 0, 0, 0], [1, 1, 1, 1], [0, 0, 0, 0], [0, 0, 0, 0]],
    [[1, 1, 0, 0], [1, 1, 0, 0], [0, 0, 0, 0], [0, 0, 0, 0]],
    [[0, 1, 0, 0], [1, 1, 1, 0], [0, 0, 0, 0], [0, 0, 0, 0]],
    [[0, 1, 1, 0], [1, 1, 0, 0], [0, 0, 0, 0], [0, 0, 0, 0]],
    [[1, 1, 0, 0], [0, 1, 1, 0], [0, 0, 0, 0], [0, 0, 0, 0]],
    [[1, 0, 0, 0], [1, 1, 1, 0], [0, 0, 0, 0], [0, 0, 0, 0]],
    [[0, 0, 1, 0], [1, 1, 1, 0], [0, 0, 0, 0], [0, 0, 0, 0]] ]

/-- Class `Tetromino`: a 4x4 `shape` and a `colorIndex`. -/
structure Tetromino where
  shape : Grid
  colorIndex : Int
  deriving DecidableEq, Repr

/-- The `r`-th concrete tetromino class: `Tetromino(TETROMINO_SHAPES[r], r + 1)`. -/
def catalogPiece (r : Nat) : Tetromino :=
  { shape := TETROMINO_SHAPES.getD r [], colorIndex := (r : Int) + 1 }

/-- A shape is a 4x4 matrix. -/
def Shape4 (s : Grid) : Prop := s.length = 4 ∧ ∀ row ∈ s, row.length = 4

instance (s : Grid) : Decidable (Shape4 s) := by
  unfold Shape4; infer_instance

/-- `Tetromino::rotateCW`: `rotated[c][4 - 1 - r] = shape[r][c]` for all `r`, `c`
in `0..3`, starting from the all-zero 4x4 matrix; then `shape = rotated`. -/
def Tetromino.rotateCW (t : Tetromino) : Tetromino :=
  let rotated : Grid :=
    (List.range 4).foldl
      (fun acc r =>
        (List.range 4).foldl (fun acc c => set2 acc c (4 - 1 - r) (at2 t.shape r c)) acc)
      (List.replicate 4 (List.replicate 4 0))
  { t with shape := rotated }

/-- Class `Board`: the grid `board`, `BOARD_HEIGHT` rows of `BOARD_WIDTH` cells. -/
structure Board where
  board : Grid
  deriving DecidableEq, Repr

/-- The constructor `Board()`: every cell `0`. -/
def Board.new : Board :=
  { board := List.replicate BOARD_HEIGHT (List.replicate BOARD_WIDTH 0) }

/-- The grid has `BOARD_HEIGHT` rows of `BOARD_WIDTH` cells each. -/
def Board.WF (b : Board) : Prop :=
  b.board.length = BOARD_HEIGHT ∧ ∀ row ∈ b.board, row.length = BOARD_WIDTH

instance (b : Board) : Decidable b.WF := by
  unfold Board.WF; infer_instance

/-- A board with a full bottom row under a row holding a single block. -/
def demoBoard : Board :=
  { board :=
      List.replicate 18 (List.replicate 10 0) ++
        [[3, 0, 0, 0, 0, 0, 0, 0, 0, 0], [2, 2, 2, 2, 1, 1, 1, 1, 5, 5]] }

/-- `Board::getCell`. -/
def Board.getCell (b : Board) (r c : Nat) : Int := at2 b.board r c

/-- `Board::canPlace`.  The two loops return `false` at the first occupied shape
cell that is out of bounds or lies on a non-zero board cell, `true` otherwise;
the board is read only after the bounds test has passed. -/
def Board.canPlace (b : Board) (t : Tetromino) (row col : Int) : Bool :=
  (List.range 4).all fun r =>
    (List.range 4).all fun c =>
      if at2 t.shape r c ≠ 0 then
        let br : Int := row + r
        let bc : Int := col + c
        if br < 0 ∨ br ≥ BOARD_HEIGHT ∨ bc < 0 ∨ bc ≥ BOARD_WIDTH then false
        else if at2 b.board br.toNat bc.toNat ≠ 0 then false
        else true
      else true

/-- The unchecked store `board[br][bc] = color` of `Board::place`; an index
outside the grid (undefined behaviour in the source) stores nothing. -/
def storeCell (g : Grid) (br bc : Int) (v : Int) : Grid :=
  if 0 ≤ br ∧ 0 ≤ bc then set2 g br.toNat bc.toNat v else g

/-- `Board::place`. -/
def Board.place (b : Board) (t : Tetromino) (row col : Int) : Board :=
  { board :=
      (List.range 4).foldl
        (fun g r =>
          (List.range 4).foldl
            (fun g c =>
              if at2 t.shape r c ≠ 0 then storeCell g (row + r) (col + c) t.colorIndex
              else g)
            g)
        b.board }

/-- The test of `clearLines` that row `row` has no zero cell in columns
`0 .. BOARD_WIDTH - 1`. -/
def rowFull (row : List Int) : Bool :=
  (List.range BOARD_WIDTH).all fun c => row.getD c 0 ≠ 0

/-- The inner loop of `clearLines`: `for (rr = r; rr > 0; rr--) board[rr] = board[rr - 1]`. -/
def shiftDown (g : Grid) (r : Nat) : Grid :=
  (List.iota r).foldl (fun g rr => g.set rr (g.getD (rr - 1) [])) g

/-- One iteration of the outer loop of `clearLines` at row `r`. -/
def clearStep (st : Grid × Int) (r : Nat) : Grid × Int :=
  if rowFull (st.1.getD r []) then
    ((shiftDown st.1 r).set 0 (List.replicate BOARD_WIDTH 0), st.2 + 1)
  else st

/-- `Board::clearLines`: the board after the call and the returned `linesCleared`. -/
def Board.clearLines (b : Board) : Board × Int :=
  let st := (List.range BOARD_HEIGHT).foldl clearStep (b.board, 0)
  ({ board := st.1 }, st.2)

end TetrisNew

namespace Tetris

/-! ## `Tetris.cpp`: data model -/

/-- Field width including the two wall columns, `const int fieldWidth = 12`. -/
def fieldWidth : Nat := 12

/-- Field height including the floor row, `const int fieldHeight = 20`. -/
def fieldHeight : Nat := 20

/-- Width of the playable interior, `const int playWidth = fieldWidth - 2`. -/
def playWidth : Nat := fieldWidth - 2

/-- The shape strings set up by `initializePieces`, in the order I, J, L, O, S, T, Z. -/
def tetrominoes : List (List Char) :=
  [ String.toList "....XXXX........",
    String.toList "..X..X.XX",
    String.toList "X..X..XX.",
    String.toList "XXXX",
    String.toList ".XXXX..",
    String.toList ".X.XXX.",
    String.toList "XX..XX" ]

/-- The expression `(pieceIdx == 0) ? 4 : (pieceIdx == 3) ? 2 : 3`. -/
def pieceSizeOf (pieceIdx : Int) : Nat :=
  if pieceIdx = 0 then 4 else if pieceIdx = 3 then 2 else 3

/-- `TetrisGame::rotate`: the `switch (r % 4)` with its fall-through `return 0`;
`%` is the truncating remainder of C++. -/
def rotate (px py r pieceSize : Int) : Int :=
  if Int.tmod r 4 = 0 then py * pieceSize + px
  else if Int.tmod r 4 = 1 then (pieceSize - 1 - px) * pieceSize + py
  else if Int.tmod r 4 = 2 then (pieceSize - 1 - py) * pieceSize + (pieceSize - 1 - px)
  else if Int.tmod r 4 = 3 then px * pieceSize + (pieceSize - 1 - py)
  else 0

/-- The test `pi < tetrominoes[pieceIdx].size() && tetrominoes[pieceIdx][pi] != L'.'`.
The comparison is unsigned in the source, so a negative `pi` fails it. -/
def occupied (pieceIdx pi : Int) : Bool :=
  let str := tetrominoes.getD pieceIdx.toNat []
  decide (0 ≤ pi) && decide (pi < str.length) && (str.getD pi.toNat '.' != '.')

/-- The read `field[i]`; an index outside the array (undefined behaviour in the
source) reads `0`. -/
def readField (field : List Nat) (i : Int) : Nat :=
  if 0 ≤ i then field.getD i.toNat 0 else 0

/-- The store `field[i] = v` of an `int` into an `unsigned char` cell; an index
outside the array (undefined behaviour in the source) stores nothing. -/
def writeField (field : List Nat) (i : Int) (v : Int) : List Nat :=
  if 0 ≤ i then field.set i.toNat (v % 256).toNat else field

/-- `TetrisGame::initializeField`: walls in columns `0` and `11`, floor in row
`19`, all with value `9`; every other cell `0`. -/
def initializeField : List Nat :=
  (List.range fieldWidth).foldl
    (fun f x =>
      (List.range fieldHeight).foldl
        (fun f y =>
          f.set (y * fieldWidth + x)
            (if x = 0 ∨ x = fieldWidth - 1 ∨ y = fieldHeight - 1 then 9 else 0))
        f)
    (List.replicate (fieldWidth * fieldHeight) 0)

/-- The data members of `TetrisGame` that the engine reads or writes.
`previousField` is `none` for the null pointer. -/
structure TetrisGame where
  field : List Nat
  keys : List Bool
  currentPiece : Int
  currentRotation : Int
  currentX : Int
  currentY : Int
  speed : Int
  speedCounter : Int
  forcePieceDown : Bool
  rotationHold : Bool
  pieceCounter : Int
  score : Int
  completedLines : List Nat
  isGameOver : Bool
  isPaused : Bool
  level : Int
  highScore : Int
  nextPiece : Int
  linesCleared : Int
  totalLinesCleared : Int
  previousField : Option (List Nat)
  previousPiece : Int
  previousRotation : Int
  previousX : Int
  previousY : Int
  previousScore : Int
  deriving DecidableEq

/-- `TetrisGame::doesPieceFit`.  The loops return `false` at the first occupied
piece cell that lies on a wall column, on or below the floor row, or on a
non-zero field cell. -/
def TetrisGame.doesPieceFit (g : TetrisGame) (pieceIdx rot posX posY : Int) : Bool :=
  let pieceSize := pieceSizeOf pieceIdx
  (List.range pieceSize).all fun px =>
    (List.range pieceSize).all fun py =>
      let pi := rotate px py rot pieceSize
      if !occupied pieceIdx pi then true
      else
        let fx : Int := posX + px + 1
        let fy : Int := posY + py
        if fx ≤ 0 ∨ fx ≥ (fieldWidth : Int) - 1 then false
        else if fy ≥ (fieldHeight : Int) - 1 then false
        else if readField g.field (fy * fieldWidth + fx) ≠ 0 then false
        else true

/-- `TetrisGame::saveState`: copy the field, the active piece and the score into
the `previous*` members. -/
def TetrisGame.saveState (g : TetrisGame) : TetrisGame :=
  { g with
    previousField := some g.field
    previousPiece := g.currentPiece
    previousRotation := g.currentRotation
    previousX := g.currentX
    previousY := g.currentY
    previousScore := g.score }

/-- Lines 341-343 of `updateGame`: the three movement keys, tested in turn. -/
def TetrisGame.moveKeys (g : TetrisGame) : TetrisGame :=
  let g1 :=
    if g.keys.getD 0 false && g.doesPieceFit g.currentPiece g.currentRotation (g.currentX + 1) g.currentY
    then { g with currentX := g.currentX + 1 } else g
  let g2 :=
    if g1.keys.getD 1 false && g1.doesPieceFit g1.currentPiece g1.currentRotation (g1.currentX - 1) g1.currentY
    then { g1 with currentX := g1.currentX - 1 } else g1
  if g2.keys.getD 2 false && g2.doesPieceFit g2.currentPiece g2.currentRotation g2.currentX (g2.currentY + 1)
  then { g2 with currentY := g2.currentY + 1 } else g2

/-- Lines 345-352 of `updateGame`: the rotate key and `rotationHold`. -/
def TetrisGame.rotateKey (g : TetrisGame) : TetrisGame :=
  if g.keys.getD 3 false then
    let g1 :=
      if g.rotationHold && g.doesPieceFit g.currentPiece (g.currentRotation + 1) g.currentX g.currentY
      then { g with currentRotation := g.currentRotation + 1 } else g
    { g1 with rotationHold := false }
  else { g with rotationHold := true }

/-- Lines 363-376 of `updateGame`: write `currentPiece + 1` into every interior
field cell under an occupied cell of the active piece. -/
def TetrisGame.mergePiece (g : TetrisGame) : List Nat :=
  let pieceSize := pieceSizeOf g.currentPiece
  (List.range pieceSize).foldl
    (fun f px =>
      (List.range pieceSize).foldl
        (fun f py =>
          let pi := rotate px py g.currentRotation pieceSize
          if occupied g.currentPiece pi then
            let fx : Int := g.currentX + px + 1
            let fy : Int := g.currentY + py
            if fx > 0 ∧ fx < (fieldWidth : Int) - 1 ∧ fy < (fieldHeight : Int) - 1 then
              writeField f (fy * fieldWidth + fx) (g.currentPiece + 1)
            else f
          else f)
        f)
    g.field

/-- The inner loop of lines 382-388: no interior cell of row `y` is `0`. -/
def lineComplete (field : List Nat) (y : Nat) : Bool :=
  (List.range' 1 (fieldWidth - 2)).all fun x => field.getD (y * fieldWidth + x) 0 ≠ 0

/-- Lines 380-392 of `updateGame`: `completedLines` after the detection loop. -/
def detectLines (field : List Nat) : List Nat :=
  (List.range (fieldHeight - 1)).foldl
    (fun acc y => if lineComplete field y then acc ++ [y] else acc)
    []

/-- The loops `for (int line : completedLines) for (x = 1 .. 10) field[line * fieldWidth + x] = v`. -/
def paintLines (field : List Nat) (completedLines : List Nat) (v : Int) : List Nat :=
  completedLines.foldl
    (fun f line =>
      (List.range' 1 (fieldWidth - 2)).foldl
        (fun f x => f.set (line * fieldWidth + x) (v % 256).toNat)
        f)
    field

/-- Lines 408-424 of `updateGame`: two flash cycles, each painting the completed
rows with `8` and then with `currentPiece + 1`. -/
def flashLines (field : List Nat) (completedLines : List Nat) (currentPiece : Int) : List Nat :=
  (List.range 2).foldl
    (fun f _ => paintLines (paintLines f completedLines 8) completedLines (currentPiece + 1))
    field

/-- Lines 428-430 of `updateGame`: `field[y * fieldWidth + x] = field[(y - 1) * fieldWidth + x]`
for `x = 1 .. 10`. -/
def copyRowDown (field : List Nat) (y : Nat) : List Nat :=
  (List.range' 1 (fieldWidth - 2)).foldl
    (fun f x => f.set (y * fieldWidth + x) (f.getD ((y - 1) * fieldWidth + x) 0))
    field

/-- Lines 432-434 of `updateGame`: `field[x] = 0` for `x = 1 .. 10`. -/
def clearTopRow (field : List Nat) : List Nat :=
  (List.range' 1 (fieldWidth - 2)).foldl (fun f x => f.set x 0) field

/-- Lines 427-434 of `updateGame` for one `line`: copy every interior row
`y - 1` into row `y` for `y = line, line - 1, .., 1`, then zero the interior of
row `0`. -/
def shiftLine (field : List Nat) (line : Nat) : List Nat :=
  clearTopRow ((List.iota line).foldl copyRowDown field)

/-- Lines 426-435 of `updateGame`: the shift loop over `completedLines`. -/
def shiftLines (field : List Nat) (completedLines : List Nat) : List Nat :=
  completedLines.foldl shiftLine field

/-- The `switch (completedLines.size())` of lines 401-406: the score added for
`n` completed lines at level `level`; no case applies outside `1..4`. -/
def lineBonus (n : Nat) (level : Int) : Int :=
  if n = 1 then 1000 * level
  else if n = 2 then 2000 * level
  else if n = 3 then 3000 * level
  else if n = 4 then 5000 * level
  else 0

/-- Lines 362-444 of `updateGame`: the lock sequence, entered when the piece
cannot move one row down.  `draw` is the value of `rand()`. -/
def TetrisGame.lockPiece (g : TetrisGame) (draw : Nat) : TetrisGame :=
  let g1 := g.saveState
  let g2 := { g1 with field := g1.mergePiece }
  let g3 := { g2 with score := g2.score + 250 }
  let g4 := { g3 with completedLines := detectLines g3.field }
  let g5 :=
    if ¬ g4.completedLines.isEmpty then
      let a := { g4 with
        linesCleared := g4.linesCleared + g4.completedLines.length
        totalLinesCleared := g4.totalLinesCleared + g4.completedLines.length }
      let b := { a with level := max 1 (Int.tdiv a.totalLinesCleared 2 + 1) }
      let c := { b with speed := max 2 (30 - b.level * 2) }
      let d := { c with score := c.score + lineBonus c.completedLines.length c.level }
      let e := { d with field := flashLines d.field d.completedLines d.currentPiece }
      { e with field := shiftLines e.field e.completedLines }
    else g4
  let g6 := { g5 with
    currentPiece := g5.nextPiece
    nextPiece := (draw % 7 : Nat)
    currentX := (playWidth : Int) / 2 - 1
    currentY := 0
    currentRotation := 0 }
  { g6 with
    isGameOver := !g6.doesPieceFit g6.currentPiece g6.currentRotation g6.currentX g6.currentY }

/-- Lines 355-357 of `updateGame`: reset the tick counter, count the step and
speed up by one on every 50th step while `speed >= 10`. -/
def TetrisGame.countStep (g : TetrisGame) : TetrisGame :=
  let g1 := { g with speedCounter := 0, pieceCounter := g.pieceCounter + 1 }
  if Int.tmod g1.pieceCounter 50 = 0 ∧ g1.speed ≥ 10 then { g1 with speed := g1.speed - 1 }
  else g1

/-- Lines 354-446 of `updateGame`: the forced gravity step. -/
def TetrisGame.gravityStep (g : TetrisGame) (draw : Nat) : TetrisGame :=
  if g.forcePieceDown then
    let g2 := g.countStep
    if g2.doesPieceFit g2.currentPiece g2.currentRotation g2.currentX (g2.currentY + 1) then
      { g2 with currentY := g2.currentY + 1 }
    else g2.lockPiece draw
  else g

/-- `TetrisGame::updateGame`. -/
def TetrisGame.updateGame (g : TetrisGame) (draw : Nat) : TetrisGame :=
  (g.moveKeys.rotateKey).gravityStep draw

/-- `TetrisGame::undo`.  With a snapshot present the loop first stores `0` under
the cells of the saved piece, then `memcpy` brings back the whole saved field
and the saved piece and score return, and the snapshot is freed. -/
def TetrisGame.undo (g : TetrisGame) : TetrisGame :=
  match g.previousField with
  | none => g
  | some saved =>
    let pieceSize := pieceSizeOf g.previousPiece
    let zeroed :=
      (List.range pieceSize).foldl
        (fun f px =>
          (List.range pieceSize).foldl
            (fun f py =>
              let pi := rotate px py g.previousRotation pieceSize
              if occupied g.previousPiece pi then
                writeField f ((g.previousY + py) * fieldWidth + (g.previousX + px + 1)) 0
              else f)
            f)
        g.field
    let copied := (List.range (fieldWidth * fieldHeight)).map fun i =>
      if i < saved.length then saved.getD i 0 else zeroed.getD i 0
    { g with
      field := copied
      currentPiece := g.previousPiece
      currentRotation := g.previousRotation
      currentX := g.previousX
      currentY := g.previousY
      score := g.previousScore
      previousField := none }

/-- The state built by the constructor `TetrisGame()`: `draw1` and `draw2` are
the two values of `rand()`, `high` the score read by `loadHighScore`.  The
`previous*` integers are not initialised by the source; they are `0` here and
are never read while `previousField` is null. -/
def TetrisGame.new (draw1 draw2 : Nat) (high : Int) : TetrisGame :=
  { field := initializeField
    keys := [false, false, false, false]
    currentPiece := (draw1 % 7 : Nat)
    currentRotation := 0
    currentX := (playWidth : Int) / 2 - 1
    currentY := 0
    speed := 30
    speedCounter := 0
    forcePieceDown := false
    rotationHold := true
    pieceCounter := 0
    score := 0
    completedLines := []
    isGameOver := false
    isPaused := false
    level := 1
    highScore := high
    nextPiece := (draw2 % 7 : Nat)
    linesCleared := 0
    totalLinesCleared := 0
    previousField := none
    previousPiece := 0
    previousRotation := 0
    previousX := 0
    previousY := 0
    previousScore := 0 }

/-- The condition under which `updateGame` runs the lock sequence: the gravity
step is due and, after the keys of the frame were applied, the piece does not
fit one row further down. -/
def TetrisGame.locksNow (g : TetrisGame) : Prop :=
  g.forcePieceDown = true ∧
    g.moveKeys.rotateKey.doesPieceFit g.moveKeys.rotateKey.currentPiece
      g.moveKeys.rotateKey.currentRotation g.moveKeys.rotateKey.currentX
      (g.moveKeys.rotateKey.currentY + 1) = false

instance (g : TetrisGame) : Decidable g.locksNow := by
  unfold TetrisGame.locksNow; infer_instance

/-- The ten interior cells (columns `1 .. 10`) of row `y` of the field. -/
def interiorRow (field : List Nat) (y : Nat) : List Nat :=
  (List.range' 1 (fieldWidth - 2)).map fun x => field.getD (y * fieldWidth + x) 0

/-- The playable interior: rows `0 .. 18`, columns `1 .. 10`. -/
def interior (field : List Nat) : List (List Nat) :=
  (List.range (fieldHeight - 1)).map (interiorRow field)

/-- No cell of the row is `0`. -/
def rowNonzero (row : List Nat) : Bool := row.all fun v => v ≠ 0

/-- The field of a new session written out: `19` rows with a wall cell `9` at
each end, above the floor row of twelve `9`s. -/
def emptyField : List Nat :=
  [ 9, 0, 0, 0, 0, 0, 0, 0, 0, 0, 0, 9,
      9, 0, 0, 0, 0, 0, 0, 0, 0, 0, 0, 9,
      9, 0, 0, 0, 0, 0, 0, 0, 0, 0, 0, 9,
      9, 0, 0, 0, 0, 0, 0, 0, 0, 0, 0, 9,
      9, 0, 0, 0, 0, 0, 0, 0, 0, 0, 0, 9,
      9, 0, 0, 0, 0, 0, 0, 0, 0, 0, 0, 9,
      9, 0, 0, 0, 0, 0, 0, 0, 0, 0, 0, 9,
      9, 0, 0, 0, 0, 0, 0, 0, 0, 0, 0, 9,
      9, 0, 0, 0, 0, 0, 0, 0, 0, 0, 0, 9,
      9, 0, 0, 0, 0, 0, 0, 0, 0, 0, 0, 9,
      9, 0, 0, 0, 0, 0, 0, 0, 0, 0, 0, 9,
      9, 0, 0, 0, 0, 0, 0, 0, 0, 0, 0, 9,
      9, 0, 0, 0, 0, 0, 0, 0, 0, 0, 0, 9,
      9, 0, 0, 0, 0, 0, 0, 0, 0, 0, 0, 9,
      9, 0, 0, 0, 0, 0, 0, 0, 0, 0, 0, 9,
      9, 0, 0, 0, 0, 0, 0, 0, 0, 0, 0, 9,
      9, 0, 0, 0, 0, 0, 0, 0, 0, 0, 0, 9,
      9, 0, 0, 0, 0, 0, 0, 0, 0, 0, 0, 9,
      9, 0, 0, 0, 0, 0, 0, 0, 0, 0, 0, 9,
      9, 9, 9, 9, 9, 9, 9, 9, 9, 9, 9, 9 ]

/-- A session in which an O piece rests on the floor and the gravity step is
due: the state of a new session with draws `3` and `0` after seventeen gravity
steps have brought the O piece down to row `17` and the tick counter has
reached `speed` again. -/
def restingO : TetrisGame :=
  { TetrisGame.new 3 0 0 with
    field := emptyField
    currentY := 17
    pieceCounter := 17
    speedCounter := 30
    forcePieceDown := true }

/-- The empty field with row `18` filled except for columns `5` and `6`. -/
def gapField : List Nat :=
  [ 9, 0, 0, 0, 0, 0, 0, 0, 0, 0, 0, 9,
      9, 0, 0, 0, 0, 0, 0, 0, 0, 0, 0, 9,
      9, 0, 0, 0, 0, 0, 0, 0, 0, 0, 0, 9,
      9, 0, 0, 0, 0, 0, 0, 0, 0, 0, 0, 9,
      9, 0, 0, 0, 0, 0, 0, 0, 0, 0, 0, 9,
      9, 0, 0, 0, 0, 0, 0, 0, 0, 0, 0, 9,
      9, 0, 0, 0, 0, 0, 0, 0, 0, 0, 0, 9,
      9, 0, 0, 0, 0, 0, 0, 0, 0, 0, 0, 9,
      9, 0, 0, 0, 0, 0, 0, 0, 0, 0, 0, 9,
      9, 0, 0, 0, 0, 0, 0, 0, 0, 0, 0, 9,
      9, 0, 0, 0, 0, 0, 0, 0, 0, 0, 0, 9,
      9, 0, 0, 0, 0, 0, 0, 0, 0, 0, 0, 9,
      9, 0, 0, 0, 0, 0, 0, 0, 0, 0, 0, 9,
      9, 0, 0, 0, 0, 0, 0, 0, 0, 0, 0, 9,
      9, 0, 0, 0, 0, 0, 0, 0, 0, 0, 0, 9,
      9, 0, 0, 0, 0, 0, 0, 0, 0, 0, 0, 9,
      9, 0, 0, 0, 0, 0, 0, 0, 0, 0, 0, 9,
      9, 0, 0, 0, 0, 0, 0, 0, 0, 0, 0, 9,
      9, 5, 5, 5, 5, 0, 0, 5, 5, 5, 5, 9,
      9, 9, 9, 9, 9, 9, 9, 9, 9, 9, 9, 9 ]

/-- A session about to complete row `18`: an O piece rests in the gap of
`gapField` and the gravity step is due. -/
def fillingO : TetrisGame :=
  { TetrisGame.new 3 0 0 with field := gapField, currentY := 17, forcePieceDown := true }

end Tetris

namespace TetrisNew

/-! ## `Tetris_NEW.cpp`: the class `Game` -/

/-- `Board::isGameOver`: some cell of the top row is non-zero. -/
def Board.isGameOver (b : Board) : Bool :=
  (List.range BOARD_WIDTH).any fun c => at2 b.board 0 c ≠ 0

/-- Class `Game`.  `rngCalls` counts the calls of `rand()` made so far; the
value of the `n`-th call is given by a function `rand` passed to the operations. -/
structure Game where
  board : Board
  currentPiece : Tetromino
  nextPiece : Tetromino
  currentRow : Int
  currentCol : Int
  gameOver : Bool
  paused : Bool
  score : Int
  level : Int
  linesClearedTotal : Int
  rngCalls : Nat
  deriving DecidableEq

/-- `Game::randomTetromino` for the value `r` of `rand()`: the class chosen by
`r % 7`. -/
def randomTetromino (r : Nat) : Tetromino := catalogPiece (r % 7)

/-- The constructor `Game()`. -/
def Game.new (rand : Nat → Nat) : Game :=
  { board := Board.new
    currentPiece := randomTetromino (rand 0)
    nextPiece := randomTetromino (rand 1)
    currentRow := 0
    currentCol := (BOARD_WIDTH : Int) / 2 - 2
    gameOver := false
    paused := false
    score := 0
    level := 1
    linesClearedTotal := 0
    rngCalls := 2 }

/-- `Game::lockPiece`. -/
def Game.lockPiece (rand : Nat → Nat) (g : Game) : Game :=
  let placed := g.board.place g.currentPiece g.currentRow g.currentCol
  let cleared := placed.clearLines
  let g1 := { g with board := cleared.1 }
  let g2 :=
    if cleared.2 > 0 then
      let a := { g1 with
        score := g1.score + cleared.2 * 100
        linesClearedTotal := g1.linesClearedTotal + cleared.2 }
      if Int.tdiv a.linesClearedTotal 10 ≥ a.level then { a with level := a.level + 1 } else a
    else g1
  { g2 with
    currentPiece := g2.nextPiece
    nextPiece := randomTetromino (rand g2.rngCalls)
    rngCalls := g2.rngCalls + 1
    currentRow := 0
    currentCol := (BOARD_WIDTH : Int) / 2 - 2 }

/-- `Game::moveDown`. -/
def Game.moveDown (rand : Nat → Nat) (g : Game) : Game :=
  if g.board.canPlace g.currentPiece (g.currentRow + 1) g.currentCol then
    { g with currentRow := g.currentRow + 1 }
  else g.lockPiece rand

/-- `Game::tryMove`. -/
def Game.tryMove (g : Game) (newRow newCol : Int) : Game :=
  if g.board.canPlace g.currentPiece newRow newCol then
    { g with currentRow := newRow, currentCol := newCol }
  else g

/-- The loop `while (board.canPlace(*currentPiece, currentRow + 1, currentCol)) currentRow++`
of the hard drop, run for at most `fuel` tests of the condition; `none` when the
loop has not stopped by then. -/
def Game.dropLoop : Nat → Game → Option Game
  | 0, _ => none
  | fuel + 1, g =>
    if g.board.canPlace g.currentPiece (g.currentRow + 1) g.currentCol then
      Game.dropLoop fuel { g with currentRow := g.currentRow + 1 }
    else some g

/-- The `switch (ch)` of `Game::handleInput` for one key code. -/
def Game.handleKey (rand : Nat → Nat) (fuel : Nat) (g : Game) (ch : Int) : Option Game :=
  if ch = 75 then some (if !g.paused then g.tryMove g.currentRow (g.currentCol - 1) else g)
  else if ch = 77 then some (if !g.paused then g.tryMove g.currentRow (g.currentCol + 1) else g)
  else if ch = 80 then some (if !g.paused then g.moveDown rand else g)
  else if ch = 72 then
    some
      (if !g.paused then
        let g1 := { g with currentPiece := g.currentPiece.rotateCW }
        if !g1.board.canPlace g1.currentPiece g1.currentRow g1.currentCol then
          { g1 with currentPiece := g1.currentPiece.rotateCW.rotateCW.rotateCW }
        else g1
      else g)
  else if ch = 32 then
    if !g.paused then (g.dropLoop fuel).map (Game.lockPiece rand) else some g
  else if ch = 112 then some { g with paused := !g.paused }
  else if ch = 27 then some { g with gameOver := true }
  else some g

/-- `Game::handleInput`: the key codes waiting on the terminal are read and
dispatched one after the other. -/
def Game.handleInput (rand : Nat → Nat) (fuel : Nat) : List Int → Game → Option Game
  | [], g => some g
  | ch :: rest, g =>
    match g.handleKey rand fuel ch with
    | none => none
    | some h => Game.handleInput rand fuel rest h

/-- One pass through the body of the loop `while (!gameOver)` of `Game::run`:
`handleInput`, `moveDown` unless paused, then the game-over test of the board. -/
def Game.frame (rand : Nat → Nat) (fuel : Nat) (keys : List Int) (g : Game) : Option Game :=
  (Game.handleInput rand fuel keys g).map fun g1 =>
    let g2 := if !g1.paused then g1.moveDown rand else g1
    if g2.board.isGameOver then { g2 with gameOver := true } else g2

/-- Frames run one after the other from the top of the loop; `none` as soon as
the loop has ended (`gameOver`) before a key list is used, or a frame has no
result. -/
def Game.runFrames (rand : Nat → Nat) (fuel : Nat) : List (List Int) → Game → Option Game
  | [], g => some g
  | keys :: rest, g =>
    if g.gameOver then none
    else
      match g.frame rand fuel keys with
      | none => none
      | some h => Game.runFrames rand fuel rest h

/-- The values of `rand()` in a session in which every piece is an I piece
except the twentieth one drawn, which is an O piece. -/
def towerRand (n : Nat) : Nat := if n = 19 then 1 else 0

/-- Eighteen frames with the hard-drop key waiting in each. -/
def towerKeys : List (List Int) := List.replicate 18 [32]

end TetrisNew

namespace Tetris

/-! ## `Tetris.cpp`: input, frames and sessions -/

/-- `TetrisGame::initialize`, the restart: `draw1` and `draw2` are the two values
of `rand()`.  The members `keys`, `highScore` and the `previous*` integers are
not written. -/
def TetrisGame.initialize (g : TetrisGame) (draw1 draw2 : Nat) : TetrisGame :=
  { g with
    currentPiece := (draw1 % 7 : Nat)
    currentRotation := 0
    currentX := (playWidth : Int) / 2 - 1
    currentY := 0
    speed := 30
    speedCounter := 0
    forcePieceDown := false
    rotationHold := true
    pieceCounter := 0
    score := 0
    linesCleared := 0
    totalLinesCleared := 0
    level := 1
    completedLines := []
    isGameOver := false
    isPaused := false
    nextPiece := (draw2 % 7 : Nat)
    field := initializeField
    previousField := none }

/-- The loop `while (doesPieceFit(.., currentY + 1)) currentY++` of `dropPiece`,
run for at most `fuel` tests of the condition; `none` when the loop has not
stopped by then. -/
def TetrisGame.dropLoop : Nat → TetrisGame → Option TetrisGame
  | 0, _ => none
  | fuel + 1, g =>
    if g.doesPieceFit g.currentPiece g.currentRotation g.currentX (g.currentY + 1) then
      TetrisGame.dropLoop fuel { g with currentY := g.currentY + 1 }
    else some g

/-- `TetrisGame::dropPiece`: the loop, then `forcePieceDown = true`. -/
def TetrisGame.dropPiece (g : TetrisGame) (fuel : Nat) : Option TetrisGame :=
  (g.dropLoop fuel).map fun h => { h with forcePieceDown := true }

/-- What one frame takes from outside: the key waiting on the terminal (`none`
when `kbhit()` is false), the values `rand()` gives to `initialize` and to the
lock sequence, and the bound on the tests of the `dropPiece` loop. -/
structure FrameInput where
  key : Option Char
  draw1 : Nat
  draw2 : Nat
  draw : Nat
  fuel : Nat
  deriving DecidableEq

/-- `TetrisGame::handleInput`: at most one key is read and dispatched. -/
def TetrisGame.handleInput (g : TetrisGame) (inp : FrameInput) : Option TetrisGame :=
  match inp.key with
  | none => some g
  | some k =>
    if k = 'd' ∨ k = 'D' then some { g with keys := g.keys.set 0 true }
    else if k = 'a' ∨ k = 'A' then some { g with keys := g.keys.set 1 true }
    else if k = 's' ∨ k = 'S' then some { g with keys := g.keys.set 2 true }
    else if k = 'w' ∨ k = 'W' then some { g with keys := g.keys.set 3 true }
    else if k = 'x' ∨ k = 'X' then some { g with isGameOver := true }
    else if k = 'r' ∨ k = 'R' then some ( g.initialize inp.draw1 inp.draw2)
    else if k = 'p' ∨ k = 'P' then some { g with isPaused := !g.isPaused }
    else if k = ' ' then g.dropPiece inp.fuel
    else if k = 'u' ∨ k = 'U' then some g.undo
    else some g

/-- Lines 78-79 of `run`: `speedCounter++; forcePieceDown = (speedCounter == speed)`. -/
def TetrisGame.tick (g : TetrisGame) : TetrisGame :=
  { g with
    speedCounter := g.speedCounter + 1
    forcePieceDown := decide (g.speedCounter + 1 = g.speed) }

/-- One pass through the body of the loop `while (!isGameOver)` of `run`.
Unpaused: tick, `handleInput`, `updateGame`, then all key flags are cleared.
Paused: `handleInput` only. -/
def TetrisGame.frame (g : TetrisGame) (inp : FrameInput) : Option TetrisGame :=
  if g.isPaused then g.handleInput inp
  else
    (g.tick.handleInput inp).map fun h =>
      { h.updateGame inp.draw with keys := [false, false, false, false] }

/-- The states a session can be in at the top of the loop of `run`: the state
after the constructor, after a frame entered with `isGameOver` false, or after
the restart that `run` offers once the loop has ended. -/
inductive Reachable : TetrisGame → Prop
  | start (draw1 draw2 : Nat) (high : Int) : Reachable (TetrisGame.new draw1 draw2 high)
  | frame (g h : TetrisGame) (inp : FrameInput) :
      Reachable g → g.isGameOver = false → g.frame inp = some h → Reachable h
  | restart (g : TetrisGame) (draw1 draw2 : Nat) :
      Reachable g → g.isGameOver = true → Reachable ( g.initialize draw1 draw2)

/-- The states on which `run` calls `updateGame`: a reachable state, neither
over nor paused, after the tick and `handleInput`. -/
def AtUpdate (h : TetrisGame) : Prop :=
  ∃ (g : TetrisGame) (inp : FrameInput),
    Reachable g ∧ g.isGameOver = false ∧ g.isPaused = false ∧ g.tick.handleInput inp = some h

/-- Frames run one after the other; `none` as soon as the loop has ended
(`isGameOver`) before an input is used, or a frame has no result. -/
def TetrisGame.runFrames : List FrameInput → TetrisGame → Option TetrisGame
  | [], g => some g
  | inp :: rest, g =>
    if g.isGameOver then none
    else
      match g.frame inp with
      | none => none
      | some h => TetrisGame.runFrames rest h

/-- A frame in which the key `k` is waiting; every `rand()` gives `0`. -/
def pressKey (k : Char) : FrameInput :=
  { key := some k, draw1 := 0, draw2 := 0, draw := 0, fuel := 40 }

/-- A frame in which no key is waiting; every `rand()` gives `0`. -/
def noKey : FrameInput :=
  { key := none, draw1 := 0, draw2 := 0, draw := 0, fuel := 40 }

/-- The cells `(px, py)` of the bounding box that the piece `piece` occupies in
rotation `rot`, in the order in which the loops of `doesPieceFit` and of the
merge visit them. -/
def occupiedCells (piece rot : Int) : List (Nat × Nat) :=
  (List.range (pieceSizeOf piece)).flatMap fun px =>
    ((List.range (pieceSizeOf piece)).filter fun (py : Nat) =>
      occupied piece (rotate px py rot (pieceSizeOf piece))).map fun py => (px, py)

/-- The field positions `(fx, fy)` under the occupied cells of the active piece. -/
def TetrisGame.pieceCells (g : TetrisGame) : List (Int × Int) :=
  (occupiedCells g.currentPiece g.currentRotation).map fun c =>
    (g.currentX + c.1 + 1, g.currentY + c.2)

/-- The active piece fits where it is. -/
def TetrisGame.Fits (g : TetrisGame) : Prop :=
  g.doesPieceFit g.currentPiece g.currentRotation g.currentX g.currentY = true

/-- No playable row (rows `0 .. 18`) of the field is complete. -/
def noFullRow (field : List Nat) : Prop :=
  ∀ y : Nat, y < fieldHeight - 1 → lineComplete field y = false

/-- The facts that hold of every state of a session at every point of the loop
of `run`: the speed floor, the level as a function of the line total, a field
of `240` cells without a complete playable row, piece kinds in `0 .. 6`,
non-negative rotation and row, and a snapshot (when present) that was taken from
such a state with its piece fitting. -/
structure TetrisGame.Sound (g : TetrisGame) : Prop where
  speed_floor : 2 ≤ g.speed
  total_nonneg : 0 ≤ g.totalLinesCleared
  level_eq : g.level = max 1 (Int.tdiv g.totalLinesCleared 2 + 1)
  field_length : g.field.length = 240
  no_full : noFullRow g.field
  piece_range : 0 ≤ g.currentPiece ∧ g.currentPiece ≤ 6
  next_range : 0 ≤ g.nextPiece ∧ g.nextPiece ≤ 6
  rotation_nonneg : 0 ≤ g.currentRotation
  y_nonneg : 0 ≤ g.currentY
  snapshot : ∀ saved : List Nat, g.previousField = some saved →
    saved.length = 240 ∧ noFullRow saved ∧
    (0 ≤ g.previousPiece ∧ g.previousPiece ≤ 6) ∧ 0 ≤ g.previousRotation ∧ 0 ≤ g.previousY ∧
    ∀ h : TetrisGame, h.field = saved →
      h.doesPieceFit g.previousPiece g.previousRotation g.previousX g.previousY = true

end Tetris

namespace TetrisNew

/-- The session `Game.new towerRand` after the frames `towerKeys`: eighteen I
pieces dropped and a nineteenth locked by `moveDown` fill rows `1 .. 19` of
columns `3 .. 6`, and the O piece has been promoted to the spawn anchor. -/
def towerTop : Game :=
  { board :=
      { board := List.replicate 10 0 :: List.replicate 19 [0, 0, 0, 1, 1, 1, 1, 0, 0, 0] }
    currentPiece := catalogPiece 1
    nextPiece := catalogPiece 0
    currentRow := 0
    currentCol := 3
    gameOver := false
    paused := false
    score := 0
    level := 1
    linesClearedTotal := 0
    rngCalls := 21 }

/-- Step 5 of the loop of `Game::run`, the delay of a frame in milliseconds:
`int delay = 70 - (level - 1) * 10; if (delay < 0) delay = 10;`. -/
def frameDelay (level : Int) : Int :=
  let delay := 70 - (level - 1) * 10
  if delay < 0 then 10 else delay

end TetrisNew

namespace Tetris

/-- A new session whose first piece is the O piece (`rand()` gives `3`, then
`0`), with the field written out. -/
def freshO : TetrisGame :=
  { TetrisGame.new 3 0 0 with field := emptyField }

/-- The session `freshO` inside its first frame, after the tick and the
hard-drop key: the O piece rests on the floor and the gravity step is forced. -/
def droppedO : TetrisGame :=
  { freshO with speedCounter := 1, currentY := 17, forcePieceDown := true }

/-- The session `freshO` inside its first frame, after the tick and the rotate
key. -/
def pressedO : TetrisGame :=
  { freshO with speedCounter := 1, keys := [false, false, false, true] }

/-- The session `freshO` after a frame in which the rotate key was waiting. -/
def turnedO : TetrisGame :=
  { freshO with speedCounter := 1, currentRotation := 1, rotationHold := false }

/-- The session `turnedO` inside its next frame, after the tick and the rotate
key: the key is set in two frames in a row. -/
def heldO : TetrisGame :=
  { turnedO with speedCounter := 2, keys := [false, false, false, true] }

/-- The session `freshO` after a frame in which the pause key was waiting. -/
def pausedO : TetrisGame :=
  { freshO with speedCounter := 1, isPaused := true }

/-- The session `freshO` after seventeen frames with the soft-drop key and twelve
frames without a key: the O piece rests on the floor and the next tick makes the
gravity step due. -/
def dueO : TetrisGame :=
  { freshO with currentY := 17, speedCounter := 29 }

/-- A new session whose first two pieces are I pieces (`rand()` gives `0`
twice), with the field written out. -/
def freshI : TetrisGame :=
  { TetrisGame.new 0 0 0 with field := emptyField }

/-- The empty field with an O-piece remainder in columns `9` and `10` of row `18`. -/
def cycleField : List Nat :=
  [ 9, 0, 0, 0, 0, 0, 0, 0, 0, 0, 0, 9,
      9, 0, 0, 0, 0, 0, 0, 0, 0, 0, 0, 9,
      9, 0, 0, 0, 0, 0, 0, 0, 0, 0, 0, 9,
      9, 0, 0, 0, 0, 0, 0, 0, 0, 0, 0, 9,
      9, 0, 0, 0, 0, 0, 0, 0, 0, 0, 0, 9,
      9, 0, 0, 0, 0, 0, 0, 0, 0, 0, 0, 9,
      9, 0, 0, 0, 0, 0, 0, 0, 0, 0, 0, 9,
      9, 0, 0, 0, 0, 0, 0, 0, 0, 0, 0, 9,
      9, 0, 0, 0, 0, 0, 0, 0, 0, 0, 0, 9,
      9, 0, 0, 0, 0, 0, 0, 0, 0, 0, 0, 9,
      9, 0, 0, 0, 0, 0, 0, 0, 0, 0, 0, 9,
      9, 0, 0, 0, 0, 0, 0, 0, 0, 0, 0, 9,
      9, 0, 0, 0, 0, 0, 0, 0, 0, 0, 0, 9,
      9, 0, 0, 0, 0, 0, 0, 0, 0, 0, 0, 9,
      9, 0, 0, 0, 0, 0, 0, 0, 0, 0, 0, 9,
      9, 0, 0, 0, 0, 0, 0, 0, 0, 0, 0, 9,
      9, 0, 0, 0, 0, 0, 0, 0, 0, 0, 0, 9,
      9, 0, 0, 0, 0, 0, 0, 0, 0, 0, 0, 9,
      9, 0, 0, 0, 0, 0, 0, 0, 0, 4, 4, 9,
      9, 9, 9, 9, 9, 9, 9, 9, 9, 9, 9, 9 ]

/-- The session after two completed rows (level `2`, speed `26`) and `n`
gravity steps, with an I piece resting at the left of row `18` over `cycleField`
and no snapshot: the state reached after an undo of the lock of that piece. -/
def cycleState (n : Int) : TetrisGame :=
  { field := cycleField
    keys := [false, false, false, false]
    currentPiece := 0
    currentRotation := 0
    currentX := 0
    currentY := 17
    speed := 26
    speedCounter := 1
    forcePieceDown := false
    rotationHold := true
    pieceCounter := n
    score := 2750
    completedLines := []
    isGameOver := false
    isPaused := false
    level := 2
    highScore := 0
    nextPiece := 0
    linesCleared := 2
    totalLinesCleared := 2
    previousField := none
    previousPiece := 0
    previousRotation := 0
    previousX := 0
    previousY := 17
    previousScore := 2750 }

/-- The frames that lead from `freshI` to `cycleState 5`: two I pieces fill
columns `1 .. 8` of row `18`, an O piece completes the row, the lock is undone
and repeated, and a third I piece is dropped at the left and its lock undone. -/
def cycleEntry : List FrameInput :=
  List.replicate 4 (pressKey 'a') ++ [{ pressKey ' ' with draw := 3 }, pressKey ' '] ++
    List.replicate 4 (pressKey 'd') ++ [pressKey ' ', pressKey 'u', pressKey ' '] ++
    List.replicate 4 (pressKey 'a') ++ [pressKey ' ', pressKey 'u']

/-- The field `cycleField` with an I piece in columns `1 .. 4` of row `18`. -/
def lockedField : List Nat :=
  [ 9, 0, 0, 0, 0, 0, 0, 0, 0, 0, 0, 9,
      9, 0, 0, 0, 0, 0, 0, 0, 0, 0, 0, 9,
      9, 0, 0, 0, 0, 0, 0, 0, 0, 0, 0, 9,
      9, 0, 0, 0, 0, 0, 0, 0, 0, 0, 0, 9,
      9, 0, 0, 0, 0, 0, 0, 0, 0, 0, 0, 9,
      9, 0, 0, 0, 0, 0, 0, 0, 0, 0, 0, 9,
      9, 0, 0, 0, 0, 0, 0, 0, 0, 0, 0, 9,
      9, 0, 0, 0, 0, 0, 0, 0, 0, 0, 0, 9,
      9, 0, 0, 0, 0, 0, 0, 0, 0, 0, 0, 9,
      9, 0, 0, 0, 0, 0, 0, 0, 0, 0, 0, 9,
      9, 0, 0, 0, 0, 0, 0, 0, 0, 0, 0, 9,
      9, 0, 0, 0, 0, 0, 0, 0, 0, 0, 0, 9,
      9, 0, 0, 0, 0, 0, 0, 0, 0, 0, 0, 9,
      9, 0, 0, 0, 0, 0, 0, 0, 0, 0, 0, 9,
      9, 0, 0, 0, 0, 0, 0, 0, 0, 0, 0, 9,
      9, 0, 0, 0, 0, 0, 0, 0, 0, 0, 0, 9,
      9, 0, 0, 0, 0, 0, 0, 0, 0, 0, 0, 9,
      9, 0, 0, 0, 0, 0, 0, 0, 0, 0, 0, 9,
      9, 1, 1, 1, 1, 0, 0, 0, 0, 4, 4, 9,
      9, 9, 9, 9, 9, 9, 9, 9, 9, 9, 9, 9 ]

/-- The session `cycleState` after the hard drop and lock of its I piece, with
`n` gravity steps counted: the next I piece is at the spawn anchor and the
snapshot holds `cycleField`. -/
def lockedState (n : Int) : TetrisGame :=
  { field := lockedField
    keys := [false, false, false, false]
    currentPiece := 0
    currentRotation := 0
    currentX := 4
    currentY := 0
    speed := 26
    speedCounter := 0
    forcePieceDown := true
    rotationHold := true
    pieceCounter := n
    score := 3000
    completedLines := []
    isGameOver := false
    isPaused := false
    level := 2
    highScore := 0
    nextPiece := 0
    linesCleared := 2
    totalLinesCleared := 2
    previousField := some cycleField
    previousPiece := 0
    previousRotation := 0
    previousX := 0
    previousY := 17
    previousScore := 2750 }

/-- The session `lockedState` after the fiftieth gravity step, which has
lowered the speed from `26` to `25` at level `2`. -/
def dipState : TetrisGame :=
  { lockedState 50 with speed := 25 }

/-- The session `dipState` inside its next frame, after the tick and the
hard-drop key: the I piece rests in columns `5 .. 8` of row `18`. -/
def dipDropped : TetrisGame :=
  { dipState with speedCounter := 1, currentY := 17 }

/-! ## `Tetris.cpp`: the frames up to a gravity step -/

/-- Whether the frame of `g` with input `inp` takes the gravity step:
`forcePieceDown` at the call of `updateGame`. -/
def TetrisGame.stepsDown (g : TetrisGame) (inp : FrameInput) : Bool :=
  match g.tick.handleInput inp with
  | some k => k.forcePieceDown
  | none => false

/-- Unpaused frames run one after the other as long as none of them takes the
gravity step; `none` as soon as the session is over or paused when an input is
used, a frame takes the gravity step, or a frame has no result. -/
def TetrisGame.runQuiet : List FrameInput → TetrisGame → Option TetrisGame
  | [], g => some g
  | inp :: rest, g =>
    if g.isGameOver ∨ g.isPaused ∨ g.stepsDown inp then none
    else
      match g.frame inp with
      | none => none
      | some h => TetrisGame.runQuiet rest h

/-! ## `Tetris.cpp`: the memory reads of `doesPieceFit` -/

/-- A read made by `doesPieceFit`: `tetrominoes[pieceIdx].size()`, the character
`tetrominoes[pieceIdx][pi]`, or the cell `field[i]`. -/
inductive Access where
  | table (pieceIdx : Int)
  | shape (pieceIdx pi : Int)
  | cell (i : Int)
  deriving DecidableEq

/-- The read stays inside its object: the array `tetrominoes` has `7` strings,
a string is read below its length, `field` has `fieldWidth * fieldHeight` cells. -/
def Access.InRange : Access → Prop
  | Access.table pieceIdx => 0 ≤ pieceIdx ∧ pieceIdx < 7
  | Access.shape pieceIdx pi =>
    (0 ≤ pieceIdx ∧ pieceIdx < 7) ∧
      0 ≤ pi ∧ pi < ((tetrominoes.getD pieceIdx.toNat []).length : Int)
  | Access.cell i => 0 ≤ i ∧ i < ((fieldWidth * fieldHeight : Nat) : Int)

instance (a : Access) : Decidable a.InRange := by
  cases a <;> unfold Access.InRange <;> infer_instance

/-- A read of `field` is a read of an interior cell: column `1 .. 10`, row
`0 .. 18`. -/
def Access.Interior : Access → Prop
  | Access.table _ => True
  | Access.shape _ _ => True
  | Access.cell i => (1 ≤ i % 12 ∧ i % 12 ≤ 10) ∧ 0 ≤ i / 12 ∧ i / 12 ≤ 18

instance (a : Access) : Decidable a.Interior := by
  cases a <;> unfold Access.Interior <;> infer_instance

/-- The body of the inner loop of `doesPieceFit` for the cell `(px, py)`: the
reads it makes, in order, and `false` when it executes `return false`.  The
test `pi >= tetrominoes[pieceIdx].size()` is unsigned in the source, so a
negative `pi` passes it; `||` reads the character only when the test fails. -/
def fitCell (field : List Nat) (pieceIdx rot posX posY : Int) (px py : Nat) :
    List Access × Bool :=
  let pieceSize := pieceSizeOf pieceIdx
  let pi := rotate px py rot pieceSize
  let str := tetrominoes.getD pieceIdx.toNat []
  if pi < 0 ∨ pi ≥ (str.length : Int) then ([Access.table pieceIdx], true)
  else if str.getD pi.toNat '.' = '.' then
    ([Access.table pieceIdx, Access.shape pieceIdx pi], true)
  else
    let fx : Int := posX + px + 1
    let fy : Int := posY + py
    if fx ≤ 0 ∨ fx ≥ (fieldWidth : Int) - 1 then
      ([Access.table pieceIdx, Access.shape pieceIdx pi], false)
    else if fy ≥ (fieldHeight : Int) - 1 then
      ([Access.table pieceIdx, Access.shape pieceIdx pi], false)
    else
      ([Access.table pieceIdx, Access.shape pieceIdx pi,
          Access.cell (fy * fieldWidth + fx)],
        decide (readField field (fy * fieldWidth + fx) = 0))

/-- The two loops of `doesPieceFit` over the cells in the order they are
visited: the reads made up to and including the cell at which the function
returns `false`, or all reads and `true`. -/
def fitLoop (field : List Nat) (pieceIdx rot posX posY : Int) :
    List (Nat × Nat) → List Access × Bool
  | [] => ([], true)
  | c :: rest =>
    let r := fitCell field pieceIdx rot posX posY c.1 c.2
    if r.2 then
      let s := fitLoop field pieceIdx rot posX posY rest
      (r.1 ++ s.1, s.2)
    else (r.1, false)

/-- `TetrisGame::doesPieceFit` together with the reads it makes. -/
def TetrisGame.doesPieceFitReads (g : TetrisGame) (pieceIdx rot posX posY : Int) :
    List Access × Bool :=
  let pieceSize := pieceSizeOf pieceIdx
  fitLoop g.field pieceIdx rot posX posY
    ((List.range pieceSize).flatMap fun px => (List.range pieceSize).map fun py => (px, py))

end Tetris

namespace RowShift

/-! ## Row compaction on a list of rows -/

theorem kept_length {α : Type} (p : α → Bool) (z : α) (rows : List α) (n : Nat)
    (hn : n ≤ rows.length) :
    (List.replicate ((rows.take n).countP p) z ++
      (rows.take n).filter (fun r => !p r)).length = n := by
  have h := List.length_eq_countP_add_countP p (rows.take n)
  rw [List.length_take, Nat.min_eq_left hn] at h
  rw [List.length_append, List.length_replicate, ← List.countP_eq_length_filter]
  have e : List.countP (fun a => decide ¬p a = true) (rows.take n) =
      List.countP (fun r => !p r) (rows.take n) := by
    congr 1; funext a; cases p a <;> rfl
  omega

theorem getD_at {α : Type} (P rows : List α) (d : α) (n : Nat) (hP : P.length = n)
    (hn : n < rows.length) : (P ++ rows.drop n).getD n d = rows[n] := by
  rw [List.getD_append_right _ _ _ _ (by omega), hP, Nat.sub_self,
    List.getD_eq_getElem _ _ (by rw [List.length_drop]; omega)]
  simp

theorem remove_at {α : Type} (P rows : List α) (n : Nat) (hP : P.length = n) :
    (P ++ rows.drop n).take n ++ (P ++ rows.drop n).drop (n + 1) = P ++ rows.drop (n + 1) := by
  rw [List.take_left' hP, List.drop_append_eq_append_drop, hP,
    List.drop_eq_nil_of_le (by omega), List.drop_drop]
  simp [Nat.add_comm]

theorem keep_at {α : Type} (P rows : List α) (n : Nat) (hn : n < rows.length) :
    P ++ rows.drop n = (P ++ [rows[n]]) ++ rows.drop (n + 1) := by
  rw [List.append_assoc, List.singleton_append, List.getElem_cons_drop]

theorem take_succ_eq {α : Type} (rows : List α) (n : Nat) (hn : n < rows.length) :
    rows.take (n + 1) = rows.take n ++ [rows[n]] := by
  rw [List.take_succ, List.getElem?_eq_getElem hn]; rfl

/-- Processing the rows `0 .. n - 1` in ascending order, where a row that
satisfies `p` is removed and a fresh row `z` is put on top, yields the fresh
rows, then the kept rows in their order, then the rows not yet visited.  The
state `s` is seen through its list of rows `rowsOf s`; `Inv` is any property of
states that the step keeps. -/
theorem compact_fold {σ α : Type} (rowsOf : σ → List α) (Inv : σ → Prop) (p : α → Bool)
    (z : α) (rows : List α) (f : σ → Nat → σ)
    (hf : ∀ (s : σ) (P : List α) (y : Nat) (hy : y < rows.length), Inv s → P.length = y →
      rowsOf s = P ++ rows.drop y →
      Inv (f s y) ∧
      rowsOf (f s y) =
        if p rows[y] then z :: ((P ++ rows.drop y).take y ++ (P ++ rows.drop y).drop (y + 1))
        else P ++ rows.drop y)
    (s0 : σ) (h0 : rowsOf s0 = rows) (hI : Inv s0) (n : Nat) (hn : n ≤ rows.length) :
    Inv ((List.range n).foldl f s0) ∧
    rowsOf ((List.range n).foldl f s0) =
      List.replicate ((rows.take n).countP p) z ++ (rows.take n).filter (fun r => !p r) ++
        rows.drop n := by
  induction n with
  | zero => simp [h0, hI]
  | succ n ih =>
    have hlt : n < rows.length := hn
    have hlen := kept_length p z rows n (by omega)
    obtain ⟨ihI, ihR⟩ := ih (by omega)
    obtain ⟨hI2, hR2⟩ := hf _ _ n hlt ihI hlen ihR
    rw [List.range_succ, List.foldl_append, List.foldl_cons, List.foldl_nil]
    refine ⟨hI2, ?_⟩
    rw [hR2, remove_at _ _ _ hlen, take_succ_eq rows n hlt, List.countP_append,
      List.filter_append]
    by_cases hp : p rows[n] = true
    · rw [if_pos hp]
      simp [hp, List.replicate_succ]
    · rw [if_neg hp, keep_at _ _ _ hlt]
      simp [hp]

/-- The number of rows removed by the loop of `compact_fold`, for a counter
`cnt` that each removal raises by one. -/
theorem compact_count {σ α : Type} (rowsOf : σ → List α) (Inv : σ → Prop) (p : α → Bool)
    (z : α) (rows : List α) (f : σ → Nat → σ) (cnt : σ → Int)
    (hf : ∀ (s : σ) (P : List α) (y : Nat) (hy : y < rows.length), Inv s → P.length = y →
      rowsOf s = P ++ rows.drop y →
      Inv (f s y) ∧
      rowsOf (f s y) =
        if p rows[y] then z :: ((P ++ rows.drop y).take y ++ (P ++ rows.drop y).drop (y + 1))
        else P ++ rows.drop y)
    (hc : ∀ (s : σ) (P : List α) (y : Nat) (hy : y < rows.length), Inv s → P.length = y →
      rowsOf s = P ++ rows.drop y → cnt (f s y) = cnt s + if p rows[y] then 1 else 0)
    (s0 : σ) (h0 : rowsOf s0 = rows) (hI : Inv s0) (n : Nat) (hn : n ≤ rows.length) :
    cnt ((List.range n).foldl f s0) = cnt s0 + ((rows.take n).countP p : Nat) := by
  induction n with
  | zero => simp
  | succ n ih =>
    have hlt : n < rows.length := hn
    have hlen := kept_length p z rows n (by omega)
    obtain ⟨ihI, ihR⟩ := compact_fold rowsOf Inv p z rows f hf s0 h0 hI n (by omega)
    rw [List.range_succ, List.foldl_append, List.foldl_cons, List.foldl_nil,
      hc _ _ n hlt ihI hlen ihR, ih (by omega), take_succ_eq rows n hlt, List.countP_append]
    by_cases hp : p rows[n] = true
    · simp [hp, List.countP_cons]; ring
    · simp [hp, List.countP_cons]

/-! ## Index-based row compaction and folds of stores -/

theorem kept_length_idx {α : Type} (p : Nat → Bool) (z : α) (g : Nat → α) (n : Nat) :
    (List.replicate ((List.range n).countP p) z ++
      ((List.range n).filter (fun y => !p y)).map g).length = n := by
  have h := List.length_eq_countP_add_countP p (List.range n)
  rw [List.length_range] at h
  rw [List.length_append, List.length_replicate, List.length_map,
    ← List.countP_eq_length_filter]
  have e : List.countP (fun a => decide ¬p a = true) (List.range n) =
      List.countP (fun y => !p y) (List.range n) := by
    congr 1; funext a; cases p a <;> rfl
  omega

/-- The loop of `compact_fold` when the rows to remove are given by their
indices: the kept rows are the rows of the start list at the indices that `p`
does not select. -/
theorem compact_fold_idx {σ α : Type} (rowsOf : σ → List α) (Inv : σ → Prop) (p : Nat → Bool)
    (z : α) (rows : List α) (f : σ → Nat → σ)
    (hf : ∀ (s : σ) (P : List α) (y : Nat), y < rows.length → Inv s → P.length = y →
      rowsOf s = P ++ rows.drop y →
      Inv (f s y) ∧
      rowsOf (f s y) =
        if p y then z :: ((P ++ rows.drop y).take y ++ (P ++ rows.drop y).drop (y + 1))
        else P ++ rows.drop y)
    (s0 : σ) (h0 : rowsOf s0 = rows) (hI : Inv s0) (n : Nat) (hn : n ≤ rows.length) :
    Inv ((List.range n).foldl f s0) ∧
    rowsOf ((List.range n).foldl f s0) =
      List.replicate ((List.range n).countP p) z ++
        ((List.range n).filter (fun y => !p y)).map (fun y => rows.getD y z) ++
        rows.drop n := by
  induction n with
  | zero => simp [h0, hI]
  | succ n ih =>
    have hlt : n < rows.length := hn
    have hlen := kept_length_idx p z (fun y => rows.getD y z) n
    obtain ⟨ihI, ihR⟩ := ih (by omega)
    obtain ⟨hI2, hR2⟩ := hf _ _ n hlt ihI hlen ihR
    rw [List.range_succ, List.foldl_append, List.foldl_cons, List.foldl_nil]
    refine ⟨hI2, ?_⟩
    rw [hR2, remove_at _ _ _ hlen, List.countP_append, List.filter_append, List.map_append]
    by_cases hp : p n = true
    · rw [if_pos hp]
      simp [hp, List.replicate_succ]
    · rw [if_neg hp, keep_at _ _ _ hlt]
      simp [hp, List.getElem?_eq_getElem hlt]

/-- A fold over the selected elements is a fold that skips the others. -/
theorem foldl_filter_eq {σ β : Type} (p : β → Bool) (f : σ → β → σ) (l : List β) :
    ∀ s : σ, (l.filter p).foldl f s = l.foldl (fun s y => if p y then f s y else s) s := by
  induction l with
  | nil => intro s; rfl
  | cons a l ih =>
    intro s
    by_cases ha : p a = true
    · rw [List.filter_cons_of_pos ha, List.foldl_cons, List.foldl_cons, ih, if_pos ha]
    · rw [List.filter_cons_of_neg ha, List.foldl_cons, ih, if_neg ha]

/-- Collecting the selected elements by `push_back` builds the filtered list. -/
theorem foldl_push_eq_filter {β : Type} (p : β → Bool) (l : List β) :
    ∀ acc : List β,
      l.foldl (fun acc y => if p y then acc ++ [y] else acc) acc = acc ++ l.filter p := by
  induction l with
  | nil => intro acc; simp
  | cons a l ih =>
    intro acc
    rw [List.foldl_cons, ih]
    by_cases ha : p a = true
    · simp [ha]
    · simp [ha]

theorem getD_set_eq {β : Type} (l : List β) (k j : Nat) (v d : β) (hk : k < l.length) :
    (l.set k v).getD j d = if k = j then v else l.getD j d := by
  simp only [List.getD_eq_getElem?_getD, List.getElem?_set]
  by_cases h : k = j
  · subst h; simp [hk]
  · simp [h]

theorem foldl_length {σ β : Type} (f : List σ → β → List σ)
    (hf : ∀ s a, (f s a).length = s.length) (l : List β) :
    ∀ s : List σ, (l.foldl f s).length = s.length := by
  induction l with
  | nil => intro s; rfl
  | cons a l ih => intro s; rw [List.foldl_cons, ih, hf]

end RowShift

namespace TetrisNew

/-! ## `Board::canPlace` -/

theorem canPlace_cell_iff (b : Board) (t : Tetromino) (row col : Int) :
    b.canPlace t row col = true ↔
      ∀ r c : Nat, r < 4 → c < 4 → at2 t.shape r c ≠ 0 →
        0 ≤ row + r ∧ row + r < 20 ∧ 0 ≤ col + c ∧ col + c < 10 ∧
          b.getCell (row + r).toNat (col + c).toNat = 0 := by
  simp only [Board.canPlace, List.all_eq_true, List.mem_range, Board.getCell, BOARD_HEIGHT,
    BOARD_WIDTH, Nat.cast_ofNat]
  constructor
  · intro h r c hr hc hne
    have := h r hr c hc
    rw [if_pos hne] at this
    split_ifs at this with h1 h2
    simp only [ne_eq, not_not] at h2
    refine ⟨?_, ?_, ?_, ?_, h2⟩ <;> omega
  · intro h r hr c hc
    by_cases hne : at2 t.shape r c = 0
    · simp [hne]
    · obtain ⟨h1, h2, h3, h4, h5⟩ := h r c hr hc hne
      rw [if_pos hne, if_neg (by omega), if_neg (by simpa using h5)]

/-- C1: `canPlace` answers `true` exactly when every occupied cell `(r, c)` of the
4x4 shape lands at a row `row + r` in `[0, 20)`, a column `col + c` in `[0, 10)`
and on a board cell holding `0`; the anchor is any pair of integers.  Cells of
the mask that hold `0` play no part: two pieces with the same occupied cells get
the same answer. -/
theorem canPlace_spec (b : Board) (t : Tetromino) (row col : Int) :
    (b.canPlace t row col = true ↔
      ∀ r c : Nat, r < 4 → c < 4 → at2 t.shape r c ≠ 0 →
        0 ≤ row + r ∧ row + r < 20 ∧ 0 ≤ col + c ∧ col + c < 10 ∧
          b.getCell (row + r).toNat (col + c).toNat = 0) ∧
    (∀ u : Tetromino,
      (∀ r c : Nat, r < 4 → c < 4 → (at2 u.shape r c ≠ 0 ↔ at2 t.shape r c ≠ 0)) →
        b.canPlace u row col = b.canPlace t row col) := by
  refine ⟨canPlace_cell_iff b t row col, fun u hu => ?_⟩
  rw [Bool.eq_iff_iff, canPlace_cell_iff, canPlace_cell_iff]
  constructor
  · intro h r c hr hc hne
    exact h r c hr hc ((hu r c hr hc).mpr hne)
  · intro h r c hr hc hne
    exact h r c hr hc ((hu r c hr hc).mp hne)

/-! ## `Board::clearLines` -/

theorem shiftDown_length (r : Nat) : ∀ g : Grid, (shiftDown g r).length = g.length := by
  induction r with
  | zero => intro g; rfl
  | succ r ih =>
    intro g
    have : shiftDown g (r + 1) = shiftDown (g.set (r + 1) (g.getD (r + 1 - 1) [])) r := rfl
    rw [this, ih, List.length_set]

theorem shiftDown_getElem? (r : Nat) :
    ∀ (g : Grid) (i : Nat), r < g.length →
      (shiftDown g r)[i]? = if 1 ≤ i ∧ i ≤ r then g[i - 1]? else g[i]? := by
  induction r with
  | zero =>
    intro g i _
    have : ¬ (1 ≤ i ∧ i ≤ 0) := by omega
    rw [if_neg this]; rfl
  | succ r ih =>
    intro g i hr
    have hstep : shiftDown g (r + 1) = shiftDown (g.set (r + 1) (g.getD r [])) r := rfl
    rw [hstep, ih _ _ (by rw [List.length_set]; omega)]
    have hget : g.getD r [] = g[r] := List.getD_eq_getElem _ _ (by omega)
    have hsome : g[r]? = some g[r] := List.getElem?_eq_getElem (by omega)
    simp only [List.getElem?_set, hget]
    split_ifs <;> first | rfl | (exfalso; omega) | skip
    rename_i h1 h2 h3
    subst h2
    simp [hsome]

theorem clearRow_eq (g : Grid) (r : Nat) (z : List Int) (hr : r < g.length) :
    (shiftDown g r).set 0 z = z :: (g.take r ++ g.drop (r + 1)) := by
  apply List.ext_getElem?
  intro i
  rw [List.getElem?_set, shiftDown_length, shiftDown_getElem? r g i hr]
  cases i with
  | zero =>
    rw [if_pos rfl, if_pos (by omega)]; simp
  | succ i =>
    rw [if_neg (by omega), List.getElem?_cons_succ, List.getElem?_append, List.length_take,
      List.getElem?_drop]
    by_cases h : i < r
    · rw [if_pos (by omega), if_pos (by omega), List.getElem?_take_of_lt h]; simp
    · rw [if_neg (by omega), if_neg (by omega)]
      congr 1; omega

theorem clearStep_rows (rows : Grid) (s : Grid × Int) (P : Grid) (y : Nat)
    (hy : y < rows.length) (hP : P.length = y) (hs : s.1 = P ++ rows.drop y) :
    (clearStep s y).1 =
      (if rowFull rows[y] then
        List.replicate BOARD_WIDTH 0 ::
          ((P ++ rows.drop y).take y ++ (P ++ rows.drop y).drop (y + 1))
      else P ++ rows.drop y) ∧
    (clearStep s y).2 = s.2 + if rowFull rows[y] then 1 else 0 := by
  have hrow : s.1.getD y [] = rows[y] := by rw [hs]; exact RowShift.getD_at P rows [] y hP hy
  have hlen : y < s.1.length := by
    rw [hs, List.length_append, List.length_drop]; omega
  unfold clearStep
  rw [hrow]
  by_cases hfull : rowFull rows[y] = true
  · simp only [hfull, if_true]
    rw [clearRow_eq _ _ _ hlen, hs]
    simp
  · simp only [hfull]
    simp [hs]

theorem clearLoop_eq (g : Grid) (n : Nat) (hn : n ≤ g.length) :
    (List.range n).foldl clearStep (g, 0) =
      (List.replicate ((g.take n).countP rowFull) (List.replicate BOARD_WIDTH 0) ++
          (g.take n).filter (fun r => !rowFull r) ++ g.drop n,
        (((g.take n).countP rowFull : Nat) : Int)) := by
  have hf : ∀ (s : Grid × Int) (P : Grid) (y : Nat) (hy : y < g.length), True → P.length = y →
      s.1 = P ++ g.drop y →
      True ∧ (clearStep s y).1 =
        if rowFull g[y] then
          List.replicate BOARD_WIDTH 0 :: ((P ++ g.drop y).take y ++ (P ++ g.drop y).drop (y + 1))
        else P ++ g.drop y :=
    fun s P y hy _ hP hs => ⟨trivial, (clearStep_rows g s P y hy hP hs).1⟩
  have hc : ∀ (s : Grid × Int) (P : Grid) (y : Nat) (hy : y < g.length), True → P.length = y →
      s.1 = P ++ g.drop y → (clearStep s y).2 = s.2 + if rowFull g[y] then 1 else 0 :=
    fun s P y hy _ hP hs => (clearStep_rows g s P y hy hP hs).2
  have h1 := (RowShift.compact_fold Prod.fst (fun _ => True) rowFull (List.replicate BOARD_WIDTH 0)
    g clearStep hf (g, 0) rfl trivial n hn).2
  have h2 := RowShift.compact_count Prod.fst (fun _ => True) rowFull (List.replicate BOARD_WIDTH 0)
    g clearStep Prod.snd hf hc (g, 0) rfl trivial n hn
  apply Prod.ext
  · exact h1
  · simpa using h2

theorem rowFull_zeroRow : rowFull (List.replicate BOARD_WIDTH 0) = false := by decide

/-- C2: on a 20x10 board `clearLines` returns the number `k` of rows that had no
zero cell on entry, and leaves `k` all-zero rows on top followed by the other
rows of the input in their order.  The result is again 20x10, none of its rows
is full, every input row with a zero cell is still present, and every row below
the lowest full row keeps its place. -/
theorem clearLines_spec (b : Board) (hb : b.WF) :
    b.clearLines.2 = (b.board.countP rowFull : Nat) ∧
    b.clearLines.1.board =
      List.replicate (b.board.countP rowFull) (List.replicate BOARD_WIDTH 0) ++
        b.board.filter (fun r => !rowFull r) ∧
    b.clearLines.1.WF ∧
    (∀ row ∈ b.clearLines.1.board, rowFull row = false) ∧
    (∀ row ∈ b.board, rowFull row = false → row ∈ b.clearLines.1.board) ∧
    (∀ i : Nat, i < BOARD_HEIGHT →
      (∀ j : Nat, i ≤ j → j < BOARD_HEIGHT → rowFull (b.board.getD j []) = false) →
        b.clearLines.1.board.getD i [] = b.board.getD i []) := by
  obtain ⟨hlen, hrows⟩ := hb
  have hloop := clearLoop_eq b.board BOARD_HEIGHT (le_of_eq hlen.symm)
  rw [List.take_of_length_le (le_of_eq hlen), List.drop_eq_nil_of_le (le_of_eq hlen),
    List.append_nil] at hloop
  have hB : b.clearLines.1.board =
      List.replicate (b.board.countP rowFull) (List.replicate BOARD_WIDTH 0) ++
        b.board.filter (fun r => !rowFull r) := by
    simp only [Board.clearLines]
    rw [hloop]
  have hK : b.clearLines.2 = (b.board.countP rowFull : Nat) := by
    simp only [Board.clearLines]
    rw [hloop]
  have hcount := RowShift.kept_length rowFull (List.replicate BOARD_WIDTH 0) b.board
    b.board.length (le_refl _)
  rw [List.take_length] at hcount
  refine ⟨hK, hB, ⟨?_, ?_⟩, ?_, ?_, ?_⟩
  · rw [hB, hcount, hlen]
  · intro row hrow
    rw [hB, List.mem_append] at hrow
    rcases hrow with h | h
    · rw [(List.mem_replicate.mp h).2]; simp
    · exact hrows row (List.mem_filter.mp h).1
  · intro row hrow
    rw [hB, List.mem_append] at hrow
    rcases hrow with h | h
    · rw [(List.mem_replicate.mp h).2]; exact rowFull_zeroRow
    · simpa using (List.mem_filter.mp h).2
  · intro row hrow hnf
    rw [hB, List.mem_append]
    exact Or.inr (List.mem_filter.mpr ⟨hrow, by simp [hnf]⟩)
  · intro i hi htail
    have hi2 : i < b.board.length := by omega
    have hsplit : b.board = b.board.take i ++ b.board.drop i := (List.take_append_drop i _).symm
    have hall : ∀ row ∈ b.board.drop i, rowFull row = false := by
      intro row hrow
      obtain ⟨m, hm, rfl⟩ := List.getElem_of_mem hrow
      rw [List.length_drop] at hm
      have := htail (i + m) (by omega) (by omega)
      rw [List.getD_eq_getElem _ _ (by omega)] at this
      simpa using this
    have hfd : (b.board.drop i).filter (fun r => !rowFull r) = b.board.drop i := by
      rw [List.filter_eq_self]
      intro row hrow; simp [hall row hrow]
    have hcd : (b.board.drop i).countP rowFull = 0 := by
      rw [List.countP_eq_zero]
      intro row hrow; simp [hall row hrow]
    have hpre := RowShift.kept_length rowFull (List.replicate BOARD_WIDTH 0) b.board i
      (by omega)
    have hB2 : b.clearLines.1.board =
        (List.replicate ((b.board.take i).countP rowFull) (List.replicate BOARD_WIDTH 0) ++
          (b.board.take i).filter (fun r => !rowFull r)) ++ b.board.drop i := by
      rw [hB]
      conv_lhs => rw [hsplit, List.countP_append, List.filter_append, hfd, hcd]
      simp
    rw [hB2, RowShift.getD_at _ _ _ _ hpre hi2, List.getD_eq_getElem _ _ hi2]

theorem clearLines_spec_witness :
    demoBoard.WF ∧ demoBoard.clearLines.2 = (demoBoard.board.countP rowFull : Nat) :=
  ⟨by decide, (clearLines_spec demoBoard (by decide)).1⟩

/-! ## `Tetromino::rotateCW` -/

theorem list_length_four {α : Type} (l : List α) (h : l.length = 4) :
    ∃ a b c d, l = [a, b, c, d] := by
  match l, h with
  | [a, b, c, d], _ => exact ⟨a, b, c, d, rfl⟩

theorem shape4_cells (s : Grid) (h : Shape4 s) :
    ∃ a0 a1 a2 a3 b0 b1 b2 b3 c0 c1 c2 c3 d0 d1 d2 d3 : Int,
      s = [[a0, a1, a2, a3], [b0, b1, b2, b3], [c0, c1, c2, c3], [d0, d1, d2, d3]] := by
  obtain ⟨hl, hr⟩ := h
  obtain ⟨ra, rb, rc, rd, rfl⟩ := list_length_four s hl
  obtain ⟨a0, a1, a2, a3, rfl⟩ := list_length_four ra (hr _ (by simp))
  obtain ⟨b0, b1, b2, b3, rfl⟩ := list_length_four rb (hr _ (by simp))
  obtain ⟨c0, c1, c2, c3, rfl⟩ := list_length_four rc (hr _ (by simp))
  obtain ⟨d0, d1, d2, d3, rfl⟩ := list_length_four rd (hr _ (by simp))
  exact ⟨a0, a1, a2, a3, b0, b1, b2, b3, c0, c1, c2, c3, d0, d1, d2, d3, rfl⟩

/-- One quarter turn of an explicit 4x4 matrix. -/
theorem rotateCW_cells (a0 a1 a2 a3 b0 b1 b2 b3 c0 c1 c2 c3 d0 d1 d2 d3 k : Int) :
    Tetromino.rotateCW
        ⟨[[a0, a1, a2, a3], [b0, b1, b2, b3], [c0, c1, c2, c3], [d0, d1, d2, d3]], k⟩ =
      ⟨[[d0, c0, b0, a0], [d1, c1, b1, a1], [d2, c2, b2, a2], [d3, c3, b3, a3]], k⟩ := by
  simp [Tetromino.rotateCW, List.range_succ, set2, at2]

/-- C8: four applications of `rotateCW` give back a 4x4 shape cell for cell, and
`rotateCW` keeps `colorIndex` and the 4x4 format; in particular the identity
holds for each of the seven catalog pieces. -/
theorem rotateCW_four_fold (t : Tetromino) (h : Shape4 t.shape) :
    t.rotateCW.rotateCW.rotateCW.rotateCW = t ∧
    t.rotateCW.colorIndex = t.colorIndex ∧
    Shape4 t.rotateCW.shape ∧
    (∀ r : Nat, r < 7 →
      (catalogPiece r).rotateCW.rotateCW.rotateCW.rotateCW = catalogPiece r) := by
  obtain ⟨s, k⟩ := t
  obtain ⟨a0, a1, a2, a3, b0, b1, b2, b3, c0, c1, c2, c3, d0, d1, d2, d3, rfl⟩ :=
    shape4_cells s h
  refine ⟨?_, rfl, ?_, ?_⟩
  · simp only [rotateCW_cells]
  · rw [rotateCW_cells]
    exact ⟨rfl, by simp⟩
  · intro r hr
    interval_cases r <;> rfl

theorem rotateCW_four_fold_witness :
    Shape4 (catalogPiece 2).shape ∧
      (catalogPiece 2).rotateCW.rotateCW.rotateCW.rotateCW = catalogPiece 2 :=
  ⟨by decide, (rotateCW_four_fold (catalogPiece 2) (by decide)).1⟩

/-! ## `Board::place` -/

/-- Reading a cell after a store into an `h` x `w` grid. -/
theorem at2_set2 (g : Grid) (h w : Nat) (hg : g.length = h ∧ ∀ row ∈ g, row.length = w)
    (r c : Nat) (v : Int) (i j : Nat) (hr : r < h) (hc : c < w) :
    at2 (set2 g r c v) i j = if r = i ∧ c = j then v else at2 g i j := by
  obtain ⟨hl, hrow⟩ := hg
  have hrl : r < g.length := by omega
  have hgr : g.getD r [] = g[r] := List.getD_eq_getElem _ _ hrl
  have hcl : c < g[r].length := by rw [hrow _ (List.getElem_mem _)]; exact hc
  unfold at2 set2
  simp only [List.getD_eq_getElem?_getD, List.getElem?_set]
  by_cases hri : r = i
  · subst hri
    simp only [if_true, hrl, Option.getD_some, true_and]
    rw [List.getElem?_eq_getElem hrl, Option.getD_some]
    by_cases hcj : c = j
    · subst hcj; simp [hcl]
    · simp [hcj]
  · simp [hri]

theorem set2_wf (g : Grid) (h w : Nat) (hg : g.length = h ∧ ∀ row ∈ g, row.length = w)
    (r c : Nat) (v : Int) :
    (set2 g r c v).length = h ∧ ∀ row ∈ set2 g r c v, row.length = w := by
  obtain ⟨hl, hrow⟩ := hg
  unfold set2
  by_cases hr : r < g.length
  · refine ⟨by rw [List.length_set]; exact hl, ?_⟩
    intro row hmem
    rcases List.mem_or_eq_of_mem_set hmem with h1 | h1
    · exact hrow _ h1
    · rw [h1, List.length_set, List.getD_eq_getElem _ _ hr]
      exact hrow _ (List.getElem_mem _)
  · rw [List.set_eq_of_length_le (by omega)]
    exact ⟨hl, hrow⟩

/-- The cells of the 4x4 mask in the order the loops of `place` visit them. -/
theorem place_eq_fold (b : Board) (t : Tetromino) (row col : Int) :
    (b.place t row col).board =
      ((List.range 4).flatMap fun r => (List.range 4).map fun c => (r, c)).foldl
        (fun g rc =>
          if at2 t.shape rc.1 rc.2 ≠ 0 then storeCell g (row + rc.1) (col + rc.2) t.colorIndex
          else g)
        b.board := rfl

theorem place_fold_spec (t : Tetromino) (row col : Int) (l : List (Nat × Nat))
    (hin : ∀ rc ∈ l, at2 t.shape rc.1 rc.2 ≠ 0 →
      0 ≤ row + rc.1 ∧ row + rc.1 < 20 ∧ 0 ≤ col + rc.2 ∧ col + rc.2 < 10) :
    ∀ g : Grid, (g.length = 20 ∧ ∀ r ∈ g, r.length = 10) →
      let g2 := l.foldl
        (fun g rc =>
          if at2 t.shape rc.1 rc.2 ≠ 0 then storeCell g (row + rc.1) (col + rc.2) t.colorIndex
          else g) g
      (g2.length = 20 ∧ ∀ r ∈ g2, r.length = 10) ∧
      ∀ i j : Nat,
        ((∃ rc ∈ l, at2 t.shape rc.1 rc.2 ≠ 0 ∧ row + rc.1 = i ∧ col + rc.2 = j) →
          at2 g2 i j = t.colorIndex) ∧
        ((¬ ∃ rc ∈ l, at2 t.shape rc.1 rc.2 ≠ 0 ∧ row + rc.1 = i ∧ col + rc.2 = j) →
          at2 g2 i j = at2 g i j) := by
  induction l with
  | nil =>
    intro g hg
    exact ⟨hg, fun i j => ⟨fun h => by simp at h, fun _ => rfl⟩⟩
  | cons x l ih =>
    intro g hg
    have hin2 : ∀ rc ∈ l, at2 t.shape rc.1 rc.2 ≠ 0 →
        0 ≤ row + rc.1 ∧ row + rc.1 < 20 ∧ 0 ≤ col + rc.2 ∧ col + rc.2 < 10 :=
      fun rc h => hin rc (List.mem_cons_of_mem _ h)
    simp only [List.foldl_cons]
    by_cases hx : at2 t.shape x.1 x.2 = 0
    · -- the head cell is empty: nothing is stored
      have hstep : (if at2 t.shape x.1 x.2 ≠ 0 then
          storeCell g (row + x.1) (col + x.2) t.colorIndex else g) = g := by simp [hx]
      rw [hstep]
      obtain ⟨hwf, hcell⟩ := ih hin2 g hg
      refine ⟨hwf, fun i j => ⟨?_, ?_⟩⟩
      · rintro ⟨rc, hmem, hne, h1, h2⟩
        rcases List.mem_cons.mp hmem with rfl | hmem
        · exact absurd hx hne
        · exact (hcell i j).1 ⟨rc, hmem, hne, h1, h2⟩
      · intro hno
        exact (hcell i j).2 fun ⟨rc, hmem, hne, h1, h2⟩ =>
          hno ⟨rc, List.mem_cons_of_mem _ hmem, hne, h1, h2⟩
    · obtain ⟨b1, b2, b3, b4⟩ := hin x (List.mem_cons_self _ _) hx
      have hstep : (if at2 t.shape x.1 x.2 ≠ 0 then
          storeCell g (row + x.1) (col + x.2) t.colorIndex else g) =
          set2 g (row + x.1).toNat (col + x.2).toNat t.colorIndex := by
        simp [hx, storeCell, b1, b3]
      rw [hstep]
      have hg2 := set2_wf g 20 10 hg (row + x.1).toNat (col + x.2).toNat t.colorIndex
      obtain ⟨hwf, hcell⟩ := ih hin2 _ hg2
      refine ⟨hwf, fun i j => ⟨?_, ?_⟩⟩
      · rintro ⟨rc, hmem, hne, h1, h2⟩
        by_cases hl : ∃ rc ∈ l, at2 t.shape rc.1 rc.2 ≠ 0 ∧ row + rc.1 = i ∧ col + rc.2 = j
        · exact (hcell i j).1 hl
        · rw [(hcell i j).2 hl]
          rcases List.mem_cons.mp hmem with rfl | hmem
          · rw [at2_set2 g 20 10 hg _ _ _ _ _ (by omega) (by omega), if_pos (by omega)]
          · exact absurd ⟨rc, hmem, hne, h1, h2⟩ hl
      · intro hno
        have hl : ¬ ∃ rc ∈ l, at2 t.shape rc.1 rc.2 ≠ 0 ∧ row + rc.1 = i ∧ col + rc.2 = j :=
          fun ⟨rc, hmem, hne, h1, h2⟩ => hno ⟨rc, List.mem_cons_of_mem _ hmem, hne, h1, h2⟩
        rw [(hcell i j).2 hl, at2_set2 g 20 10 hg _ _ _ _ _ (by omega) (by omega)]
        have hx2 : ¬ ((row + x.1).toNat = i ∧ (col + x.2).toNat = j) := by
          intro ⟨e1, e2⟩
          exact hno ⟨x, List.mem_cons_self _ _, hx, by omega, by omega⟩
        rw [if_neg hx2]

/-- C9: when every occupied cell of the shape lies inside the 20x10 grid at the
anchor `(row, col)`, `place` stores the color index of the piece in the board
cell under each occupied shape cell and leaves every other board cell (and the
20x10 format) as it was. -/
theorem place_spec (b : Board) (t : Tetromino) (row col : Int) (hb : b.WF)
    (hin : ∀ r c : Nat, r < 4 → c < 4 → at2 t.shape r c ≠ 0 →
      0 ≤ row + r ∧ row + r < 20 ∧ 0 ≤ col + c ∧ col + c < 10) :
    (b.place t row col).WF ∧
    (∀ r c : Nat, r < 4 → c < 4 → at2 t.shape r c ≠ 0 →
      (b.place t row col).getCell (row + r).toNat (col + c).toNat = t.colorIndex) ∧
    (∀ i j : Nat,
      (¬ ∃ r c : Nat, r < 4 ∧ c < 4 ∧ at2 t.shape r c ≠ 0 ∧ row + r = i ∧ col + c = j) →
        (b.place t row col).getCell i j = b.getCell i j) := by
  have hmemp : ∀ rc : Nat × Nat,
      rc ∈ ((List.range 4).flatMap fun r => (List.range 4).map fun c => (r, c)) ↔
        rc.1 < 4 ∧ rc.2 < 4 := by
    intro rc
    simp only [List.mem_flatMap, List.mem_map, List.mem_range]
    constructor
    · rintro ⟨r, hr, c, hc, rfl⟩; exact ⟨hr, hc⟩
    · rintro ⟨h1, h2⟩; exact ⟨rc.1, h1, rc.2, h2, rfl⟩
  have key := place_fold_spec t row col
    ((List.range 4).flatMap fun r => (List.range 4).map fun c => (r, c))
    (fun rc hmem hne => hin rc.1 rc.2 ((hmemp rc).mp hmem).1 ((hmemp rc).mp hmem).2 hne)
    b.board hb
  simp only [← place_eq_fold] at key
  obtain ⟨hwf, hcell⟩ := key
  refine ⟨hwf, ?_, ?_⟩
  · intro r c hr hc hne
    obtain ⟨b1, b2, b3, b4⟩ := hin r c hr hc hne
    exact (hcell _ _).1 ⟨(r, c), (hmemp (r, c)).mpr ⟨hr, hc⟩, hne, by simp; omega, by simp; omega⟩
  · intro i j hno
    exact (hcell i j).2 fun ⟨rc, hmem, hne, h1, h2⟩ =>
      hno ⟨rc.1, rc.2, ((hmemp rc).mp hmem).1, ((hmemp rc).mp hmem).2, hne, h1, h2⟩

theorem place_spec_witness :
    demoBoard.WF ∧ (demoBoard.place (catalogPiece 2) 16 3).WF :=
  ⟨by decide,
    (place_spec demoBoard (catalogPiece 2) 16 3 (by decide)
      (fun r c hr hc _ => by omega)).1⟩

/-! ## The hard-drop loop of `Game::handleInput` -/

/-- The hard-drop loop: a result differs from the start in `currentRow` only,
the piece has gone down through rows at which it can be placed, and it cannot be
placed one row below the row where the loop stops. -/
theorem game_dropLoop_result : ∀ (fuel : Nat) (g h : Game), g.dropLoop fuel = some h →
    h = { g with currentRow := h.currentRow } ∧ g.currentRow ≤ h.currentRow ∧
    g.board.canPlace g.currentPiece (h.currentRow + 1) g.currentCol = false ∧
    (∀ r : Int, g.currentRow ≤ r → r < h.currentRow →
      g.board.canPlace g.currentPiece (r + 1) g.currentCol = true) := by
  intro fuel
  induction fuel with
  | zero => intro g h hres; simp [Game.dropLoop] at hres
  | succ n ih =>
    intro g h hres
    unfold Game.dropLoop at hres
    by_cases hfit : g.board.canPlace g.currentPiece (g.currentRow + 1) g.currentCol = true
    · rw [if_pos hfit] at hres
      obtain ⟨h1, h2, h3, h4⟩ := ih _ _ hres
      refine ⟨?_, ?_, ?_, ?_⟩
      · rw [h1]
      · have : g.currentRow + 1 ≤ h.currentRow := h2
        omega
      · exact h3
      · intro r hr1 hr2
        by_cases hr : r = g.currentRow
        · rw [hr]; exact hfit
        · exact h4 r (by show g.currentRow + 1 ≤ r; omega) hr2
    · rw [if_neg hfit] at hres
      rw [← Option.some.inj hres]
      refine ⟨rfl, le_refl _, by simpa using hfit, ?_⟩
      intro r hr1 hr2
      omega

/-- A piece with an occupied cell cannot be placed with its anchor below row `19`. -/
theorem canPlace_row_le (b : Board) (t : Tetromino) (row col : Int)
    (hocc : ∃ r c : Nat, r < 4 ∧ c < 4 ∧ at2 t.shape r c ≠ 0)
    (hfit : b.canPlace t row col = true) : row ≤ 19 := by
  obtain ⟨r, c, hr, hc, hne⟩ := hocc
  have := (canPlace_cell_iff b t row col).mp hfit r c hr hc hne
  omega

/-- The hard-drop loop stops within `20 - currentRow` steps. -/
theorem game_dropLoop_total : ∀ (fuel : Nat) (g : Game),
    (∃ r c : Nat, r < 4 ∧ c < 4 ∧ at2 g.currentPiece.shape r c ≠ 0) →
    (20 - g.currentRow).toNat < fuel → ∃ h, g.dropLoop fuel = some h := by
  intro fuel
  induction fuel with
  | zero => intro g _ hlt; omega
  | succ n ih =>
    intro g hocc hlt
    unfold Game.dropLoop
    by_cases hfit : g.board.canPlace g.currentPiece (g.currentRow + 1) g.currentCol = true
    · rw [if_pos hfit]
      have hle := canPlace_row_le _ _ _ _ hocc hfit
      refine ih { g with currentRow := g.currentRow + 1 } hocc ?_
      show (20 - (g.currentRow + 1)).toNat < n
      omega
    · rw [if_neg hfit]
      exact ⟨g, rfl⟩

/-! ## A lock over occupied cells -/

set_option maxRecDepth 1000000 in
set_option maxHeartbeats 4000000 in
/-- C17 at the failing input: in the session `Game.new towerRand` after the
frames `towerKeys` the game is not over, the promoted O piece cannot be placed
at the spawn anchor (row `0`, column `3`), and the `moveDown` of the next frame
runs `lockPiece`, which stores the O piece over the cells `(1, 3)` and `(1, 4)`
held by an I piece; only then does the frame set `gameOver`. -/
theorem lock_over_occupied :
    (Game.new towerRand).runFrames towerRand 40 towerKeys = some towerTop ∧
    towerTop.gameOver = false ∧
    (towerTop.currentRow = 0 ∧ towerTop.currentCol = 3) ∧
    towerTop.board.canPlace towerTop.currentPiece towerTop.currentRow towerTop.currentCol =
      false ∧
    towerTop.moveDown towerRand = towerTop.lockPiece towerRand ∧
    (at2 towerTop.board.board 1 3 = 1 ∧ at2 towerTop.board.board 1 4 = 1) ∧
    (at2 (towerTop.moveDown towerRand).board.board 1 3 = 2 ∧
      at2 (towerTop.moveDown towerRand).board.board 1 4 = 2) ∧
    (towerTop.frame towerRand 40 []).map (fun g => g.gameOver) = some true := by
  decide

/-! ## The delay of a frame -/

/-- The delay as a function of the level: `80 - 10 * level` up to level `8`,
then `10`. -/
theorem frameDelay_eq (level : Int) :
    frameDelay level = if level ≤ 8 then 80 - 10 * level else 10 := by
  unfold frameDelay
  simp only
  split_ifs <;> omega

/-- C21 at the failing input: the delay of a frame is `10` at level `7`, `0` at
level `8` and `10` again at level `9`, because the value `70 - (level - 1) * 10`
is replaced by `10` only when it is negative; the frames of level `9` are
slower than those of level `8`. -/
theorem delay_rises_at_level_nine :
    frameDelay 7 = 10 ∧ frameDelay 8 = 0 ∧ frameDelay 9 = 10 ∧
      ¬ frameDelay 9 ≤ frameDelay 8 := by
  decide

end TetrisNew

namespace Tetris

/-! ## The lock sequence of `updateGame` -/

theorem doesPieceFit_congr (g h : TetrisGame) (hf : g.field = h.field) (a b c d : Int) :
    g.doesPieceFit a b c d = h.doesPieceFit a b c d := by
  unfold TetrisGame.doesPieceFit; rw [hf]

/-- What the movement keys leave alone. -/
theorem moveKeys_frame (g : TetrisGame) :
    g.moveKeys.field = g.field ∧ g.moveKeys.currentPiece = g.currentPiece ∧
    g.moveKeys.currentRotation = g.currentRotation ∧ g.moveKeys.keys = g.keys ∧
    g.moveKeys.forcePieceDown = g.forcePieceDown ∧ g.moveKeys.score = g.score ∧
    g.moveKeys.nextPiece = g.nextPiece ∧ g.moveKeys.level = g.level ∧
    g.moveKeys.totalLinesCleared = g.totalLinesCleared ∧ g.moveKeys.speed = g.speed ∧
    g.moveKeys.previousField = g.previousField ∧ g.moveKeys.previousPiece = g.previousPiece ∧
    g.moveKeys.previousRotation = g.previousRotation ∧ g.moveKeys.previousX = g.previousX ∧
    g.moveKeys.previousY = g.previousY ∧ g.moveKeys.previousScore = g.previousScore := by
  unfold TetrisGame.moveKeys
  simp only
  split_ifs <;> simp

/-- What the rotate key leaves alone. -/
theorem rotateKey_frame (g : TetrisGame) :
    g.rotateKey.field = g.field ∧ g.rotateKey.currentPiece = g.currentPiece ∧
    g.rotateKey.currentX = g.currentX ∧ g.rotateKey.currentY = g.currentY ∧
    g.rotateKey.forcePieceDown = g.forcePieceDown ∧ g.rotateKey.score = g.score ∧
    g.rotateKey.nextPiece = g.nextPiece ∧ g.rotateKey.level = g.level ∧
    g.rotateKey.totalLinesCleared = g.totalLinesCleared ∧ g.rotateKey.speed = g.speed ∧
    g.rotateKey.previousField = g.previousField ∧ g.rotateKey.previousPiece = g.previousPiece ∧
    g.rotateKey.previousRotation = g.previousRotation ∧ g.rotateKey.previousX = g.previousX ∧
    g.rotateKey.previousY = g.previousY ∧ g.rotateKey.previousScore = g.previousScore := by
  unfold TetrisGame.rotateKey
  simp only
  split_ifs <;> simp

/-- What the step counter leaves alone. -/
theorem countStep_frame (g : TetrisGame) :
    g.countStep.field = g.field ∧ g.countStep.currentPiece = g.currentPiece ∧
    g.countStep.currentRotation = g.currentRotation ∧
    g.countStep.currentX = g.currentX ∧ g.countStep.currentY = g.currentY ∧
    g.countStep.score = g.score ∧
    g.countStep.nextPiece = g.nextPiece ∧ g.countStep.level = g.level ∧
    g.countStep.totalLinesCleared = g.totalLinesCleared ∧
    g.countStep.previousField = g.previousField ∧ g.countStep.previousPiece = g.previousPiece ∧
    g.countStep.previousRotation = g.previousRotation ∧ g.countStep.previousX = g.previousX ∧
    g.countStep.previousY = g.previousY ∧ g.countStep.previousScore = g.previousScore := by
  unfold TetrisGame.countStep
  simp only
  split_ifs <;> simp

/-- The state in which the lock sequence starts. -/
theorem updateGame_of_locksNow (g : TetrisGame) (draw : Nat) (hl : g.locksNow) :
    g.updateGame draw = g.moveKeys.rotateKey.countStep.lockPiece draw := by
  obtain ⟨hforce, hland⟩ := hl
  have hf : g.moveKeys.rotateKey.forcePieceDown = true := by
    rw [(rotateKey_frame _).2.2.2.2.1, (moveKeys_frame _).2.2.2.2.1, hforce]
  have hc := countStep_frame g.moveKeys.rotateKey
  unfold TetrisGame.updateGame TetrisGame.gravityStep
  rw [if_pos hf]
  simp only
  rw [doesPieceFit_congr _ _ hc.1, hc.2.1, hc.2.2.1, hc.2.2.2.1, hc.2.2.2.2.1, hland]
  simp

theorem mergePiece_congr (g h : TetrisGame) (h1 : g.field = h.field)
    (h2 : g.currentPiece = h.currentPiece) (h3 : g.currentRotation = h.currentRotation)
    (h4 : g.currentX = h.currentX) (h5 : g.currentY = h.currentY) :
    g.mergePiece = h.mergePiece := by
  unfold TetrisGame.mergePiece; rw [h1, h2, h3, h4, h5]

/-- The members written by the lock sequence, in terms of the state `g` it
starts from. -/
theorem lockPiece_fields (g : TetrisGame) (draw : Nat) :
    (g.lockPiece draw).completedLines = detectLines g.mergePiece ∧
    (g.lockPiece draw).nextPiece = ((draw % 7 : Nat) : Int) ∧
    (g.lockPiece draw).currentPiece = g.nextPiece ∧
    (g.lockPiece draw).previousField = some g.field ∧
    (g.lockPiece draw).previousPiece = g.currentPiece ∧
    (g.lockPiece draw).previousRotation = g.currentRotation ∧
    (g.lockPiece draw).previousX = g.currentX ∧
    (g.lockPiece draw).previousY = g.currentY ∧
    (g.lockPiece draw).previousScore = g.score ∧
    (g.lockPiece draw).totalLinesCleared =
      (if (detectLines g.mergePiece).isEmpty then g.totalLinesCleared
       else g.totalLinesCleared + (detectLines g.mergePiece).length) ∧
    (g.lockPiece draw).level =
      (if (detectLines g.mergePiece).isEmpty then g.level
       else max 1 (Int.tdiv (g.totalLinesCleared + (detectLines g.mergePiece).length) 2 + 1)) ∧
    (g.lockPiece draw).speed =
      (if (detectLines g.mergePiece).isEmpty then g.speed
       else max 2 (30 - (g.lockPiece draw).level * 2)) ∧
    (g.lockPiece draw).score =
      (if (detectLines g.mergePiece).isEmpty then g.score + 250
       else g.score + 250 +
        lineBonus (detectLines g.mergePiece).length (g.lockPiece draw).level) ∧
    (g.lockPiece draw).field =
      (if (detectLines g.mergePiece).isEmpty then g.mergePiece
       else shiftLines (flashLines g.mergePiece (detectLines g.mergePiece) g.currentPiece)
        (detectLines g.mergePiece)) := by
  have hm : g.saveState.mergePiece = g.mergePiece := mergePiece_congr _ _ rfl rfl rfl rfl rfl
  unfold TetrisGame.lockPiece
  simp only [hm]
  by_cases he : (detectLines g.mergePiece).isEmpty = true
  · simp [he, TetrisGame.saveState]
  · simp [he, TetrisGame.saveState]

set_option maxRecDepth 8000 in
theorem fillingO_field_length : fillingO.field.length = 240 := by decide

/-- The state at the start of the lock sequence agrees with the state after the
keys on everything the merge reads. -/
theorem merge_after_count (g : TetrisGame) :
    g.countStep.mergePiece = g.mergePiece :=
  mergePiece_congr _ _ (countStep_frame g).1 (countStep_frame g).2.1 (countStep_frame g).2.2.1
    (countStep_frame g).2.2.2.1 (countStep_frame g).2.2.2.2.1

theorem score_before_lock (g : TetrisGame) :
    g.moveKeys.rotateKey.countStep.score = g.score := by
  rw [(countStep_frame _).2.2.2.2.2.1, (rotateKey_frame _).2.2.2.2.2.1,
    (moveKeys_frame _).2.2.2.2.2.1]

theorem total_before_lock (g : TetrisGame) :
    g.moveKeys.rotateKey.countStep.totalLinesCleared = g.totalLinesCleared := by
  rw [(countStep_frame _).2.2.2.2.2.2.2.2.1, (rotateKey_frame _).2.2.2.2.2.2.2.2.1,
    (moveKeys_frame _).2.2.2.2.2.2.2.2.1]

theorem level_before_lock (g : TetrisGame) :
    g.moveKeys.rotateKey.countStep.level = g.level := by
  rw [(countStep_frame _).2.2.2.2.2.2.2.1, (rotateKey_frame _).2.2.2.2.2.2.2.1,
    (moveKeys_frame _).2.2.2.2.2.2.2.1]

/-- C4: a lock (gravity step due, piece unable to move one row down after the
keys of the frame) that completes `n` rows raises the score by `250` for
`n = 0` and by `250 + B(n) * L` for `n = 1, 2, 3, 4` with `B = 1000, 2000, 3000,
5000`, one table entry chosen by `n`; `L` is the level that this same lock has
recomputed from the line total it has just raised by `n`, and `n` counts the
rows found complete after the merge. -/
theorem lock_score (g : TetrisGame) (draw : Nat) (hl : g.locksNow) :
    (g.updateGame draw).completedLines = detectLines g.moveKeys.rotateKey.mergePiece ∧
    ((g.updateGame draw).completedLines.length = 0 →
      (g.updateGame draw).score = g.score + 250) ∧
    ((g.updateGame draw).completedLines.length = 1 →
      (g.updateGame draw).score = g.score + 250 + 1000 * (g.updateGame draw).level) ∧
    ((g.updateGame draw).completedLines.length = 2 →
      (g.updateGame draw).score = g.score + 250 + 2000 * (g.updateGame draw).level) ∧
    ((g.updateGame draw).completedLines.length = 3 →
      (g.updateGame draw).score = g.score + 250 + 3000 * (g.updateGame draw).level) ∧
    ((g.updateGame draw).completedLines.length = 4 →
      (g.updateGame draw).score = g.score + 250 + 5000 * (g.updateGame draw).level) ∧
    (1 ≤ (g.updateGame draw).completedLines.length →
      (g.updateGame draw).level =
        max 1 (Int.tdiv (g.totalLinesCleared + (g.updateGame draw).completedLines.length) 2 + 1))
    := by
  have hf := lockPiece_fields g.moveKeys.rotateKey.countStep draw
  rw [merge_after_count, score_before_lock, total_before_lock, level_before_lock] at hf
  obtain ⟨hcl, -, -, -, -, -, -, -, -, -, hlev, -, hsc, -⟩ := hf
  rw [updateGame_of_locksNow g draw hl, hcl]
  have hemp : ∀ k, (detectLines g.moveKeys.rotateKey.mergePiece).length = k → 1 ≤ k →
      (detectLines g.moveKeys.rotateKey.mergePiece).isEmpty = false := by
    intro k hk h1
    cases hd : detectLines g.moveKeys.rotateKey.mergePiece with
    | nil => rw [hd] at hk; simp at hk; omega
    | cons a l => rfl
  refine ⟨rfl, ?_, ?_, ?_, ?_, ?_, ?_⟩
  · intro h0
    have : (detectLines g.moveKeys.rotateKey.mergePiece).isEmpty = true := by
      rw [List.isEmpty_iff]; exact List.length_eq_zero.mp h0
    rw [hsc, if_pos this]
  · intro h; rw [hsc, hemp 1 h (by omega), h]; simp [lineBonus]
  · intro h; rw [hsc, hemp 2 h (by omega), h]; simp [lineBonus]
  · intro h; rw [hsc, hemp 3 h (by omega), h]; simp [lineBonus]
  · intro h; rw [hsc, hemp 4 h (by omega), h]; simp [lineBonus]
  · intro h; rw [hlev, hemp _ rfl h]; simp

theorem lock_score_witness :
    fillingO.locksNow ∧ (fillingO.updateGame 1).completedLines.length = 1 ∧
      (fillingO.updateGame 1).score = fillingO.score + 250 + 1000 * (fillingO.updateGame 1).level :=
  ⟨by decide, by decide, (lock_score fillingO 1 (by decide)).2.2.1 (by decide)⟩

/-- C10: a lock that completes `n >= 1` rows raises `totalLinesCleared` by `n`,
sets `level` to `max(1, totalLinesCleared / 2 + 1)` on the raised total (the
truncating division of C++, which is the floor for a non-negative total) and
`speed` to `max(2, 30 - 2 * level)`; a lock that completes no row leaves
`totalLinesCleared` and `level` as they were. -/
theorem lock_level_speed (g : TetrisGame) (draw : Nat) (hl : g.locksNow) :
    (1 ≤ (g.updateGame draw).completedLines.length →
      (g.updateGame draw).totalLinesCleared =
        g.totalLinesCleared + (g.updateGame draw).completedLines.length ∧
      (g.updateGame draw).level =
        max 1 (Int.tdiv (g.updateGame draw).totalLinesCleared 2 + 1) ∧
      (0 ≤ g.totalLinesCleared →
        (g.updateGame draw).level = max 1 ((g.updateGame draw).totalLinesCleared / 2 + 1)) ∧
      (g.updateGame draw).speed = max 2 (30 - 2 * (g.updateGame draw).level)) ∧
    ((g.updateGame draw).completedLines.length = 0 →
      (g.updateGame draw).totalLinesCleared = g.totalLinesCleared ∧
      (g.updateGame draw).level = g.level) := by
  have hf := lockPiece_fields g.moveKeys.rotateKey.countStep draw
  rw [merge_after_count, score_before_lock, total_before_lock, level_before_lock] at hf
  obtain ⟨hcl, -, -, -, -, -, -, -, -, htot, hlev, hsp, -, -⟩ := hf
  rw [updateGame_of_locksNow g draw hl, hcl]
  constructor
  · intro h
    have hne : (detectLines g.moveKeys.rotateKey.mergePiece).isEmpty = false := by
      cases hd : detectLines g.moveKeys.rotateKey.mergePiece with
      | nil => rw [hd] at h; simp at h
      | cons a l => rfl
    rw [hne] at htot hlev hsp
    simp only [Bool.false_eq_true, if_false] at htot hlev hsp
    refine ⟨htot, ?_, ?_, ?_⟩
    · rw [hlev, htot]
    · intro h0
      rw [hlev, htot, Int.tdiv_eq_ediv (by omega) (by decide)]
    · rw [hsp, mul_comm]
  · intro h
    have he : (detectLines g.moveKeys.rotateKey.mergePiece).isEmpty = true := by
      rw [List.isEmpty_iff]; exact List.length_eq_zero.mp h
    rw [he] at htot hlev
    simp only [if_true] at htot hlev
    exact ⟨htot, hlev⟩

theorem lock_level_speed_witness :
    fillingO.locksNow ∧ 1 ≤ (fillingO.updateGame 1).completedLines.length ∧
      (fillingO.updateGame 1).speed = max 2 (30 - 2 * (fillingO.updateGame 1).level) :=
  ⟨by decide, by decide, ((lock_level_speed fillingO 1 (by decide)).1 (by decide)).2.2.2⟩

/-! ## Line detection and the row shift of `updateGame` -/

theorem mem_interior_cols (x : Nat) : x ∈ List.range' 1 (fieldWidth - 2) ↔ 1 ≤ x ∧ x ≤ 10 := by
  rw [List.mem_range']
  constructor
  · rintro ⟨i, hi, rfl⟩
    have : fieldWidth - 2 = 10 := rfl
    omega
  · rintro ⟨h1, h2⟩
    exact ⟨x - 1, by have : fieldWidth - 2 = 10 := rfl; omega, by omega⟩

theorem detectLines_eq_filter (field : List Nat) :
    detectLines field = (List.range (fieldHeight - 1)).filter (lineComplete field) := by
  unfold detectLines
  rw [RowShift.foldl_push_eq_filter]
  rfl

theorem lineComplete_eq (field : List Nat) (y : Nat) :
    lineComplete field y = rowNonzero (interiorRow field y) := by
  unfold lineComplete rowNonzero interiorRow
  rw [List.all_map]
  rfl

/-- The copy of one interior row: reads of the result in terms of the start. -/
theorem copy_fold_getD (y : Nat) (hy : 1 ≤ y) (xs : List Nat)
    (hxs : ∀ x ∈ xs, 1 ≤ x ∧ x ≤ 10) :
    ∀ f : List Nat, y * 12 + 10 < f.length → ∀ i : Nat,
      (xs.foldl (fun f x => f.set (y * fieldWidth + x) (f.getD ((y - 1) * fieldWidth + x) 0))
        f).getD i 0 =
        if i / 12 = y ∧ i % 12 ∈ xs then f.getD (i - 12) 0 else f.getD i 0 := by
  induction xs with
  | nil => intro f _ i; simp
  | cons x xs ih =>
    intro f hlen i
    have hx := hxs x (List.mem_cons_self _ _)
    have hw : fieldWidth = 12 := rfl
    rw [List.foldl_cons, ih (fun a ha => hxs a (List.mem_cons_of_mem _ ha)) _
      (by rw [List.length_set]; exact hlen), hw]
    have hk : y * 12 + x < f.length := by omega
    by_cases hc : i / 12 = y ∧ i % 12 ∈ xs
    · rw [if_pos hc, if_pos ⟨hc.1, List.mem_cons_of_mem _ hc.2⟩, RowShift.getD_set_eq _ _ _ _ _ hk,
        if_neg (by omega)]
    · rw [if_neg hc, RowShift.getD_set_eq _ _ _ _ _ hk]
      by_cases hi : y * 12 + x = i
      · rw [if_pos hi, if_pos ⟨by omega, by
          have : i % 12 = x := by omega
          rw [this]; exact List.mem_cons_self _ _⟩]
        congr 1; omega
      · rw [if_neg hi, if_neg]
        rintro ⟨h1, h2⟩
        rcases List.mem_cons.mp h2 with h3 | h3
        · omega
        · exact hc ⟨h1, h3⟩

theorem copyRowDown_getD (f : List Nat) (y : Nat) (hy : 1 ≤ y) (hlen : y * 12 + 10 < f.length)
    (i : Nat) :
    (copyRowDown f y).getD i 0 =
      if i / 12 = y ∧ 1 ≤ i % 12 ∧ i % 12 ≤ 10 then f.getD (i - 12) 0 else f.getD i 0 := by
  unfold copyRowDown
  rw [copy_fold_getD y hy _ (fun x hx => (mem_interior_cols x).mp hx) f hlen i]
  simp only [mem_interior_cols]

theorem copyRowDown_length (f : List Nat) (y : Nat) : (copyRowDown f y).length = f.length := by
  unfold copyRowDown
  exact RowShift.foldl_length _ (fun s a => List.length_set _ _ _) _ f

theorem clearTopRow_length (f : List Nat) : (clearTopRow f).length = f.length := by
  unfold clearTopRow
  exact RowShift.foldl_length _ (fun s a => List.length_set _ _ _) _ f

theorem clear_fold_getD (xs : List Nat) :
    ∀ f : List Nat, (∀ x ∈ xs, x < f.length) → ∀ i : Nat,
      (xs.foldl (fun f x => f.set x 0) f).getD i 0 = if i ∈ xs then 0 else f.getD i 0 := by
  induction xs with
  | nil => intro f _ i; simp
  | cons x xs ih =>
    intro f hlen i
    rw [List.foldl_cons, ih _ (fun a ha => by
      rw [List.length_set]; exact hlen a (List.mem_cons_of_mem _ ha))]
    have hk : x < f.length := hlen x (List.mem_cons_self _ _)
    by_cases hc : i ∈ xs
    · rw [if_pos hc, if_pos (List.mem_cons_of_mem _ hc)]
    · rw [if_neg hc, RowShift.getD_set_eq _ _ _ _ _ hk]
      by_cases hi : x = i
      · rw [if_pos hi, if_pos (by rw [hi]; exact List.mem_cons_self _ _)]
      · rw [if_neg hi, if_neg]
        intro h2
        rcases List.mem_cons.mp h2 with h3 | h3
        · exact hi h3.symm
        · exact hc h3

theorem clearTopRow_getD (f : List Nat) (hlen : 10 < f.length) (i : Nat) :
    (clearTopRow f).getD i 0 = if 1 ≤ i ∧ i ≤ 10 then 0 else f.getD i 0 := by
  unfold clearTopRow
  rw [clear_fold_getD _ f (fun x hx => by have := (mem_interior_cols x).mp hx; omega) i]
  simp only [mem_interior_cols]

theorem rows_fold_length (line : Nat) :
    ∀ f : List Nat, ((List.iota line).foldl copyRowDown f).length = f.length := by
  intro f
  exact RowShift.foldl_length _ (fun s a => copyRowDown_length s a) _ f

/-- The copies for `y = line, .., 1`: every interior cell of the rows `1 .. line`
receives the cell above it of the start field. -/
theorem rows_fold_getD (line : Nat) :
    ∀ f : List Nat, line * 12 + 10 < f.length → ∀ i : Nat,
      ((List.iota line).foldl copyRowDown f).getD i 0 =
        if 1 ≤ i / 12 ∧ i / 12 ≤ line ∧ 1 ≤ i % 12 ∧ i % 12 ≤ 10 then f.getD (i - 12) 0
        else f.getD i 0 := by
  induction line with
  | zero =>
    intro f _ i
    rw [if_neg (by omega)]; rfl
  | succ n ih =>
    intro f hlen i
    rw [List.iota_succ, List.foldl_cons,
      ih _ (by rw [copyRowDown_length]; omega),
      copyRowDown_getD f (n + 1) (by omega) hlen, copyRowDown_getD f (n + 1) (by omega) hlen]
    by_cases h1 : 1 ≤ i / 12 ∧ i / 12 ≤ n ∧ 1 ≤ i % 12 ∧ i % 12 ≤ 10
    · rw [if_pos h1, if_neg (by omega), if_pos (by omega)]
    · rw [if_neg h1]
      by_cases h2 : i / 12 = n + 1 ∧ 1 ≤ i % 12 ∧ i % 12 ≤ 10
      · rw [if_pos h2, if_pos (by omega)]
      · rw [if_neg h2, if_neg (by omega)]

theorem shiftLine_length (f : List Nat) (line : Nat) : (shiftLine f line).length = f.length := by
  unfold shiftLine
  rw [clearTopRow_length, rows_fold_length]

theorem shiftLine_getD (f : List Nat) (line : Nat) (hlen : line * 12 + 10 < f.length) (i : Nat) :
    (shiftLine f line).getD i 0 =
      if i / 12 ≤ line ∧ 1 ≤ i % 12 ∧ i % 12 ≤ 10 then
        (if i / 12 = 0 then 0 else f.getD (i - 12) 0)
      else f.getD i 0 := by
  unfold shiftLine
  rw [clearTopRow_getD _ (by rw [rows_fold_length]; omega), rows_fold_getD line f hlen]
  by_cases h0 : 1 ≤ i ∧ i ≤ 10
  · rw [if_pos h0, if_pos (by omega), if_pos (by omega)]
  · rw [if_neg h0]
    by_cases h1 : 1 ≤ i / 12 ∧ i / 12 ≤ line ∧ 1 ≤ i % 12 ∧ i % 12 ≤ 10
    · rw [if_pos h1, if_pos (by omega), if_neg (by omega)]
    · rw [if_neg h1, if_neg (by omega)]

theorem interior_length (f : List Nat) : (interior f).length = 19 := by
  unfold interior; rw [List.length_map, List.length_range]; rfl

theorem interior_getElem? (f : List Nat) (y : Nat) (hy : y < 19) :
    (interior f)[y]? = some (interiorRow f y) := by
  unfold interior
  rw [List.getElem?_map, List.getElem?_range (by exact hy)]
  rfl

theorem interiorRow_congr (f g : List Nat) (y z : Nat)
    (h : ∀ x, 1 ≤ x → x ≤ 10 → f.getD (y * 12 + x) 0 = g.getD (z * 12 + x) 0) :
    interiorRow f y = interiorRow g z := by
  unfold interiorRow
  apply List.map_congr_left
  intro x hx
  obtain ⟨h1, h2⟩ := (mem_interior_cols x).mp hx
  exact h x h1 h2

theorem interiorRow_zero (f : List Nat)
    (h : ∀ x, 1 ≤ x → x ≤ 10 → f.getD x 0 = 0) :
    interiorRow f 0 = List.replicate 10 0 := by
  have : interiorRow f 0 = (List.range' 1 (fieldWidth - 2)).map (fun _ => 0) := by
    unfold interiorRow
    apply List.map_congr_left
    intro x hx
    obtain ⟨h1, h2⟩ := (mem_interior_cols x).mp hx
    simpa using h x h1 h2
  rw [this]; rfl

/-- Removing one completed line in the field is removing that row from the
playable interior and putting a zero row on top. -/
theorem interior_shiftLine (f : List Nat) (line : Nat) (hline : line < 19)
    (hlen : f.length = 240) :
    interior (shiftLine f line) =
      List.replicate 10 0 :: ((interior f).take line ++ (interior f).drop (line + 1)) := by
  have hl2 : line * 12 + 10 < f.length := by omega
  apply List.ext_getElem?
  intro y
  by_cases hy : y < 19
  · rw [interior_getElem? _ y hy]
    cases y with
    | zero =>
      rw [List.getElem?_cons_zero, interiorRow_zero]
      intro x h1 h2
      rw [shiftLine_getD f line hl2, if_pos (by omega), if_pos (by omega)]
    | succ y =>
      rw [List.getElem?_cons_succ, List.getElem?_append, List.length_take, interior_length]
      by_cases hyl : y < line
      · rw [if_pos (by omega), List.getElem?_take_of_lt hyl, interior_getElem? f y (by omega)]
        congr 1
        apply interiorRow_congr
        intro x h1 h2
        rw [shiftLine_getD f line hl2, if_pos (by omega), if_neg (by omega)]
        congr 1; omega
      · rw [if_neg (by omega), List.getElem?_drop,
          interior_getElem? f _ (by omega)]
        have e : line + 1 + (y - min line 19) = y + 1 := by omega
        rw [e]
        congr 1
        apply interiorRow_congr
        intro x h1 h2
        rw [shiftLine_getD f line hl2, if_neg (by omega)]
  · rw [List.getElem?_eq_none (by rw [interior_length]; omega),
      List.getElem?_eq_none (by
        rw [List.length_cons, List.length_append, List.length_take, List.length_drop,
          interior_length]; omega)]

theorem getD_set_other (l : List Nat) (k j v : Nat) (h : k ≠ j) :
    (l.set k v).getD j 0 = l.getD j 0 := by
  simp only [List.getD_eq_getElem?_getD, List.getElem?_set, if_neg h]

theorem paintLines_length (f : List Nat) (cl : List Nat) (v : Int) :
    (paintLines f cl v).length = f.length := by
  unfold paintLines
  exact RowShift.foldl_length _
    (fun s a => RowShift.foldl_length _ (fun s b => List.length_set _ _ _) _ s) _ f

/-- Painting the completed rows leaves every cell of the other rows alone. -/
theorem paintLines_getD (cl : List Nat) (v : Int) (i : Nat) (hi : i / 12 ∉ cl) :
    ∀ f : List Nat, (paintLines f cl v).getD i 0 = f.getD i 0 := by
  have inner : ∀ (line : Nat), i / 12 ≠ line → ∀ (xs : List Nat),
      (∀ x ∈ xs, 1 ≤ x ∧ x ≤ 10) → ∀ f : List Nat,
      (xs.foldl (fun f x => f.set (line * fieldWidth + x) (v % 256).toNat) f).getD i 0 =
        f.getD i 0 := by
    intro line hne xs
    induction xs with
    | nil => intro _ f; rfl
    | cons x xs ih =>
      intro hxs f
      have hx := hxs x (List.mem_cons_self _ _)
      have hw : fieldWidth = 12 := rfl
      rw [List.foldl_cons, ih (fun a ha => hxs a (List.mem_cons_of_mem _ ha)),
        getD_set_other _ _ _ _ (by rw [hw]; omega)]
  unfold paintLines
  induction cl with
  | nil => intro f; rfl
  | cons line cl ih =>
    intro f
    rw [List.foldl_cons, ih (fun h => hi (List.mem_cons_of_mem _ h)),
      inner line (fun h => hi (by rw [h]; exact List.mem_cons_self _ _)) _
        (fun x hx => (mem_interior_cols x).mp hx)]

theorem flashLines_length (f : List Nat) (cl : List Nat) (p : Int) :
    (flashLines f cl p).length = f.length := by
  unfold flashLines
  exact RowShift.foldl_length _
    (fun s a => by rw [paintLines_length, paintLines_length]) _ f

theorem flashLines_getD (f : List Nat) (cl : List Nat) (p : Int) (i : Nat) (hi : i / 12 ∉ cl) :
    (flashLines f cl p).getD i 0 = f.getD i 0 := by
  have step : ∀ (l : List Nat) (f : List Nat),
      (l.foldl (fun f _ => paintLines (paintLines f cl 8) cl (p + 1)) f).getD i 0 =
        f.getD i 0 := by
    intro l
    induction l with
    | nil => intro f; rfl
    | cons a l ih =>
      intro f
      rw [List.foldl_cons, ih, paintLines_getD cl _ i hi, paintLines_getD cl _ i hi]
  exact step _ f

theorem writeField_length (f : List Nat) (i v : Int) : (writeField f i v).length = f.length := by
  unfold writeField
  split_ifs
  · rw [List.length_set]
  · rfl

theorem mergePiece_length (g : TetrisGame) : g.mergePiece.length = g.field.length := by
  unfold TetrisGame.mergePiece
  apply RowShift.foldl_length
  intro s a
  apply RowShift.foldl_length
  intro s b
  simp only
  split_ifs
  · exact writeField_length _ _ _
  · rfl
  · rfl

/-- The shift loop over the detected lines, seen on the playable interior. -/
theorem interior_shiftLines (merged flashed : List Nat) (hlen : flashed.length = 240)
    (hsame : ∀ y, y < 19 → lineComplete merged y = false →
      interiorRow flashed y = interiorRow merged y) :
    interior (shiftLines flashed (detectLines merged)) =
      List.replicate (detectLines merged).length (List.replicate 10 0) ++
        (interior merged).filter (fun r => !rowNonzero r) := by
  have hf : ∀ (s : List Nat) (P : List (List Nat)) (y : Nat), y < (interior flashed).length →
      s.length = 240 → P.length = y → interior s = P ++ (interior flashed).drop y →
      (if lineComplete merged y then shiftLine s y else s).length = 240 ∧
      interior (if lineComplete merged y then shiftLine s y else s) =
        if lineComplete merged y then
          List.replicate 10 0 ::
            ((P ++ (interior flashed).drop y).take y ++ (P ++ (interior flashed).drop y).drop (y + 1))
        else P ++ (interior flashed).drop y := by
    intro s P y hy hs hP hrows
    rw [interior_length] at hy
    by_cases hc : lineComplete merged y = true
    · simp only [hc, if_true]
      exact ⟨by rw [shiftLine_length, hs], by rw [interior_shiftLine s y hy hs, hrows]⟩
    · simp only [hc]
      exact ⟨hs, hrows⟩
  have key := (RowShift.compact_fold_idx interior (fun s => s.length = 240) (lineComplete merged)
    (List.replicate 10 0) (interior flashed)
    (fun s y => if lineComplete merged y then shiftLine s y else s) hf flashed rfl hlen 19
    (by rw [interior_length])).2
  unfold shiftLines
  rw [detectLines_eq_filter, RowShift.foldl_filter_eq]
  have h19 : fieldHeight - 1 = 19 := rfl
  rw [h19, key, List.drop_eq_nil_of_le (by rw [interior_length]), List.append_nil,
    List.countP_eq_length_filter]
  congr 1
  unfold interior
  rw [h19, List.filter_map]
  have e1 : (List.range 19).filter ((fun r => !rowNonzero r) ∘ interiorRow merged) =
      (List.range 19).filter (fun y => !lineComplete merged y) :=
    List.filter_congr (fun y _ => by simp [lineComplete_eq])
  rw [e1]
  apply List.map_congr_left
  intro y hy
  obtain ⟨hy1, hy2⟩ := List.mem_filter.mp hy
  have hy19 : y < 19 := List.mem_range.mp hy1
  rw [List.getD_eq_getElem?_getD, List.getElem?_map, List.getElem?_range (by exact hy19)]
  simp only [Option.map_some', Option.getD_some]
  exact hsame y hy19 (by simpa using hy2)

/-- C3: in a lock on a field of `240` cells, with `merged` the field after the
piece has been written into it, `completedLines` is the ascending list of the
rows `y` in `0 .. 18` whose cells in columns `1 .. 10` of `merged` are all
non-zero, and after the flash and the shift loop the playable interior is one
all-zero row per completed line on top, followed by the rows of `merged` that
were not complete, in their order. -/
theorem lock_clears_rows (g : TetrisGame) (draw : Nat)
    (hlen : g.field.length = 240) (hl : g.locksNow) :
    (g.updateGame draw).completedLines =
      (List.range 19).filter
        (fun y => rowNonzero (interiorRow g.moveKeys.rotateKey.mergePiece y)) ∧
    (∀ y : Nat, y ∈ (g.updateGame draw).completedLines ↔
      y < 19 ∧ ∀ x : Nat, 1 ≤ x → x ≤ 10 →
        g.moveKeys.rotateKey.mergePiece.getD (y * 12 + x) 0 ≠ 0) ∧
    (g.updateGame draw).completedLines.Pairwise (fun a b => a < b) ∧
    interior (g.updateGame draw).field =
      List.replicate (g.updateGame draw).completedLines.length (List.replicate 10 0) ++
        (interior g.moveKeys.rotateKey.mergePiece).filter (fun r => !rowNonzero r) := by
  have hf := lockPiece_fields g.moveKeys.rotateKey.countStep draw
  rw [merge_after_count] at hf
  obtain ⟨hcl, -, -, -, -, -, -, -, -, -, -, -, -, hfield⟩ := hf
  have hc := countStep_frame g.moveKeys.rotateKey
  rw [hc.2.1] at hfield
  have hmlen : g.moveKeys.rotateKey.mergePiece.length = 240 := by
    rw [mergePiece_length, (rotateKey_frame _).1, (moveKeys_frame _).1, hlen]
  have hdet : detectLines g.moveKeys.rotateKey.mergePiece =
      (List.range 19).filter
        (fun y => rowNonzero (interiorRow g.moveKeys.rotateKey.mergePiece y)) := by
    rw [detectLines_eq_filter]
    have h19 : fieldHeight - 1 = 19 := rfl
    rw [h19]
    exact List.filter_congr (fun y _ => lineComplete_eq _ y)
  rw [updateGame_of_locksNow g draw hl, hcl]
  refine ⟨hdet, ?_, ?_, ?_⟩
  · intro y
    rw [hdet, List.mem_filter, List.mem_range]
    unfold rowNonzero interiorRow
    rw [List.all_map, List.all_eq_true]
    constructor
    · rintro ⟨h1, h2⟩
      refine ⟨h1, fun x hx1 hx2 => ?_⟩
      have := h2 x ((mem_interior_cols x).mpr ⟨hx1, hx2⟩)
      simpa [fieldWidth] using this
    · rintro ⟨h1, h2⟩
      refine ⟨h1, fun x hx => ?_⟩
      obtain ⟨hx1, hx2⟩ := (mem_interior_cols x).mp hx
      simpa [fieldWidth] using h2 x hx1 hx2
  · rw [hdet]
    exact List.Pairwise.filter _ (List.pairwise_lt_range 19)
  · rw [hfield]
    by_cases he : (detectLines g.moveKeys.rotateKey.mergePiece).isEmpty = true
    · rw [if_pos he]
      have hnil : detectLines g.moveKeys.rotateKey.mergePiece = [] := List.isEmpty_iff.mp he
      have := interior_shiftLines g.moveKeys.rotateKey.mergePiece
        g.moveKeys.rotateKey.mergePiece hmlen (fun _ _ _ => rfl)
      rw [hnil] at this ⊢
      exact this
    · rw [if_neg he]
      apply interior_shiftLines
      · rw [flashLines_length, hmlen]
      · intro y hy hnc
        apply interiorRow_congr
        intro x h1 h2
        apply flashLines_getD
        have e : (y * 12 + x) / 12 = y := by omega
        rw [e, detectLines_eq_filter, List.mem_filter]
        rintro ⟨-, h⟩
        rw [hnc] at h
        exact absurd h (by decide)

theorem lock_clears_rows_witness :
    fillingO.field.length = 240 ∧ fillingO.locksNow ∧
      (fillingO.updateGame 1).completedLines =
        (List.range 19).filter
          (fun y => rowNonzero (interiorRow fillingO.moveKeys.rotateKey.mergePiece y)) :=
  ⟨fillingO_field_length, by decide,
    (lock_clears_rows fillingO 1 fillingO_field_length (by decide)).1⟩

/-! ## `saveState` and `undo` -/

/-- Copying all `n` cells of a saved array of length `n` gives the saved array. -/
theorem memcpy_all (saved other : List Nat) (n : Nat) (h : saved.length = n) :
    ((List.range n).map fun i => if i < saved.length then saved.getD i 0 else other.getD i 0) =
      saved := by
  apply List.ext_getElem?
  intro i
  rw [List.getElem?_map]
  by_cases hi : i < n
  · rw [List.getElem?_range hi, Option.map_some', if_pos (by omega),
      List.getD_eq_getElem _ _ (by omega), List.getElem?_eq_getElem (by omega)]
  · rw [List.getElem?_eq_none (by rw [List.length_range]; omega),
      List.getElem?_eq_none (by omega)]
    rfl

/-- The members after `undo` when a snapshot is present. -/
theorem undo_of_snapshot (g : TetrisGame) (saved : List Nat)
    (hs : g.previousField = some saved) (hlen : saved.length = fieldWidth * fieldHeight) :
    g.undo =
      { g with
        field := saved
        currentPiece := g.previousPiece
        currentRotation := g.previousRotation
        currentX := g.previousX
        currentY := g.previousY
        score := g.previousScore
        previousField := none } := by
  unfold TetrisGame.undo
  rw [hs]
  simp only
  rw [memcpy_all _ _ _ hlen]

theorem undo_of_no_snapshot (g : TetrisGame) (hs : g.previousField = none) : g.undo = g := by
  unfold TetrisGame.undo
  rw [hs]

theorem undo_clears_snapshot (g : TetrisGame) : g.undo.previousField = none := by
  cases hs : g.previousField with
  | none => rw [undo_of_no_snapshot g hs, hs]
  | some saved =>
    unfold TetrisGame.undo
    rw [hs]

/-- C5: after a lock on a field of `240` cells a snapshot is present, and `undo`
then brings back the field, the piece kind, rotation and anchor and the score
that the session had when the lock started to merge the piece (the state after
the keys of the locking frame), and frees the snapshot.  In general `undo`
restores the saved members of any snapshot present; without a snapshot, and so
also right after an `undo`, it changes nothing.  A frame that does not lock
keeps the snapshot members. -/
theorem undo_spec (g : TetrisGame) (draw : Nat) (hlen : g.field.length = fieldWidth * fieldHeight)
    (hl : g.locksNow) :
    (g.updateGame draw).previousField = some g.field ∧
    ((g.updateGame draw).undo.field = g.field ∧
      (g.updateGame draw).undo.currentPiece = g.moveKeys.rotateKey.currentPiece ∧
      (g.updateGame draw).undo.currentRotation = g.moveKeys.rotateKey.currentRotation ∧
      (g.updateGame draw).undo.currentX = g.moveKeys.rotateKey.currentX ∧
      (g.updateGame draw).undo.currentY = g.moveKeys.rotateKey.currentY ∧
      (g.updateGame draw).undo.score = g.score ∧
      (g.updateGame draw).undo.previousField = none) ∧
    (g.updateGame draw).undo.undo = (g.updateGame draw).undo ∧
    (∀ (h : TetrisGame) (saved : List Nat), h.previousField = some saved →
      saved.length = fieldWidth * fieldHeight →
        h.undo.field = saved ∧ h.undo.currentPiece = h.previousPiece ∧
        h.undo.currentRotation = h.previousRotation ∧ h.undo.currentX = h.previousX ∧
        h.undo.currentY = h.previousY ∧ h.undo.score = h.previousScore ∧
        h.undo.previousField = none) ∧
    (∀ h : TetrisGame, h.previousField = none → h.undo = h) ∧
    (∀ (h : TetrisGame) (d : Nat), ¬ h.locksNow →
      (h.updateGame d).previousField = h.previousField ∧
      (h.updateGame d).previousPiece = h.previousPiece ∧
      (h.updateGame d).previousRotation = h.previousRotation ∧
      (h.updateGame d).previousX = h.previousX ∧
      (h.updateGame d).previousY = h.previousY ∧
      (h.updateGame d).previousScore = h.previousScore) := by
  have hf := lockPiece_fields g.moveKeys.rotateKey.countStep draw
  obtain ⟨-, -, -, hpf, hpp, hpr, hpx, hpy, hps, -, -, -, -, -⟩ := hf
  have hc := countStep_frame g.moveKeys.rotateKey
  have hfield : g.moveKeys.rotateKey.countStep.field = g.field := by
    rw [hc.1, (rotateKey_frame _).1, (moveKeys_frame _).1]
  rw [hfield] at hpf
  rw [hc.2.1] at hpp
  rw [hc.2.2.1] at hpr
  rw [hc.2.2.2.1] at hpx
  rw [hc.2.2.2.2.1] at hpy
  rw [score_before_lock] at hps
  have hgen : ∀ (h : TetrisGame) (saved : List Nat), h.previousField = some saved →
      saved.length = fieldWidth * fieldHeight →
        h.undo.field = saved ∧ h.undo.currentPiece = h.previousPiece ∧
        h.undo.currentRotation = h.previousRotation ∧ h.undo.currentX = h.previousX ∧
        h.undo.currentY = h.previousY ∧ h.undo.score = h.previousScore ∧
        h.undo.previousField = none := by
    intro h saved hs hl2
    rw [undo_of_snapshot h saved hs hl2]
    exact ⟨rfl, rfl, rfl, rfl, rfl, rfl, rfl⟩
  rw [updateGame_of_locksNow g draw hl]
  refine ⟨hpf, ?_, undo_of_no_snapshot _ (undo_clears_snapshot _), hgen, undo_of_no_snapshot,
    ?_⟩
  · obtain ⟨u1, u2, u3, u4, u5, u6, u7⟩ := hgen _ _ hpf hlen
    exact ⟨u1, by rw [u2, hpp], by rw [u3, hpr], by rw [u4, hpx], by rw [u5, hpy],
      by rw [u6, hps], u7⟩
  · intro h d hnl
    have hm := moveKeys_frame h
    have hr := rotateKey_frame h.moveKeys
    have hcs := countStep_frame h.moveKeys.rotateKey
    have hprev : ∀ k : TetrisGame,
        k.previousField = h.moveKeys.rotateKey.previousField ∧
        k.previousPiece = h.moveKeys.rotateKey.previousPiece ∧
        k.previousRotation = h.moveKeys.rotateKey.previousRotation ∧
        k.previousX = h.moveKeys.rotateKey.previousX ∧
        k.previousY = h.moveKeys.rotateKey.previousY ∧
        k.previousScore = h.moveKeys.rotateKey.previousScore →
        k.previousField = h.previousField ∧ k.previousPiece = h.previousPiece ∧
        k.previousRotation = h.previousRotation ∧ k.previousX = h.previousX ∧
        k.previousY = h.previousY ∧ k.previousScore = h.previousScore := by
      rintro k ⟨k1, k2, k3, k4, k5, k6⟩
      refine ⟨?_, ?_, ?_, ?_, ?_, ?_⟩
      · rw [k1, hr.2.2.2.2.2.2.2.2.2.2.1, hm.2.2.2.2.2.2.2.2.2.2.1]
      · rw [k2, hr.2.2.2.2.2.2.2.2.2.2.2.1, hm.2.2.2.2.2.2.2.2.2.2.2.1]
      · rw [k3, hr.2.2.2.2.2.2.2.2.2.2.2.2.1, hm.2.2.2.2.2.2.2.2.2.2.2.2.1]
      · rw [k4, hr.2.2.2.2.2.2.2.2.2.2.2.2.2.1, hm.2.2.2.2.2.2.2.2.2.2.2.2.2.1]
      · rw [k5, hr.2.2.2.2.2.2.2.2.2.2.2.2.2.2.1, hm.2.2.2.2.2.2.2.2.2.2.2.2.2.2.1]
      · rw [k6, hr.2.2.2.2.2.2.2.2.2.2.2.2.2.2.2, hm.2.2.2.2.2.2.2.2.2.2.2.2.2.2.2]
    apply hprev
    unfold TetrisGame.updateGame TetrisGame.gravityStep
    by_cases hforce : h.moveKeys.rotateKey.forcePieceDown = true
    · rw [if_pos hforce]
      simp only
      have hfit : h.moveKeys.rotateKey.countStep.doesPieceFit
          h.moveKeys.rotateKey.countStep.currentPiece
          h.moveKeys.rotateKey.countStep.currentRotation
          h.moveKeys.rotateKey.countStep.currentX
          (h.moveKeys.rotateKey.countStep.currentY + 1) = true := by
        rw [doesPieceFit_congr _ _ hcs.1, hcs.2.1, hcs.2.2.1, hcs.2.2.2.1, hcs.2.2.2.2.1]
        by_contra hne
        apply hnl
        refine ⟨?_, by simpa using hne⟩
        rw [← hforce, hr.2.2.2.2.1, hm.2.2.2.2.1]
      rw [if_pos hfit]
      exact ⟨hcs.2.2.2.2.2.2.2.2.2.1, hcs.2.2.2.2.2.2.2.2.2.2.1, hcs.2.2.2.2.2.2.2.2.2.2.2.1,
        hcs.2.2.2.2.2.2.2.2.2.2.2.2.1, hcs.2.2.2.2.2.2.2.2.2.2.2.2.2.1,
        hcs.2.2.2.2.2.2.2.2.2.2.2.2.2.2⟩
    · rw [if_neg hforce]
      exact ⟨rfl, rfl, rfl, rfl, rfl, rfl⟩

theorem undo_spec_witness :
    fillingO.field.length = fieldWidth * fieldHeight ∧ fillingO.locksNow ∧
      (fillingO.updateGame 1).undo.field = fillingO.field :=
  ⟨fillingO_field_length, by decide,
    (undo_spec fillingO 1 fillingO_field_length (by decide)).2.1.1⟩

/-- The next piece is drawn by the lock and not touched by `undo`. -/
theorem undo_nextPiece (g : TetrisGame) : g.undo.nextPiece = g.nextPiece := by
  unfold TetrisGame.undo
  cases g.previousField <;> rfl

/-- C6 as the code has it: `saveState` keeps no next-piece kind and `undo` does
not write `nextPiece`, so after a lock followed by `undo` the next-piece kind is
the one drawn by that lock, `draw % 7`, whatever it was before the lock. -/
theorem lock_undo_nextPiece (g : TetrisGame) (draw : Nat) (hl : g.locksNow) :
    (g.updateGame draw).undo.nextPiece = ((draw % 7 : Nat) : Int) := by
  rw [undo_nextPiece, updateGame_of_locksNow g draw hl]
  exact (lockPiece_fields _ draw).2.1

theorem lock_undo_nextPiece_witness :
    restingO.locksNow ∧ (restingO.updateGame 1).undo.nextPiece = ((1 % 7 : Nat) : Int) :=
  ⟨by decide, lock_undo_nextPiece restingO 1 (by decide)⟩

/-- C6 fails on the code: the O piece resting on the floor of the empty field is
locked with next-piece kind `0` held and kind `1` drawn; after `undo` the next
piece is kind `1`, not the kind `0` held before the lock. -/
theorem lock_undo_nextPiece_counterexample :
    restingO.locksNow ∧ restingO.nextPiece = 0 ∧ (restingO.updateGame 1).undo.nextPiece = 1 ∧
      ¬ ((restingO.updateGame 1).undo.nextPiece = restingO.nextPiece) := by
  decide

/-! ## `TetrisGame::rotate` -/

/-- The value of `rotate` once the residue of a non-negative rotation is known. -/
theorem rotate_of_mod (px py n : Int) (s : Nat) :
    rotate px py s n =
      if s % 4 = 0 then py * n + px
      else if s % 4 = 1 then (n - 1 - px) * n + py
      else if s % 4 = 2 then (n - 1 - py) * n + (n - 1 - px)
      else px * n + (n - 1 - py) := by
  have h : Int.tmod (s : Int) 4 = ((s % 4 : Nat) : Int) := (Int.ofNat_tmod s 4).symm
  have hlt : s % 4 < 4 := Nat.mod_lt _ (by decide)
  unfold rotate
  rw [h]
  have e0 : (((s % 4 : Nat) : Int) = 0) = (s % 4 = 0) := by
    apply propext; constructor <;> intro h <;> omega
  have e1 : (((s % 4 : Nat) : Int) = 1) = (s % 4 = 1) := by
    apply propext; constructor <;> intro h <;> omega
  have e2 : (((s % 4 : Nat) : Int) = 2) = (s % 4 = 2) := by
    apply propext; constructor <;> intro h <;> omega
  have e3 : (((s % 4 : Nat) : Int) = 3) = (s % 4 = 3) := by
    apply propext; constructor <;> intro h <;> omega
  simp only [e0, e1, e2, e3]
  split_ifs <;> first | rfl | omega

/-- Four quarter turns bring the I mask of `Tetris_NEW.cpp` back. -/
theorem rotateCW_I_period :
    TetrisNew.Tetromino.rotateCW^[4] (TetrisNew.catalogPiece 0) = TetrisNew.catalogPiece 0 := by
  decide

theorem rotateCW_I_mod (s : Nat) :
    TetrisNew.Tetromino.rotateCW^[s] (TetrisNew.catalogPiece 0) =
      TetrisNew.Tetromino.rotateCW^[s % 4] (TetrisNew.catalogPiece 0) := by
  induction s using Nat.strong_induction_on with
  | _ s ih =>
    by_cases h : s < 4
    · rw [Nat.mod_eq_of_lt h]
    · have e : s = (s - 4) + 4 := by omega
      have hm : s % 4 = (s - 4) % 4 := by omega
      rw [hm, ← ih (s - 4) (by omega)]
      conv_lhs => rw [e, Function.iterate_add_apply, rotateCW_I_period]

/-- C7: for a bounding size `n` in `{2, 3, 4}`, a rotation value `s >= 0` and a
cell `(px, py)` of the `n` x `n` box, `rotate px py s n` is an index in
`[0, n * n)`, and the index read in state `s + 1` at `(px, py)` is the index read
in state `s` at `(py, n - 1 - px)`: state `s + 1` shows the state-`s` picture
turned a quarter clockwise.  For the I piece (`n = 4`) the cell shown at column
`px`, row `py` in state `s` is occupied exactly when the mask obtained from the
I shape of `Tetris_NEW.cpp` by `s` applications of `rotateCW` is non-zero at
row `py`, column `px`. -/
theorem rotate_quarter_turn (n s px py : Nat) (hn : n = 2 ∨ n = 3 ∨ n = 4)
    (hpx : px < n) (hpy : py < n) :
    (0 ≤ rotate px py s n ∧ rotate px py s n < (n : Int) * n) ∧
    rotate px py ((s : Int) + 1) n = rotate py ((n : Int) - 1 - px) s n ∧
    (n = 4 →
      occupied 0 (rotate px py s n) =
        decide (TetrisNew.at2
          (TetrisNew.Tetromino.rotateCW^[s] (TetrisNew.catalogPiece 0)).shape py px ≠ 0)) := by
  have hs1 : ((s : Int) + 1) = ((s + 1 : Nat) : Int) := by push_cast; rfl
  have hlt : s % 4 < 4 := Nat.mod_lt _ (by decide)
  refine ⟨?_, ?_, ?_⟩
  · rw [rotate_of_mod]
    rcases hn with rfl | rfl | rfl <;> interval_cases px <;> interval_cases py <;>
      split_ifs <;> constructor <;> norm_num
  · rw [hs1, rotate_of_mod, rotate_of_mod]
    have hmod : (s + 1) % 4 = (s % 4 + 1) % 4 := by omega
    rw [hmod]
    interval_cases (s % 4) <;> simp
  · rintro rfl
    rw [rotateCW_I_mod, rotate_of_mod]
    interval_cases hk : (s % 4) <;> interval_cases px <;> interval_cases py <;> decide

theorem rotate_quarter_turn_witness :
    rotate 1 2 ((5 : Nat) + 1 : Int) (3 : Nat) = rotate 2 (((3 : Nat) : Int) - 1 - 1) 5 3 :=
  (rotate_quarter_turn 3 5 1 2 (by decide) (by decide) (by decide)).2.1

/-! ## Sessions of `Tetris.cpp`: the start state -/

set_option maxRecDepth 100000 in
theorem initializeField_eq : initializeField = emptyField := by decide

set_option maxRecDepth 100000 in
theorem emptyField_length : emptyField.length = 240 := by decide

set_option maxRecDepth 100000 in
theorem emptyField_noFull : noFullRow emptyField := by
  unfold noFullRow
  decide

/-- Every piece kind fits at the spawn anchor of the empty field. -/
theorem spawn_fits_empty (h : TetrisGame) (hf : h.field = emptyField) (d : Nat) :
    h.doesPieceFit ((d % 7 : Nat) : Int) 0 ((playWidth : Int) / 2 - 1) 0 = true := by
  rw [doesPieceFit_congr h restingO (by rw [hf]; rfl)]
  have hlt : d % 7 < 7 := Nat.mod_lt _ (by decide)
  interval_cases (d % 7) <;> decide

/-! ## Sessions of `Tetris.cpp`: what the operations keep -/

theorem fits_congr {g h : TetrisGame} (hg : g.Fits) (e1 : h.field = g.field)
    (e2 : h.currentPiece = g.currentPiece) (e3 : h.currentRotation = g.currentRotation)
    (e4 : h.currentX = g.currentX) (e5 : h.currentY = g.currentY) : h.Fits := by
  unfold TetrisGame.Fits at hg ⊢
  rw [doesPieceFit_congr h g e1, e2, e3, e4, e5]
  exact hg

theorem sound_congr {g h : TetrisGame} (hs : g.Sound) (e1 : h.speed = g.speed)
    (e2 : h.totalLinesCleared = g.totalLinesCleared) (e3 : h.level = g.level)
    (e4 : h.field = g.field) (e5 : h.currentPiece = g.currentPiece)
    (e6 : h.nextPiece = g.nextPiece) (e7 : g.currentRotation ≤ h.currentRotation)
    (e8 : g.currentY ≤ h.currentY) (e9 : h.previousField = g.previousField)
    (e10 : h.previousPiece = g.previousPiece) (e11 : h.previousRotation = g.previousRotation)
    (e12 : h.previousX = g.previousX) (e13 : h.previousY = g.previousY) : h.Sound where
  speed_floor := by rw [e1]; exact hs.speed_floor
  total_nonneg := by rw [e2]; exact hs.total_nonneg
  level_eq := by rw [e3, e2]; exact hs.level_eq
  field_length := by rw [e4]; exact hs.field_length
  no_full := by rw [e4]; exact hs.no_full
  piece_range := by rw [e5]; exact hs.piece_range
  next_range := by rw [e6]; exact hs.next_range
  rotation_nonneg := le_trans hs.rotation_nonneg e7
  y_nonneg := le_trans hs.y_nonneg e8
  snapshot := by rw [e9, e10, e11, e12, e13]; exact hs.snapshot

theorem mod_seven_range (d : Nat) : (0 : Int) ≤ ((d % 7 : Nat) : Int) ∧ ((d % 7 : Nat) : Int) ≤ 6 := by
  have : d % 7 < 7 := Nat.mod_lt _ (by decide)
  omega

theorem new_sound (d1 d2 : Nat) (high : Int) : (TetrisGame.new d1 d2 high).Sound where
  speed_floor := by simp [TetrisGame.new]
  total_nonneg := by simp [TetrisGame.new]
  level_eq := by simp [TetrisGame.new]
  field_length := by simp only [TetrisGame.new]; rw [initializeField_eq, emptyField_length]
  no_full := by simp only [TetrisGame.new]; rw [initializeField_eq]; exact emptyField_noFull
  piece_range := mod_seven_range d1
  next_range := mod_seven_range d2
  rotation_nonneg := by simp [TetrisGame.new]
  y_nonneg := by simp [TetrisGame.new]
  snapshot := by intro saved h; exact absurd h (by simp [TetrisGame.new])

theorem new_fits (d1 d2 : Nat) (high : Int) : (TetrisGame.new d1 d2 high).Fits := by
  have hf : (TetrisGame.new d1 d2 high).field = emptyField := by
    simp only [TetrisGame.new]; exact initializeField_eq
  exact spawn_fits_empty _ hf d1

theorem initialize_sound (g : TetrisGame) (d1 d2 : Nat) : ( g.initialize d1 d2).Sound where
  speed_floor := by simp [ TetrisGame.initialize]
  total_nonneg := by simp [ TetrisGame.initialize]
  level_eq := by simp [ TetrisGame.initialize]
  field_length := by simp only [ TetrisGame.initialize]; rw [initializeField_eq, emptyField_length]
  no_full := by simp only [ TetrisGame.initialize]; rw [initializeField_eq]; exact emptyField_noFull
  piece_range := mod_seven_range d1
  next_range := mod_seven_range d2
  rotation_nonneg := by simp [ TetrisGame.initialize]
  y_nonneg := by simp [ TetrisGame.initialize]
  snapshot := by intro saved h; exact absurd h (by simp [ TetrisGame.initialize])

theorem initialize_fits (g : TetrisGame) (d1 d2 : Nat) : ( g.initialize d1 d2).Fits := by
  have hf : ( g.initialize d1 d2).field = emptyField := by
    simp only [ TetrisGame.initialize]; exact initializeField_eq
  exact spawn_fits_empty _ hf d1

/-- The loop of `dropPiece`: a result differs from the start in `currentY` only,
the piece has gone down through rows at which it fits, and it does not fit one
row below the row where the loop stops. -/
theorem dropLoop_result : ∀ (fuel : Nat) (g h : TetrisGame), g.dropLoop fuel = some h →
    h = { g with currentY := h.currentY } ∧ g.currentY ≤ h.currentY ∧
    g.doesPieceFit g.currentPiece g.currentRotation g.currentX (h.currentY + 1) = false ∧
    (∀ r : Int, g.currentY ≤ r → r < h.currentY →
      g.doesPieceFit g.currentPiece g.currentRotation g.currentX (r + 1) = true) := by
  intro fuel
  induction fuel with
  | zero => intro g h hres; simp [TetrisGame.dropLoop] at hres
  | succ n ih =>
    intro g h hres
    unfold TetrisGame.dropLoop at hres
    by_cases hfit : g.doesPieceFit g.currentPiece g.currentRotation g.currentX (g.currentY + 1) = true
    · rw [if_pos hfit] at hres
      obtain ⟨h1, h2, h3, h4⟩ := ih _ _ hres
      refine ⟨?_, ?_, ?_, ?_⟩
      · rw [h1]
      · have : g.currentY + 1 ≤ h.currentY := h2
        omega
      · exact h3
      · intro r hr1 hr2
        by_cases hr : r = g.currentY
        · rw [hr]; exact hfit
        · exact h4 r (by show g.currentY + 1 ≤ r; omega) hr2
    · rw [if_neg hfit] at hres
      cases hres
      refine ⟨rfl, le_refl _, by simpa using hfit, ?_⟩
      intro r hr1 hr2
      omega

theorem dropLoop_fits (fuel : Nat) (g h : TetrisGame) (hres : g.dropLoop fuel = some h)
    (hf : g.Fits) : h.Fits := by
  obtain ⟨h1, h2, -, h4⟩ := dropLoop_result fuel g h hres
  unfold TetrisGame.Fits
  rw [h1]
  by_cases he : h.currentY = g.currentY
  · rw [he]; exact hf
  · have := h4 (h.currentY - 1) (by omega) (by omega)
    rw [sub_add_cancel] at this
    exact this

theorem dropLoop_sound (fuel : Nat) (g h : TetrisGame) (hres : g.dropLoop fuel = some h)
    (hs : g.Sound) : h.Sound := by
  obtain ⟨h1, h2, -, -⟩ := dropLoop_result fuel g h hres
  have hy := hs.y_nonneg
  rw [h1]
  exact { speed_floor := hs.speed_floor, total_nonneg := hs.total_nonneg, level_eq := hs.level_eq,
          field_length := hs.field_length, no_full := hs.no_full, piece_range := hs.piece_range,
          next_range := hs.next_range, rotation_nonneg := hs.rotation_nonneg,
          y_nonneg := by show 0 ≤ h.currentY; omega, snapshot := hs.snapshot }

theorem undo_sound (g : TetrisGame) (hs : g.Sound) : g.undo.Sound ∧ (g.Fits → g.undo.Fits) := by
  cases hp : g.previousField with
  | none =>
    rw [undo_of_no_snapshot g hp]
    exact ⟨hs, id⟩
  | some saved =>
    obtain ⟨s1, s2, s3, s4, s5, s6⟩ := hs.snapshot saved hp
    rw [undo_of_snapshot g saved hp s1]
    refine ⟨?_, fun _ => s6 _ rfl⟩
    exact { speed_floor := hs.speed_floor, total_nonneg := hs.total_nonneg,
            level_eq := hs.level_eq, field_length := s1, no_full := s2, piece_range := s3,
            next_range := hs.next_range, rotation_nonneg := s4, y_nonneg := s5,
            snapshot := by intro saved2 h; exact absurd h (by simp) }

/-! ## The cells of the active piece -/

theorem mem_occupiedCells (piece rot : Int) (c : Nat × Nat) :
    c ∈ occupiedCells piece rot ↔
      c.1 < pieceSizeOf piece ∧ c.2 < pieceSizeOf piece ∧
        occupied piece (rotate c.1 c.2 rot (pieceSizeOf piece)) = true := by
  unfold occupiedCells
  simp only [List.mem_flatMap, List.mem_map, List.mem_filter, List.mem_range]
  constructor
  · rintro ⟨px, hpx, py, ⟨hpy, hocc⟩, rfl⟩
    exact ⟨hpx, hpy, hocc⟩
  · rintro ⟨h1, h2, h3⟩
    exact ⟨c.1, h1, c.2, ⟨h2, h3⟩, rfl⟩

/-- `doesPieceFit` cell by cell. -/
theorem doesPieceFit_iff (g : TetrisGame) (piece rot x y : Int) :
    g.doesPieceFit piece rot x y = true ↔
      ∀ c ∈ occupiedCells piece rot,
        0 < x + c.1 + 1 ∧ x + c.1 + 1 < 11 ∧ y + c.2 < 19 ∧
          readField g.field ((y + c.2) * 12 + (x + c.1 + 1)) = 0 := by
  unfold TetrisGame.doesPieceFit
  simp only [List.all_eq_true, List.mem_range]
  have hw : ((fieldWidth : Nat) : Int) = 12 := rfl
  have hh : ((fieldHeight : Nat) : Int) = 20 := rfl
  constructor
  · intro h c hc
    obtain ⟨h1, h2, h3⟩ := (mem_occupiedCells piece rot c).mp hc
    have := h c.1 h1 c.2 h2
    simp only [h3, Bool.not_true, Bool.false_eq_true, if_false, hw, hh] at this
    split_ifs at this with a1 a2 a3
    simp only [ne_eq, not_not] at a3
    exact ⟨by omega, by omega, by omega, a3⟩
  · intro h px hpx py hpy
    by_cases hocc : occupied piece (rotate px py rot (pieceSizeOf piece)) = true
    · obtain ⟨b1, b2, b3, b4⟩ := h (px, py) ((mem_occupiedCells piece rot (px, py)).mpr ⟨hpx, hpy, hocc⟩)
      simp only [hocc, Bool.not_true, Bool.false_eq_true, if_false, hw, hh]
      rw [if_neg (by omega), if_neg (by omega), if_neg (by simpa using b4)]
    · simp [hocc]

/-- Nested loops with a test in the body are one loop over the pairs that pass
the test. -/
theorem foldl_nested_filter {σ : Type} (la lb : List Nat) (q : Nat → Nat → Bool)
    (W : σ → Nat → Nat → σ) :
    ∀ s : σ,
      la.foldl (fun s a => lb.foldl (fun s b => if q a b then W s a b else s) s) s =
        (la.flatMap fun a => (lb.filter (q a)).map fun b => (a, b)).foldl
          (fun s c => W s c.1 c.2) s := by
  induction la with
  | nil => intro s; rfl
  | cons a la ih =>
    intro s
    rw [List.foldl_cons, List.flatMap_cons, List.foldl_append, ← ih, List.foldl_map,
      RowShift.foldl_filter_eq]

theorem flatMap_singleton_cast (l : List Nat) :
    (l.flatMap fun a => [(a : Int)]) = List.map (Nat.cast : Nat → Int) l := by
  induction l with
  | nil => rfl
  | cons a l ih => rw [List.flatMap_cons, ih]; rfl

/-- A loop whose `int` variable runs over `0 .. n - 1`. -/
theorem coe_range (n : Nat) :
    (bind (List.range n) fun a => (pure (Nat.cast a : Int) : List Int)) =
      List.map (Nat.cast : Nat → Int) (List.range n) := by
  rw [← flatMap_singleton_cast]; rfl

/-- The merge as one loop over the occupied cells. -/
theorem mergePiece_eq_fold (g : TetrisGame) :
    g.mergePiece =
      (occupiedCells g.currentPiece g.currentRotation).foldl
        (fun f c =>
          if g.currentX + c.1 + 1 > 0 ∧ g.currentX + c.1 + 1 < (fieldWidth : Int) - 1 ∧
              g.currentY + c.2 < (fieldHeight : Int) - 1 then
            writeField f ((g.currentY + c.2) * fieldWidth + (g.currentX + c.1 + 1))
              (g.currentPiece + 1)
          else f)
        g.field := by
  unfold TetrisGame.mergePiece occupiedCells
  simp only [coe_range, List.foldl_map]
  exact foldl_nested_filter _ _
    (fun px py => occupied g.currentPiece (rotate px py g.currentRotation
      (pieceSizeOf g.currentPiece))) _ g.field

/-- The field index of a cell of the active piece. -/
theorem cell_index_nat (x y : Int) (c : Nat × Nat) (hy : 0 ≤ y) (hx : 0 < x + c.1 + 1) :
    (((y + c.2) * 12 + (x + c.1 + 1)).toNat : Int) = (y + c.2) * 12 + (x + c.1 + 1) := by
  have : 0 ≤ (y + c.2) * 12 + (x + c.1 + 1) := by
    have h1 : 0 ≤ y + c.2 := by omega
    nlinarith
  omega

theorem set_fold_getD (v : Nat) (xs : List Nat) :
    ∀ f : List Nat, (∀ x ∈ xs, x < f.length) → ∀ i : Nat,
      (xs.foldl (fun f x => f.set x v) f).getD i 0 = if i ∈ xs then v else f.getD i 0 := by
  induction xs with
  | nil => intro f _ i; simp
  | cons x xs ih =>
    intro f hlen i
    rw [List.foldl_cons, ih _ (fun a ha => by
      rw [List.length_set]; exact hlen a (List.mem_cons_of_mem _ ha))]
    have hk : x < f.length := hlen x (List.mem_cons_self _ _)
    by_cases hc : i ∈ xs
    · rw [if_pos hc, if_pos (List.mem_cons_of_mem _ hc)]
    · rw [if_neg hc, RowShift.getD_set_eq _ _ _ _ _ hk]
      by_cases hi : x = i
      · rw [if_pos hi, if_pos (by rw [hi]; exact List.mem_cons_self _ _)]
      · rw [if_neg hi, if_neg]
        intro h2
        rcases List.mem_cons.mp h2 with h3 | h3
        · exact hi h3.symm
        · exact hc h3

theorem foldl_congr_mem {σ β : Type} (F G : σ → β → σ) (l : List β)
    (h : ∀ s, ∀ b ∈ l, F s b = G s b) : ∀ s : σ, l.foldl F s = l.foldl G s := by
  induction l with
  | nil => intro s; rfl
  | cons a l ih =>
    intro s
    rw [List.foldl_cons, List.foldl_cons, h s a (List.mem_cons_self _ _),
      ih (fun s b hb => h s b (List.mem_cons_of_mem _ hb))]

/-- The field indices under the occupied cells of the active piece. -/
theorem mem_cellIndices (g : TetrisGame) (i : Nat) :
    i ∈ (g.pieceCells.map fun c => (c.2 * 12 + c.1).toNat) ↔
      ∃ c ∈ occupiedCells g.currentPiece g.currentRotation,
        ((g.currentY + c.2) * 12 + (g.currentX + c.1 + 1)).toNat = i := by
  unfold TetrisGame.pieceCells
  simp only [List.mem_map, List.map_map]
  constructor
  · rintro ⟨c, hc, rfl⟩; exact ⟨c, hc, rfl⟩
  · rintro ⟨c, hc, rfl⟩; exact ⟨c, hc, rfl⟩

/-- The merge of a fitting piece: each field cell under an occupied cell of the
piece receives `currentPiece + 1`, every other cell keeps its value. -/
theorem mergePiece_getD (g : TetrisGame) (hlen : g.field.length = 240) (hy : 0 ≤ g.currentY)
    (hf : g.Fits) (i : Nat) :
    g.mergePiece.getD i 0 =
      if i ∈ (g.pieceCells.map fun c => (c.2 * 12 + c.1).toNat) then
        ((g.currentPiece + 1) % 256).toNat
      else g.field.getD i 0 := by
  have hfit := (doesPieceFit_iff g _ _ _ _).mp hf
  have hw : ((fieldWidth : Nat) : Int) = 12 := rfl
  have hh : ((fieldHeight : Nat) : Int) = 20 := rfl
  have hfold : g.mergePiece =
      (g.pieceCells.map fun c => (c.2 * 12 + c.1).toNat).foldl
        (fun f k => f.set k ((g.currentPiece + 1) % 256).toNat) g.field := by
    rw [mergePiece_eq_fold]
    unfold TetrisGame.pieceCells
    rw [List.map_map, List.foldl_map]
    apply foldl_congr_mem
    intro s c hc
    obtain ⟨b1, b2, b3, -⟩ := hfit c hc
    have hidx := cell_index_nat g.currentX g.currentY c hy b1
    simp only [hw, hh, Function.comp]
    rw [if_pos ⟨by omega, by omega, by omega⟩]
    unfold writeField
    rw [if_pos (by omega)]
  rw [hfold]
  apply set_fold_getD
  intro k hk
  obtain ⟨c, hc, rfl⟩ := (mem_cellIndices g k).mp hk
  obtain ⟨b1, b2, b3, -⟩ := hfit c hc
  have hidx := cell_index_nat g.currentX g.currentY c hy b1
  omega

/-! ## Sessions of `Tetris.cpp`: `updateGame` keeps the invariant -/

theorem moveKeys_sound (g : TetrisGame) (hs : g.Sound) (hf : g.Fits) :
    g.moveKeys.Sound ∧ g.moveKeys.Fits := by
  unfold TetrisGame.moveKeys
  simp only
  split_ifs with h1 h2 h3 h3 h2 h3 h3
  all_goals
    refine ⟨sound_congr hs rfl rfl rfl rfl rfl rfl (le_refl _) ?_ rfl rfl rfl rfl rfl, ?_⟩
  all_goals first
    | exact le_refl _
    | (show g.currentY ≤ g.currentY + 1; omega)
    | skip
  all_goals first
    | exact hf
    | exact (Bool.and_eq_true_iff.mp h3).2
    | exact (Bool.and_eq_true_iff.mp h2).2
    | exact (Bool.and_eq_true_iff.mp h1).2

theorem rotateKey_sound (g : TetrisGame) (hs : g.Sound) (hf : g.Fits) :
    g.rotateKey.Sound ∧ g.rotateKey.Fits := by
  unfold TetrisGame.rotateKey
  simp only
  split_ifs with h1 h2
  all_goals
    refine ⟨sound_congr hs rfl rfl rfl rfl rfl rfl ?_ (le_refl _) rfl rfl rfl rfl rfl, ?_⟩
  all_goals first
    | exact le_refl _
    | (show g.currentRotation ≤ g.currentRotation + 1; omega)
    | skip
  all_goals first
    | exact hf
    | exact (Bool.and_eq_true_iff.mp h2).2

theorem countStep_sound (g : TetrisGame) (hs : g.Sound) (hf : g.Fits) :
    g.countStep.Sound ∧ g.countStep.Fits := by
  have hc := countStep_frame g
  refine ⟨?_, fits_congr hf hc.1 hc.2.1 hc.2.2.1 hc.2.2.2.1 hc.2.2.2.2.1⟩
  have hsp : 2 ≤ g.countStep.speed := by
    have := hs.speed_floor
    unfold TetrisGame.countStep
    simp only
    split_ifs with h
    · show 2 ≤ g.speed - 1
      have : g.speed ≥ 10 := h.2
      omega
    · exact this
  exact
    { speed_floor := hsp
      total_nonneg := by rw [hc.2.2.2.2.2.2.2.2.1]; exact hs.total_nonneg
      level_eq := by rw [hc.2.2.2.2.2.2.2.1, hc.2.2.2.2.2.2.2.2.1]; exact hs.level_eq
      field_length := by rw [hc.1]; exact hs.field_length
      no_full := by rw [hc.1]; exact hs.no_full
      piece_range := by rw [hc.2.1]; exact hs.piece_range
      next_range := by rw [hc.2.2.2.2.2.2.1]; exact hs.next_range
      rotation_nonneg := by rw [hc.2.2.1]; exact hs.rotation_nonneg
      y_nonneg := by rw [hc.2.2.2.2.1]; exact hs.y_nonneg
      snapshot := by
        rw [hc.2.2.2.2.2.2.2.2.2.1, hc.2.2.2.2.2.2.2.2.2.2.1, hc.2.2.2.2.2.2.2.2.2.2.2.1,
          hc.2.2.2.2.2.2.2.2.2.2.2.2.1, hc.2.2.2.2.2.2.2.2.2.2.2.2.2.1]
        exact hs.snapshot }

theorem shiftLines_length (f : List Nat) (cl : List Nat) : (shiftLines f cl).length = f.length := by
  unfold shiftLines
  exact RowShift.foldl_length _ (fun s a => shiftLine_length s a) _ f

theorem noFull_iff_interior (f : List Nat) :
    noFullRow f ↔ ∀ row ∈ interior f, rowNonzero row = false := by
  unfold noFullRow interior
  have h19 : fieldHeight - 1 = 19 := rfl
  simp only [List.mem_map, List.mem_range, h19]
  constructor
  · rintro h row ⟨y, hy, rfl⟩
    rw [← lineComplete_eq]; exact h y hy
  · intro h y hy
    rw [lineComplete_eq]; exact h _ ⟨y, hy, rfl⟩

/-- The playable interior after the lock sequence. -/
theorem lockPiece_interior (g : TetrisGame) (draw : Nat) (hlen : g.field.length = 240) :
    interior (g.lockPiece draw).field =
      List.replicate (detectLines g.mergePiece).length (List.replicate 10 0) ++
        (interior g.mergePiece).filter (fun r => !rowNonzero r) := by
  have hfield := (lockPiece_fields g draw).2.2.2.2.2.2.2.2.2.2.2.2.2
  have hmlen : g.mergePiece.length = 240 := by rw [mergePiece_length, hlen]
  rw [hfield]
  by_cases he : (detectLines g.mergePiece).isEmpty = true
  · rw [if_pos he]
    have hnil : detectLines g.mergePiece = [] := List.isEmpty_iff.mp he
    have := interior_shiftLines g.mergePiece g.mergePiece hmlen (fun _ _ _ => rfl)
    rw [hnil] at this ⊢
    exact this
  · rw [if_neg he]
    apply interior_shiftLines
    · rw [flashLines_length, hmlen]
    · intro y hy hnc
      apply interiorRow_congr
      intro x h1 h2
      apply flashLines_getD
      have e : (y * 12 + x) / 12 = y := by omega
      rw [e, detectLines_eq_filter, List.mem_filter]
      rintro ⟨-, h⟩
      rw [hnc] at h
      exact absurd h (by decide)

theorem lockPiece_field_length (g : TetrisGame) (draw : Nat) (hlen : g.field.length = 240) :
    (g.lockPiece draw).field.length = 240 := by
  have hfield := (lockPiece_fields g draw).2.2.2.2.2.2.2.2.2.2.2.2.2
  rw [hfield]
  split_ifs
  · rw [mergePiece_length, hlen]
  · rw [shiftLines_length, flashLines_length, mergePiece_length, hlen]

theorem lockPiece_noFull (g : TetrisGame) (draw : Nat) (hlen : g.field.length = 240) :
    noFullRow (g.lockPiece draw).field := by
  rw [noFull_iff_interior, lockPiece_interior g draw hlen]
  intro row hrow
  rcases List.mem_append.mp hrow with h | h
  · rw [(List.mem_replicate.mp h).2]; decide
  · simpa using (List.mem_filter.mp h).2

/-- The piece promoted by the lock sequence and the game-over test. -/
theorem lockPiece_spawn (g : TetrisGame) (draw : Nat) :
    (g.lockPiece draw).currentRotation = 0 ∧
    (g.lockPiece draw).currentX = (playWidth : Int) / 2 - 1 ∧
    (g.lockPiece draw).currentY = 0 ∧
    (g.lockPiece draw).isGameOver =
      !(g.lockPiece draw).doesPieceFit (g.lockPiece draw).currentPiece
        (g.lockPiece draw).currentRotation (g.lockPiece draw).currentX
        (g.lockPiece draw).currentY := by
  exact ⟨rfl, rfl, rfl, rfl⟩

/-- The lock sequence keeps the invariant; the promoted piece fits exactly when
the lock has not ended the game. -/
theorem lockPiece_sound (g : TetrisGame) (draw : Nat) (hs : g.Sound) (hf : g.Fits) :
    (g.lockPiece draw).Sound ∧
      ((g.lockPiece draw).isGameOver = false → (g.lockPiece draw).Fits) := by
  obtain ⟨-, f2, f3, f4, f5, f6, f7, f8, -, f10, f11, f12, -, -⟩ := lockPiece_fields g draw
  obtain ⟨p1, p2, p3, p4⟩ := lockPiece_spawn g draw
  constructor
  · exact
    { speed_floor := by
        rw [f12]; split_ifs
        · exact hs.speed_floor
        · exact le_max_left _ _
      total_nonneg := by
        rw [f10]; split_ifs
        · exact hs.total_nonneg
        · have := hs.total_nonneg; omega
      level_eq := by
        rw [f11, f10]; split_ifs
        · exact hs.level_eq
        · rfl
      field_length := lockPiece_field_length g draw hs.field_length
      no_full := lockPiece_noFull g draw hs.field_length
      piece_range := by rw [f3]; exact hs.next_range
      next_range := by rw [f2]; exact mod_seven_range draw
      rotation_nonneg := by rw [p1]
      y_nonneg := by rw [p3]
      snapshot := by
        intro saved hsaved
        rw [f4] at hsaved
        cases hsaved
        rw [f5, f6, f7, f8]
        exact ⟨hs.field_length, hs.no_full, hs.piece_range, hs.rotation_nonneg, hs.y_nonneg,
          fun h hh => by rw [doesPieceFit_congr h g hh]; exact hf⟩ }
  · intro hover
    unfold TetrisGame.Fits
    rw [p4] at hover
    simpa using hover

theorem gravityStep_sound (g : TetrisGame) (draw : Nat) (hs : g.Sound) (hf : g.Fits) :
    (g.gravityStep draw).Sound ∧
      ((g.gravityStep draw).isGameOver = false → (g.gravityStep draw).Fits) := by
  unfold TetrisGame.gravityStep
  by_cases h1 : g.forcePieceDown = true
  · rw [if_pos h1]
    obtain ⟨cs, cf⟩ := countStep_sound g hs hf
    simp only
    by_cases h2 : g.countStep.doesPieceFit g.countStep.currentPiece g.countStep.currentRotation
        g.countStep.currentX (g.countStep.currentY + 1) = true
    · rw [if_pos h2]
      refine ⟨sound_congr cs rfl rfl rfl rfl rfl rfl (le_refl _) ?_ rfl rfl rfl rfl rfl,
        fun _ => h2⟩
      show g.countStep.currentY ≤ g.countStep.currentY + 1
      omega
    · rw [if_neg h2]
      exact lockPiece_sound _ draw cs cf
  · rw [if_neg h1]
    exact ⟨hs, fun _ => hf⟩

theorem updateGame_sound (g : TetrisGame) (draw : Nat) (hs : g.Sound) (hf : g.Fits) :
    (g.updateGame draw).Sound ∧
      ((g.updateGame draw).isGameOver = false → (g.updateGame draw).Fits) := by
  obtain ⟨ms, mf⟩ := moveKeys_sound g hs hf
  obtain ⟨rs, rf⟩ := rotateKey_sound _ ms mf
  exact gravityStep_sound _ draw rs rf

theorem tick_sound (g : TetrisGame) (hs : g.Sound) (hf : g.Fits) : g.tick.Sound ∧ g.tick.Fits :=
  ⟨sound_congr hs rfl rfl rfl rfl rfl rfl (le_refl _) (le_refl _) rfl rfl rfl rfl rfl,
    fits_congr hf rfl rfl rfl rfl rfl⟩

theorem handleInput_sound (g h : TetrisGame) (inp : FrameInput) (hs : g.Sound) (hf : g.Fits)
    (hres : g.handleInput inp = some h) : h.Sound ∧ h.Fits := by
  unfold TetrisGame.handleInput at hres
  have keep : ∀ k : TetrisGame, some k = some h →
      k.speed = g.speed → k.totalLinesCleared = g.totalLinesCleared →
      k.level = g.level → k.field = g.field → k.currentPiece = g.currentPiece →
      k.nextPiece = g.nextPiece → k.currentRotation = g.currentRotation →
      k.currentX = g.currentX → k.currentY = g.currentY →
      k.previousField = g.previousField → k.previousPiece = g.previousPiece →
      k.previousRotation = g.previousRotation → k.previousX = g.previousX →
      k.previousY = g.previousY → h.Sound ∧ h.Fits := by
    intro k hk e1 e2 e3 e4 e5 e6 e7 e8 e9 e10 e11 e12 e13 e14
    rw [← Option.some.inj hk]
    exact ⟨sound_congr hs e1 e2 e3 e4 e5 e6 (le_of_eq e7.symm) (le_of_eq e9.symm) e10 e11 e12 e13
      e14, fits_congr hf e4 e5 e7 e8 e9⟩
  cases hkey : inp.key with
  | none =>
    rw [hkey] at hres
    exact keep g hres rfl rfl rfl rfl rfl rfl rfl rfl rfl rfl rfl rfl rfl rfl
  | some k =>
    rw [hkey] at hres
    simp only at hres
    split_ifs at hres
    · exact keep _ hres rfl rfl rfl rfl rfl rfl rfl rfl rfl rfl rfl rfl rfl rfl
    · exact keep _ hres rfl rfl rfl rfl rfl rfl rfl rfl rfl rfl rfl rfl rfl rfl
    · exact keep _ hres rfl rfl rfl rfl rfl rfl rfl rfl rfl rfl rfl rfl rfl rfl
    · exact keep _ hres rfl rfl rfl rfl rfl rfl rfl rfl rfl rfl rfl rfl rfl rfl
    · exact keep _ hres rfl rfl rfl rfl rfl rfl rfl rfl rfl rfl rfl rfl rfl rfl
    · rw [← Option.some.inj hres]
      exact ⟨initialize_sound g _ _, initialize_fits g _ _⟩
    · exact keep _ hres rfl rfl rfl rfl rfl rfl rfl rfl rfl rfl rfl rfl rfl rfl
    · unfold TetrisGame.dropPiece at hres
      cases hd : g.dropLoop inp.fuel with
      | none => rw [hd] at hres; simp at hres
      | some d =>
        rw [hd] at hres
        simp only [Option.map_some', Option.some.injEq] at hres
        subst hres
        have ds := dropLoop_sound _ g d hd hs
        have df := dropLoop_fits _ g d hd hf
        exact ⟨sound_congr ds rfl rfl rfl rfl rfl rfl (le_refl _) (le_refl _) rfl rfl rfl rfl rfl,
          fits_congr df rfl rfl rfl rfl rfl⟩
    · rw [← Option.some.inj hres]
      exact ⟨(undo_sound g hs).1, (undo_sound g hs).2 hf⟩
    · exact keep g hres rfl rfl rfl rfl rfl rfl rfl rfl rfl rfl rfl rfl rfl rfl

/-- Every frame keeps the invariant. -/
theorem frame_sound (g h : TetrisGame) (inp : FrameInput) (hs : g.Sound) (hf : g.Fits)
    (hres : g.frame inp = some h) : h.Sound ∧ (h.isGameOver = false → h.Fits) := by
  unfold TetrisGame.frame at hres
  split_ifs at hres with hp
  · obtain ⟨s1, f1⟩ := handleInput_sound g h inp hs hf hres
    exact ⟨s1, fun _ => f1⟩
  · obtain ⟨ts, tf⟩ := tick_sound g hs hf
    cases hk : g.tick.handleInput inp with
    | none => rw [hk] at hres; simp at hres
    | some k =>
      rw [hk] at hres
      simp only [Option.map_some', Option.some.injEq] at hres
      subst hres
      obtain ⟨s1, f1⟩ := handleInput_sound _ k inp ts tf hk
      obtain ⟨s2, f2⟩ := updateGame_sound k inp.draw s1 f1
      refine ⟨sound_congr s2 rfl rfl rfl rfl rfl rfl (le_refl _) (le_refl _) rfl rfl rfl rfl rfl,
        fun hover => fits_congr (f2 hover) rfl rfl rfl rfl rfl⟩

/-- The invariant of sessions: it holds in every reachable state, and the
active piece fits in every reachable state that is not over. -/
theorem reachable_sound (g : TetrisGame) (hr : Reachable g) :
    g.Sound ∧ (g.isGameOver = false → g.Fits) := by
  induction hr with
  | start d1 d2 high => exact ⟨new_sound d1 d2 high, fun _ => new_fits d1 d2 high⟩
  | frame g h inp _ hover hres ih => exact frame_sound g h inp ih.1 (ih.2 hover) hres
  | restart g d1 d2 _ _ _ => exact ⟨initialize_sound g d1 d2, fun _ => initialize_fits g d1 d2⟩

theorem atUpdate_sound (h : TetrisGame) (ha : AtUpdate h) : h.Sound ∧ h.Fits := by
  obtain ⟨g, inp, hr, hover, -, hres⟩ := ha
  obtain ⟨s0, f0⟩ := reachable_sound g hr
  obtain ⟨ts, tf⟩ := tick_sound g s0 (f0 hover)
  exact handleInput_sound _ h inp ts tf hres

theorem reachable_runFrames (l : List FrameInput) :
    ∀ g h : TetrisGame, Reachable g → g.runFrames l = some h → Reachable h := by
  induction l with
  | nil => intro g h hr hres; cases hres; exact hr
  | cons inp rest ih =>
    intro g h hr hres
    unfold TetrisGame.runFrames at hres
    by_cases hover : g.isGameOver = true
    · rw [if_pos hover] at hres; cases hres
    · rw [if_neg hover] at hres
      cases hk : g.frame inp with
      | none => rw [hk] at hres; cases hres
      | some k =>
        rw [hk] at hres
        exact ih k h (Reachable.frame g k inp hr (by simpa using hover) hk) hres

/-! ## Speed and level over a session -/

/-- C11: in every state reachable from a new session (through frames with any
key, paused or not, locks with or without completed rows, undos and restarts)
`speed` is at least `2`; the same holds when `updateGame` is entered and when it
returns. -/
theorem speed_at_least_two (g : TetrisGame) (hr : Reachable g) :
    2 ≤ g.speed ∧
    (∀ (inp : FrameInput) (k : TetrisGame), g.isGameOver = false → g.isPaused = false →
      g.tick.handleInput inp = some k →
        2 ≤ k.speed ∧ ∀ draw : Nat, 2 ≤ (k.updateGame draw).speed) := by
  refine ⟨(reachable_sound g hr).1.speed_floor, ?_⟩
  intro inp k hover hpause hres
  obtain ⟨ks, kf⟩ := atUpdate_sound k ⟨g, inp, hr, hover, hpause, hres⟩
  exact ⟨ks.speed_floor, fun draw => (updateGame_sound k draw ks kf).1.speed_floor⟩

theorem speed_at_least_two_witness :
    Reachable (TetrisGame.new 3 0 0) ∧ 2 ≤ (TetrisGame.new 3 0 0).speed :=
  ⟨Reachable.start 3 0 0, (speed_at_least_two (TetrisGame.new 3 0 0) (Reachable.start 3 0 0)).1⟩

/-- What `handleInput` leaves of the line total, the level and the speed when
the key is not the restart key. -/
theorem handleInput_keeps_level (g h : TetrisGame) (inp : FrameInput)
    (hres : g.handleInput inp = some h) (hr1 : inp.key ≠ some 'r') (hr2 : inp.key ≠ some 'R') :
    h.level = g.level ∧ h.totalLinesCleared = g.totalLinesCleared ∧ h.speed = g.speed := by
  unfold TetrisGame.handleInput at hres
  cases hkey : inp.key with
  | none =>
    rw [hkey] at hres
    rw [← Option.some.inj hres]
    exact ⟨rfl, rfl, rfl⟩
  | some k =>
    rw [hkey] at hres hr1 hr2
    simp only at hres
    have hk1 : k ≠ 'r' := fun e => hr1 (by rw [e])
    have hk2 : k ≠ 'R' := fun e => hr2 (by rw [e])
    split_ifs at hres with c1 c2 c3 c4 c5 c6 c7 c8 c9
    · rw [← Option.some.inj hres]; exact ⟨rfl, rfl, rfl⟩
    · rw [← Option.some.inj hres]; exact ⟨rfl, rfl, rfl⟩
    · rw [← Option.some.inj hres]; exact ⟨rfl, rfl, rfl⟩
    · rw [← Option.some.inj hres]; exact ⟨rfl, rfl, rfl⟩
    · rw [← Option.some.inj hres]; exact ⟨rfl, rfl, rfl⟩
    · rcases c6 with c6 | c6
      · exact absurd c6 hk1
      · exact absurd c6 hk2
    · rw [← Option.some.inj hres]; exact ⟨rfl, rfl, rfl⟩
    · unfold TetrisGame.dropPiece at hres
      cases hd : g.dropLoop inp.fuel with
      | none => rw [hd] at hres; simp at hres
      | some d =>
        rw [hd] at hres
        simp only [Option.map_some', Option.some.injEq] at hres
        rw [← hres, (dropLoop_result _ g d hd).1]
        exact ⟨rfl, rfl, rfl⟩
    · rw [← Option.some.inj hres]
      unfold TetrisGame.undo
      cases g.previousField <;> exact ⟨rfl, rfl, rfl⟩
    · rw [← Option.some.inj hres]; exact ⟨rfl, rfl, rfl⟩

/-- The level, the line total and the speed over one `updateGame`. -/
theorem updateGame_level_speed (g : TetrisGame) (draw : Nat) (hs : g.Sound) :
    g.level ≤ (g.updateGame draw).level ∧
    g.totalLinesCleared ≤ (g.updateGame draw).totalLinesCleared ∧
    ((g.updateGame draw).totalLinesCleared = g.totalLinesCleared →
      (g.updateGame draw).speed ≤ g.speed ∧ (g.updateGame draw).level = g.level) ∧
    (g.totalLinesCleared < (g.updateGame draw).totalLinesCleared →
      (g.updateGame draw).speed = max 2 (30 - 2 * (g.updateGame draw).level) ∧
      (g.updateGame draw).speed ≤ max 2 (30 - 2 * g.level)) := by
  have hm := moveKeys_frame g
  have hr := rotateKey_frame g.moveKeys
  have hc := countStep_frame g.moveKeys.rotateKey
  have hlev : g.moveKeys.rotateKey.level = g.level := by
    rw [hr.2.2.2.2.2.2.2.1, hm.2.2.2.2.2.2.2.1]
  have htot : g.moveKeys.rotateKey.totalLinesCleared = g.totalLinesCleared := by
    rw [hr.2.2.2.2.2.2.2.2.1, hm.2.2.2.2.2.2.2.2.1]
  have hspd : g.moveKeys.rotateKey.speed = g.speed := by
    rw [hr.2.2.2.2.2.2.2.2.2.1, hm.2.2.2.2.2.2.2.2.2.1]
  have hcs : g.moveKeys.rotateKey.countStep.speed ≤ g.speed := by
    rw [← hspd]
    unfold TetrisGame.countStep
    simp only
    split_ifs
    · show g.moveKeys.rotateKey.speed - 1 ≤ g.moveKeys.rotateKey.speed
      omega
    · exact le_refl _
  have hl0 := hs.level_eq
  have ht0 := hs.total_nonneg
  unfold TetrisGame.updateGame TetrisGame.gravityStep
  by_cases h1 : g.moveKeys.rotateKey.forcePieceDown = true
  · rw [if_pos h1]
    simp only
    by_cases h2 : g.moveKeys.rotateKey.countStep.doesPieceFit
        g.moveKeys.rotateKey.countStep.currentPiece g.moveKeys.rotateKey.countStep.currentRotation
        g.moveKeys.rotateKey.countStep.currentX (g.moveKeys.rotateKey.countStep.currentY + 1) = true
    · rw [if_pos h2]
      have e1 : g.moveKeys.rotateKey.countStep.level = g.level := by rw [hc.2.2.2.2.2.2.2.1, hlev]
      have e2 : g.moveKeys.rotateKey.countStep.totalLinesCleared = g.totalLinesCleared := by
        rw [hc.2.2.2.2.2.2.2.2.1, htot]
      refine ⟨le_of_eq e1.symm, le_of_eq e2.symm, fun _ => ⟨hcs, e1⟩, fun hlt => ?_⟩
      exact absurd hlt (by rw [e2]; exact lt_irrefl _)
    · rw [if_neg h2]
      obtain ⟨-, -, -, -, -, -, -, -, -, f10, f11, f12, -, -⟩ :=
        lockPiece_fields g.moveKeys.rotateKey.countStep draw
      rw [total_before_lock] at f10 f11
      rw [level_before_lock] at f11
      rw [f10, f11, f12, f11]
      by_cases he : (detectLines g.moveKeys.rotateKey.countStep.mergePiece).isEmpty = true
      · simp only [he, if_true]
        exact ⟨le_refl _, le_refl _, fun _ => ⟨hcs, trivial⟩, fun hlt => absurd hlt (lt_irrefl _)⟩
      · simp only [he]
        have hpos : 0 < (detectLines g.moveKeys.rotateKey.countStep.mergePiece).length := by
          cases hd : detectLines g.moveKeys.rotateKey.countStep.mergePiece with
          | nil => rw [hd] at he; simp at he
          | cons a l => simp
        have hdiv : Int.tdiv (g.totalLinesCleared +
            (detectLines g.moveKeys.rotateKey.countStep.mergePiece).length) 2 =
            (g.totalLinesCleared +
              (detectLines g.moveKeys.rotateKey.countStep.mergePiece).length) / 2 :=
          Int.tdiv_eq_ediv (by omega) (by decide)
        have hdiv0 : Int.tdiv g.totalLinesCleared 2 = g.totalLinesCleared / 2 :=
          Int.tdiv_eq_ediv ht0 (by decide)
        rw [hdiv0] at hl0
        rw [hdiv]
        simp only [Bool.false_eq_true, if_false]
        refine ⟨?_, by omega, fun heq => ?_, fun _ => ⟨by rw [mul_comm], ?_⟩⟩
        · rw [hl0]; omega
        · omega
        · rw [hl0, mul_comm]; omega
  · rw [if_neg h1]
    exact ⟨le_of_eq hlev.symm, le_of_eq htot.symm, fun _ => ⟨le_of_eq hspd, hlev⟩,
      fun hlt => absurd hlt (by rw [htot]; exact lt_irrefl _)⟩

theorem undo_keeps_level (g : TetrisGame) :
    g.undo.level = g.level ∧ g.undo.totalLinesCleared = g.totalLinesCleared := by
  unfold TetrisGame.undo
  cases g.previousField <;> exact ⟨rfl, rfl⟩

/-- C13: in every reachable state `level >= 1`, and a frame whose key is not the
restart key ends with a level that is not lower than the level it started with,
whether the session is paused or not; `undo` brings back the score but leaves the
line total and the level as they are. -/
theorem level_monotone (g : TetrisGame) (hr : Reachable g) :
    1 ≤ g.level ∧
    (∀ (inp : FrameInput) (h : TetrisGame), g.isGameOver = false → g.frame inp = some h →
      inp.key ≠ some 'r' → inp.key ≠ some 'R' → g.level ≤ h.level) ∧
    (g.undo.level = g.level ∧ g.undo.totalLinesCleared = g.totalLinesCleared) := by
  obtain ⟨hs, hfit⟩ := reachable_sound g hr
  refine ⟨by rw [hs.level_eq]; exact le_max_left _ _, ?_, undo_keeps_level g⟩
  intro inp h hover hres hr1 hr2
  unfold TetrisGame.frame at hres
  split_ifs at hres with hp
  · exact le_of_eq (handleInput_keeps_level g h inp hres hr1 hr2).1.symm
  · cases hk : g.tick.handleInput inp with
    | none => rw [hk] at hres; simp at hres
    | some k =>
      rw [hk] at hres
      simp only [Option.map_some', Option.some.injEq] at hres
      rw [← hres]
      obtain ⟨ts, tf⟩ := tick_sound g hs (hfit hover)
      obtain ⟨ks, -⟩ := handleInput_sound _ k inp ts tf hk
      have e1 : k.level = g.level := (handleInput_keeps_level _ k inp hk hr1 hr2).1
      have := (updateGame_level_speed k inp.draw ks).1
      show g.level ≤ (k.updateGame inp.draw).level
      rw [← e1]; exact this

theorem level_monotone_witness :
    Reachable (TetrisGame.new 3 0 0) ∧ 1 ≤ (TetrisGame.new 3 0 0).level :=
  ⟨Reachable.start 3 0 0, (level_monotone (TetrisGame.new 3 0 0) (Reachable.start 3 0 0)).1⟩

/-- C12 as the code has it: when `updateGame` is entered in a reachable session,
a step that completes no row ends with `speed` at most the speed it started
with, and a step that completes rows sets `speed` to `max(2, 30 - 2 * level)`
for the level it has recomputed, which is at most `max(2, 30 - 2 * level)` for
the level before the step; so the speed after a step never exceeds the larger of
the speed before and that value. -/
theorem speed_step_bound (g k : TetrisGame) (inp : FrameInput) (draw : Nat)
    (hr : Reachable g) (hover : g.isGameOver = false) (hpause : g.isPaused = false)
    (hres : g.tick.handleInput inp = some k) :
    ((k.updateGame draw).totalLinesCleared = k.totalLinesCleared →
      (k.updateGame draw).speed ≤ k.speed) ∧
    (k.totalLinesCleared < (k.updateGame draw).totalLinesCleared →
      (k.updateGame draw).speed = max 2 (30 - 2 * (k.updateGame draw).level) ∧
      (k.updateGame draw).speed ≤ max 2 (30 - 2 * k.level)) ∧
    (k.updateGame draw).speed ≤ max k.speed (max 2 (30 - 2 * k.level)) := by
  obtain ⟨ks, -⟩ := atUpdate_sound k ⟨g, inp, hr, hover, hpause, hres⟩
  obtain ⟨-, h2, h3, h4⟩ := updateGame_level_speed k draw ks
  refine ⟨fun he => (h3 he).1, h4, ?_⟩
  rcases lt_or_eq_of_le h2 with hlt | heq
  · exact le_trans (h4 hlt).2 (le_max_right _ _)
  · exact le_trans (h3 heq.symm).1 (le_max_left _ _)

/-! ## The cells merged by a lock -/

theorem rotate_mod_four (px py n : Int) (s : Nat) :
    rotate px py (s : Int) n = rotate px py ((s % 4 : Nat) : Int) n := by
  rw [rotate_of_mod, rotate_of_mod, Nat.mod_mod]

theorem occupiedCells_mod_four (piece : Int) (s : Nat) :
    occupiedCells piece (s : Int) = occupiedCells piece ((s % 4 : Nat) : Int) := by
  unfold occupiedCells
  simp only [rotate_mod_four _ _ _ s]

/-- Every piece kind occupies four different cells of its box in every rotation. -/
theorem occupiedCells_four (piece rot : Int) (hp : 0 ≤ piece ∧ piece ≤ 6) (hr : 0 ≤ rot) :
    (occupiedCells piece rot).length = 4 ∧ (occupiedCells piece rot).Nodup ∧
      ∀ c ∈ occupiedCells piece rot, c.1 < 4 ∧ c.2 < 4 := by
  obtain ⟨s, rfl⟩ := Int.eq_ofNat_of_zero_le hr
  rw [occupiedCells_mod_four]
  have hs : s % 4 < 4 := Nat.mod_lt _ (by decide)
  obtain ⟨h0, h6⟩ := hp
  interval_cases piece <;> interval_cases (s % 4) <;> decide

theorem pieceCells_four (g : TetrisGame) (hp : 0 ≤ g.currentPiece ∧ g.currentPiece ≤ 6)
    (hr : 0 ≤ g.currentRotation) : g.pieceCells.length = 4 ∧ g.pieceCells.Nodup := by
  obtain ⟨h1, h2, -⟩ := occupiedCells_four g.currentPiece g.currentRotation hp hr
  unfold TetrisGame.pieceCells
  refine ⟨by rw [List.length_map, h1], List.Nodup.map ?_ h2⟩
  intro a b hab
  simp only [Prod.mk.injEq] at hab
  have e1 : a.1 = b.1 := by omega
  have e2 : a.2 = b.2 := by omega
  exact Prod.ext e1 e2

/-- The cells of a fitting piece lie in the playable interior on empty cells, the
merge writes `currentPiece + 1` into them and nothing anywhere else. -/
theorem merge_cells (m : TetrisGame) (ms : m.Sound) (mf : m.Fits) :
    (∀ c ∈ m.pieceCells,
      (1 ≤ c.1 ∧ c.1 ≤ 10 ∧ 0 ≤ c.2 ∧ c.2 ≤ 18) ∧
      m.field.getD (c.2 * 12 + c.1).toNat 0 = 0 ∧
      m.mergePiece.getD (c.2 * 12 + c.1).toNat 0 = (m.currentPiece + 1).toNat) ∧
    (∀ i : Nat, (∀ c ∈ m.pieceCells, (c.2 * 12 + c.1).toNat ≠ i) →
      m.mergePiece.getD i 0 = m.field.getD i 0) := by
  have hfit := (doesPieceFit_iff m _ _ _ _).mp mf
  have hy := ms.y_nonneg
  have hmerge := mergePiece_getD m ms.field_length hy mf
  have hval : ((m.currentPiece + 1) % 256).toNat = (m.currentPiece + 1).toNat := by
    have := ms.piece_range
    congr 1; omega
  constructor
  · intro c hc
    unfold TetrisGame.pieceCells at hc
    obtain ⟨o, ho, rfl⟩ := List.mem_map.mp hc
    obtain ⟨b1, b2, b3, b4⟩ := hfit o ho
    have hidx := cell_index_nat m.currentX m.currentY o hy b1
    refine ⟨⟨by show 1 ≤ m.currentX + o.1 + 1; omega, by show m.currentX + o.1 + 1 ≤ 10; omega,
      by show 0 ≤ m.currentY + o.2; omega, by show m.currentY + o.2 ≤ 18; omega⟩, ?_, ?_⟩
    · unfold readField at b4
      rw [if_pos (by omega)] at b4
      exact b4
    · rw [hmerge, if_pos, hval]
      exact List.mem_map.mpr ⟨_, hc, rfl⟩
  · intro i hi
    rw [hmerge, if_neg]
    intro hmem
    obtain ⟨c, hc, rfl⟩ := List.mem_map.mp hmem
    exact hi c hc rfl

/-- The rows completed by a merge: each holds a cell of the merged piece, so
there are at most four of them. -/
theorem merge_lines_bound (m : TetrisGame) (ms : m.Sound) (mf : m.Fits) :
    (detectLines m.mergePiece).length ≤ 4 ∧
      ∀ y ∈ detectLines m.mergePiece, ∃ c ∈ m.pieceCells, c.2 = (y : Int) := by
  obtain ⟨hin, hout⟩ := merge_cells m ms mf
  have hrows : ∀ y ∈ detectLines m.mergePiece, ∃ c ∈ m.pieceCells, c.2 = (y : Int) := by
    intro y hy
    rw [detectLines_eq_filter, List.mem_filter, List.mem_range] at hy
    obtain ⟨hy19, hfull⟩ := hy
    have hnot := ms.no_full y hy19
    unfold lineComplete at hnot hfull
    rw [Bool.eq_false_iff, Ne, List.all_eq_true] at hnot
    rw [List.all_eq_true] at hfull
    push_neg at hnot
    obtain ⟨x, hx, hx0⟩ := hnot
    have hx1 := hfull x hx
    have hxr := (mem_interior_cols x).mp hx
    have hw : fieldWidth = 12 := rfl
    rw [hw] at hx0 hx1
    simp only [ne_eq, decide_not, Bool.not_eq_true', decide_eq_false_iff_not, not_not,
      Bool.not_eq_true, decide_eq_true_eq] at hx0 hx1
    by_contra hcon
    push_neg at hcon
    apply hx1
    rw [hout, hx0]
    intro c hc he
    obtain ⟨⟨c1, c2, c3, c4⟩, -⟩ := hin c hc
    apply hcon c hc
    omega
  refine ⟨?_, hrows⟩
  have hnodup : (detectLines m.mergePiece).Nodup := by
    rw [detectLines_eq_filter]
    exact (List.nodup_range _).filter _
  have hsub : detectLines m.mergePiece ⊆ List.range' m.currentY.toNat 4 := by
    intro y hy
    obtain ⟨c, hc, hcy⟩ := hrows y hy
    unfold TetrisGame.pieceCells at hc
    obtain ⟨o, ho, rfl⟩ := List.mem_map.mp hc
    obtain ⟨-, -, ho4⟩ := occupiedCells_four m.currentPiece m.currentRotation ms.piece_range
      ms.rotation_nonneg
    have h4 := (ho4 o ho).2
    have hy0 := ms.y_nonneg
    rw [List.mem_range']
    refine ⟨o.2, h4, ?_⟩
    simp only at hcy
    omega
  have := (List.subperm_of_subset hnodup hsub).length_le
  rwa [List.length_range'] at this

/-- The state handed to the lock sequence by `updateGame` and what is known of it. -/
theorem lock_entry (k : TetrisGame) (ks : k.Sound) (kf : k.Fits) :
    k.moveKeys.rotateKey.Sound ∧ k.moveKeys.rotateKey.Fits ∧
    k.moveKeys.rotateKey.field = k.field ∧
    k.moveKeys.rotateKey.currentPiece = k.currentPiece ∧
    k.moveKeys.rotateKey.countStep.nextPiece = k.nextPiece := by
  obtain ⟨s1, f1⟩ := moveKeys_sound k ks kf
  obtain ⟨s2, f2⟩ := rotateKey_sound _ s1 f1
  refine ⟨s2, f2, ?_, ?_, ?_⟩
  · rw [(rotateKey_frame _).1, (moveKeys_frame _).1]
  · rw [(rotateKey_frame _).2.1, (moveKeys_frame _).2.1]
  · rw [(countStep_frame _).2.2.2.2.2.2.1, (rotateKey_frame _).2.2.2.2.2.2.1,
      (moveKeys_frame _).2.2.2.2.2.2.1]

theorem new_eq_literal (draw1 draw2 : Nat) (high : Int) :
    TetrisGame.new draw1 draw2 high =
      { TetrisGame.new draw1 draw2 high with field := emptyField } := by
  unfold TetrisGame.new
  rw [initializeField_eq]

theorem freshO_reachable : Reachable freshO := by
  have h := Reachable.start 3 0 0
  rw [new_eq_literal] at h
  exact h

set_option maxRecDepth 100000 in
theorem freshO_drop : freshO.tick.handleInput (pressKey ' ') = some droppedO := by
  decide

set_option maxRecDepth 100000 in
theorem droppedO_locks : droppedO.locksNow := by
  decide

/-- C18: in every state reachable from a new session in which `isGameOver` is
false, `currentY >= 0` and the active piece fits where it is.  Hence, whenever
`updateGame` locks in a frame of such a state, the merge writes the piece's four
different cells, each in the playable interior (columns `1 .. 10`, rows
`0 .. 18`) and each `0` before the merge, the value written is
`currentPiece + 1`, no other cell of the field changes, the next piece is
promoted to the spawn anchor, and `isGameOver` is set exactly when the promoted
piece does not fit there. -/
theorem active_piece_fits (g : TetrisGame) (hr : Reachable g) (hover : g.isGameOver = false) :
    (0 ≤ g.currentY ∧
      g.doesPieceFit g.currentPiece g.currentRotation g.currentX g.currentY = true) ∧
    ∀ (inp : FrameInput) (k : TetrisGame) (draw : Nat), g.isPaused = false →
      g.tick.handleInput inp = some k → k.locksNow →
        (k.moveKeys.rotateKey.pieceCells.length = 4 ∧
          k.moveKeys.rotateKey.pieceCells.Nodup) ∧
        (∀ c ∈ k.moveKeys.rotateKey.pieceCells,
          (1 ≤ c.1 ∧ c.1 ≤ 10 ∧ 0 ≤ c.2 ∧ c.2 ≤ 18) ∧
          k.field.getD (c.2 * 12 + c.1).toNat 0 = 0 ∧
          k.moveKeys.rotateKey.mergePiece.getD (c.2 * 12 + c.1).toNat 0 =
            (k.currentPiece + 1).toNat) ∧
        (∀ i : Nat, (∀ c ∈ k.moveKeys.rotateKey.pieceCells, (c.2 * 12 + c.1).toNat ≠ i) →
          k.moveKeys.rotateKey.mergePiece.getD i 0 = k.field.getD i 0) ∧
        ((k.updateGame draw).currentPiece = k.nextPiece ∧
          (k.updateGame draw).currentRotation = 0 ∧
          (k.updateGame draw).currentX = 4 ∧ (k.updateGame draw).currentY = 0) ∧
        ((k.updateGame draw).isGameOver = true ↔
          (k.updateGame draw).doesPieceFit k.nextPiece 0 4 0 = false) := by
  obtain ⟨gs, gf⟩ := reachable_sound g hr
  refine ⟨⟨gs.y_nonneg, gf hover⟩, ?_⟩
  intro inp k draw hpause hres hl
  obtain ⟨ks, kf⟩ := atUpdate_sound k ⟨g, inp, hr, hover, hpause, hres⟩
  obtain ⟨ms, mf, e1, e2, e3⟩ := lock_entry k ks kf
  obtain ⟨hin, hout⟩ := merge_cells _ ms mf
  rw [e1, e2] at hin
  rw [e1] at hout
  have hsp := lockPiece_spawn k.moveKeys.rotateKey.countStep draw
  have hcur := (lockPiece_fields k.moveKeys.rotateKey.countStep draw).2.2.1
  rw [← updateGame_of_locksNow k draw hl] at hsp hcur
  rw [e3] at hcur
  obtain ⟨s1, s2, s3, s4⟩ := hsp
  have hx : (k.updateGame draw).currentX = 4 := by rw [s2]; rfl
  refine ⟨pieceCells_four _ ms.piece_range ms.rotation_nonneg, hin, hout,
    ⟨hcur, s1, hx, s3⟩, ?_⟩
  rw [s4, hcur, s1, hx, s3]
  simp

set_option maxRecDepth 100000 in
theorem active_piece_fits_witness :
    (0 ≤ freshO.currentY ∧
      freshO.doesPieceFit freshO.currentPiece freshO.currentRotation freshO.currentX
        freshO.currentY = true) ∧
    droppedO.moveKeys.rotateKey.pieceCells = [(5, 17), (5, 18), (6, 17), (6, 18)] ∧
    droppedO.moveKeys.rotateKey.pieceCells.length = 4 ∧
    ((droppedO.updateGame 0).isGameOver = true ↔
      (droppedO.updateGame 0).doesPieceFit droppedO.nextPiece 0 4 0 = false) :=
  have h := active_piece_fits freshO freshO_reachable rfl
  have hk := h.2 (pressKey ' ') droppedO 0 rfl freshO_drop droppedO_locks
  ⟨h.1, by decide, hk.1.1, hk.2.2.2.2⟩

/-- C19: no playable row of the field is full in a state reachable from a new
session, and whenever `updateGame` locks in a frame of such a state, every
completed row holds a cell of the merged piece, at most four rows are completed,
and the score rises by `250` plus the bonus of the one case of the switch that
the count selects (`1000`, `2000`, `3000` or `5000` times the recomputed level
for `1`, `2`, `3`, `4` rows; nothing for `0` rows). -/
theorem lock_rows_at_most_four (g : TetrisGame) (hr : Reachable g) :
    noFullRow g.field ∧
    ∀ (inp : FrameInput) (k : TetrisGame) (draw : Nat), g.isGameOver = false →
      g.isPaused = false → g.tick.handleInput inp = some k → k.locksNow →
        (k.updateGame draw).completedLines.length ≤ 4 ∧
        (∀ y ∈ (k.updateGame draw).completedLines,
          ∃ c ∈ k.moveKeys.rotateKey.pieceCells, c.2 = (y : Int)) ∧
        ((k.updateGame draw).completedLines.length = 0 ∧
            (k.updateGame draw).score = k.score + 250 ∨
          (k.updateGame draw).completedLines.length = 1 ∧
            (k.updateGame draw).score = k.score + 250 + 1000 * (k.updateGame draw).level ∨
          (k.updateGame draw).completedLines.length = 2 ∧
            (k.updateGame draw).score = k.score + 250 + 2000 * (k.updateGame draw).level ∨
          (k.updateGame draw).completedLines.length = 3 ∧
            (k.updateGame draw).score = k.score + 250 + 3000 * (k.updateGame draw).level ∨
          (k.updateGame draw).completedLines.length = 4 ∧
            (k.updateGame draw).score = k.score + 250 + 5000 * (k.updateGame draw).level) := by
  obtain ⟨gs, -⟩ := reachable_sound g hr
  refine ⟨gs.no_full, ?_⟩
  intro inp k draw hover hpause hres hl
  obtain ⟨ks, kf⟩ := atUpdate_sound k ⟨g, inp, hr, hover, hpause, hres⟩
  obtain ⟨ms, mf, -, -, -⟩ := lock_entry k ks kf
  obtain ⟨hlen, hrows⟩ := merge_lines_bound _ ms mf
  have hf := lockPiece_fields k.moveKeys.rotateKey.countStep draw
  have hcl := hf.1
  have hsc := hf.2.2.2.2.2.2.2.2.2.2.2.2.1
  rw [← updateGame_of_locksNow k draw hl, merge_after_count] at hcl hsc
  rw [score_before_lock] at hsc
  rw [← hcl] at hlen hrows hsc
  refine ⟨hlen, hrows, ?_⟩
  generalize (k.updateGame draw).completedLines = cl at hlen hsc
  rw [hsc]
  unfold lineBonus
  match cl, hlen with
  | [], _ => left; simp
  | [_], _ => right; left; simp
  | [_, _], _ => right; right; left; simp
  | [_, _, _], _ => right; right; right; left; simp
  | [_, _, _, _], _ => right; right; right; right; simp
  | _ :: _ :: _ :: _ :: _ :: _, h => simp at h

set_option maxRecDepth 100000 in
theorem lock_rows_at_most_four_witness :
    noFullRow freshO.field ∧
      (droppedO.updateGame 0).completedLines = [] ∧
      (droppedO.updateGame 0).completedLines.length ≤ 4 :=
  have h := lock_rows_at_most_four freshO freshO_reachable
  ⟨h.1, by decide, (h.2 (pressKey ' ') droppedO 0 rfl rfl freshO_drop droppedO_locks).1⟩

/-! ## The loop of `dropPiece` -/

/-- A piece with an occupied cell does not fit with its anchor below row `18`. -/
theorem doesPieceFit_row_le (g : TetrisGame) (piece rot x y : Int)
    (hocc : occupiedCells piece rot ≠ [])
    (hfit : g.doesPieceFit piece rot x y = true) : y ≤ 18 := by
  obtain ⟨c, hc⟩ := List.exists_mem_of_ne_nil _ hocc
  have := (doesPieceFit_iff g piece rot x y).mp hfit c hc
  omega

/-- The loop of `dropPiece` stops within `19 - currentY` steps. -/
theorem dropLoop_total : ∀ (fuel : Nat) (g : TetrisGame),
    occupiedCells g.currentPiece g.currentRotation ≠ [] →
    (19 - g.currentY).toNat < fuel → ∃ h, g.dropLoop fuel = some h := by
  intro fuel
  induction fuel with
  | zero => intro g _ hlt; omega
  | succ n ih =>
    intro g hocc hlt
    unfold TetrisGame.dropLoop
    by_cases hfit : g.doesPieceFit g.currentPiece g.currentRotation g.currentX
        (g.currentY + 1) = true
    · rw [if_pos hfit]
      have hle := doesPieceFit_row_le _ _ _ _ _ hocc hfit
      refine ih { g with currentY := g.currentY + 1 } hocc ?_
      show (19 - (g.currentY + 1)).toNat < n
      omega
    · rw [if_neg hfit]
      exact ⟨g, rfl⟩

/-- C14: the hard drop of both implementations.  For a piece with an occupied
cell and every bound on the loop above `19 - currentY` (`Tetris.cpp`) or
`20 - currentRow` (`Tetris_NEW.cpp`), the loop stops; its result differs from
the start in the row only (and `dropPiece` sets `forcePieceDown`), the row `r`
it stops at is the first row from the starting row on at which the piece does
not fit at `r + 1`, and a piece that fits at the starting row fits at every row
from there to `r`. -/
theorem hard_drop_lands :
    (∀ (g : TetrisGame) (fuel : Nat),
      occupiedCells g.currentPiece g.currentRotation ≠ [] →
      (19 - g.currentY).toNat < fuel →
      ∃ h, g.dropPiece fuel = some h ∧
        h = { g with currentY := h.currentY, forcePieceDown := true } ∧
        g.currentY ≤ h.currentY ∧
        g.doesPieceFit g.currentPiece g.currentRotation g.currentX (h.currentY + 1) = false ∧
        (∀ r : Int, g.currentY ≤ r → r < h.currentY →
          g.doesPieceFit g.currentPiece g.currentRotation g.currentX (r + 1) = true) ∧
        (g.doesPieceFit g.currentPiece g.currentRotation g.currentX g.currentY = true →
          ∀ r : Int, g.currentY ≤ r → r ≤ h.currentY →
            g.doesPieceFit g.currentPiece g.currentRotation g.currentX r = true)) ∧
    (∀ (g : TetrisNew.Game) (fuel : Nat),
      (∃ r c : Nat, r < 4 ∧ c < 4 ∧ TetrisNew.at2 g.currentPiece.shape r c ≠ 0) →
      (20 - g.currentRow).toNat < fuel →
      ∃ h, g.dropLoop fuel = some h ∧
        h = { g with currentRow := h.currentRow } ∧
        g.currentRow ≤ h.currentRow ∧
        g.board.canPlace g.currentPiece (h.currentRow + 1) g.currentCol = false ∧
        (∀ r : Int, g.currentRow ≤ r → r < h.currentRow →
          g.board.canPlace g.currentPiece (r + 1) g.currentCol = true) ∧
        (g.board.canPlace g.currentPiece g.currentRow g.currentCol = true →
          ∀ r : Int, g.currentRow ≤ r → r ≤ h.currentRow →
            g.board.canPlace g.currentPiece r g.currentCol = true)) := by
  constructor
  · intro g fuel hocc hfuel
    obtain ⟨h, hres⟩ := dropLoop_total fuel g hocc hfuel
    obtain ⟨h1, h2, h3, h4⟩ := dropLoop_result fuel g h hres
    refine ⟨{ h with forcePieceDown := true }, ?_, ?_, h2, h3, h4, ?_⟩
    · unfold TetrisGame.dropPiece; rw [hres]; rfl
    · show { h with forcePieceDown := true } =
        { g with currentY := h.currentY, forcePieceDown := true }
      rw [h1]
    · intro hfit r hr1 hr2
      have hr3 : r ≤ h.currentY := hr2
      by_cases he : r = g.currentY
      · rw [he]; exact hfit
      · have := h4 (r - 1) (by omega) (by omega)
        rw [sub_add_cancel] at this
        exact this
  · intro g fuel hocc hfuel
    obtain ⟨h, hres⟩ := TetrisNew.game_dropLoop_total fuel g hocc hfuel
    obtain ⟨h1, h2, h3, h4⟩ := TetrisNew.game_dropLoop_result fuel g h hres
    refine ⟨h, hres, h1, h2, h3, h4, ?_⟩
    intro hfit r hr1 hr2
    by_cases he : r = g.currentRow
    · rw [he]; exact hfit
    · have := h4 (r - 1) (by omega) (by omega)
      rw [sub_add_cancel] at this
      exact this

set_option maxRecDepth 100000 in
theorem hard_drop_lands_witness :
    (occupiedCells freshO.currentPiece freshO.currentRotation ≠ [] ∧
      (19 - freshO.currentY).toNat < 40 ∧
      freshO.dropPiece 40 = some { freshO with currentY := 17, forcePieceDown := true } ∧
      ∃ h, freshO.dropPiece 40 = some h ∧ freshO.currentY ≤ h.currentY ∧
        freshO.doesPieceFit freshO.currentPiece freshO.currentRotation freshO.currentX
          (h.currentY + 1) = false) ∧
    ((∃ r c : Nat, r < 4 ∧ c < 4 ∧
        TetrisNew.at2 (TetrisNew.Game.new fun _ => 0).currentPiece.shape r c ≠ 0) ∧
      (20 - (TetrisNew.Game.new fun _ => 0).currentRow).toNat < 40 ∧
      (TetrisNew.Game.new fun _ => 0).dropLoop 40 =
        some { TetrisNew.Game.new fun _ => 0 with currentRow := 18 } ∧
      ∃ h, (TetrisNew.Game.new fun _ => 0).dropLoop 40 = some h ∧
        (TetrisNew.Game.new fun _ => 0).currentRow ≤ h.currentRow ∧
        (TetrisNew.Game.new fun _ => 0).board.canPlace
          (TetrisNew.Game.new fun _ => 0).currentPiece (h.currentRow + 1)
          (TetrisNew.Game.new fun _ => 0).currentCol = false) :=
  ⟨⟨by decide, by decide, by decide,
      (hard_drop_lands.1 freshO 40 (by decide) (by decide)).imp
        fun _ h => ⟨h.1, h.2.2.1, h.2.2.2.1⟩⟩,
    ⟨⟨1, 0, by decide, by decide, by decide⟩, by decide, by decide,
      (hard_drop_lands.2 (TetrisNew.Game.new fun _ => 0) 40
        ⟨1, 0, by decide, by decide, by decide⟩ (by decide)).imp
        fun _ h => ⟨h.1, h.2.2.1, h.2.2.2.1⟩⟩⟩

/-! ## The rotate key -/

set_option maxRecDepth 100000 in
theorem turnedO_reachable : Reachable turnedO :=
  Reachable.frame freshO turnedO (pressKey 'w') freshO_reachable rfl (by decide)

/-- C20 as the code has it: in `updateGame` on a state in which the rotate key
is set, the rotation step runs on the state left by the movement keys;
`currentRotation` advances by exactly one if and only if `rotationHold` is set
and the piece in rotation `currentRotation + 1` fits at the anchor, which the
step does not change (no wall kick is tried); otherwise the rotation is
unchanged; the piece's kind and anchor and the field are unchanged in both
cases, and `rotationHold` is cleared. -/
theorem rotate_intent (g : TetrisGame) (hk : g.keys.getD 3 false = true) :
    (∀ draw : Nat, g.updateGame draw = g.moveKeys.rotateKey.gravityStep draw) ∧
    (g.moveKeys.rotateKey.currentRotation = g.moveKeys.currentRotation + 1 ↔
      g.moveKeys.rotationHold = true ∧
        g.moveKeys.doesPieceFit g.moveKeys.currentPiece (g.moveKeys.currentRotation + 1)
          g.moveKeys.currentX g.moveKeys.currentY = true) ∧
    (g.moveKeys.rotateKey.currentRotation ≠ g.moveKeys.currentRotation + 1 →
      g.moveKeys.rotateKey.currentRotation = g.moveKeys.currentRotation) ∧
    g.moveKeys.rotateKey.currentPiece = g.moveKeys.currentPiece ∧
    g.moveKeys.rotateKey.currentX = g.moveKeys.currentX ∧
    g.moveKeys.rotateKey.currentY = g.moveKeys.currentY ∧
    g.moveKeys.rotateKey.field = g.moveKeys.field ∧
    g.moveKeys.rotateKey.rotationHold = false := by
  have hm : g.moveKeys.keys.getD 3 false = true := by rw [(moveKeys_frame g).2.2.2.1]; exact hk
  have hf := rotateKey_frame g.moveKeys
  refine ⟨fun _ => rfl, ?_, ?_, hf.2.1, hf.2.2.1, hf.2.2.2.1, hf.1, ?_⟩
  · unfold TetrisGame.rotateKey
    rw [if_pos hm]
    by_cases hc : (g.moveKeys.rotationHold &&
        g.moveKeys.doesPieceFit g.moveKeys.currentPiece (g.moveKeys.currentRotation + 1)
          g.moveKeys.currentX g.moveKeys.currentY) = true
    · simp only [hc, if_true]
      exact ⟨fun _ => Bool.and_eq_true_iff.mp hc, fun _ => trivial⟩
    · simp only [hc, Bool.false_eq_true, if_false]
      constructor
      · intro h
        have : g.moveKeys.currentRotation = g.moveKeys.currentRotation + 1 := h
        omega
      · intro h
        exact absurd (Bool.and_eq_true_iff.mpr h) hc
  · intro hne
    unfold TetrisGame.rotateKey at hne ⊢
    rw [if_pos hm] at hne ⊢
    by_cases hc : (g.moveKeys.rotationHold &&
        g.moveKeys.doesPieceFit g.moveKeys.currentPiece (g.moveKeys.currentRotation + 1)
          g.moveKeys.currentX g.moveKeys.currentY) = true
    · simp only [hc, if_true] at hne
      exact absurd rfl hne
    · simp only [hc, Bool.false_eq_true, if_false]
  · unfold TetrisGame.rotateKey
    rw [if_pos hm]

set_option maxRecDepth 100000 in
theorem rotate_intent_witness :
    pressedO.keys.getD 3 false = true ∧
    (pressedO.moveKeys.rotationHold = true ∧
      pressedO.moveKeys.doesPieceFit pressedO.moveKeys.currentPiece
        (pressedO.moveKeys.currentRotation + 1) pressedO.moveKeys.currentX
        pressedO.moveKeys.currentY = true) ∧
    pressedO.moveKeys.rotateKey.currentRotation = pressedO.moveKeys.currentRotation + 1 :=
  ⟨by decide, by decide, (rotate_intent pressedO (by decide)).2.1.mpr (by decide)⟩

set_option maxRecDepth 100000 in
/-- C20 does not hold as stated: `turnedO` is the new session `freshO` after a
frame with the rotate key; in the next frame the rotate key is set again (state
`heldO` when `updateGame` is called) and the O piece in rotation
`currentRotation + 1` fits at the anchor, yet `currentRotation` does not advance,
because `rotationHold` is false. -/
theorem rotate_intent_counterexample :
    Reachable turnedO ∧ turnedO.isGameOver = false ∧ turnedO.isPaused = false ∧
    turnedO.tick.handleInput (pressKey 'w') = some heldO ∧
    heldO.keys.getD 3 false = true ∧
    heldO.moveKeys.currentX = heldO.currentX ∧ heldO.moveKeys.currentY = heldO.currentY ∧
    heldO.moveKeys.doesPieceFit heldO.moveKeys.currentPiece (heldO.moveKeys.currentRotation + 1)
      heldO.moveKeys.currentX heldO.moveKeys.currentY = true ∧
    heldO.moveKeys.rotateKey.currentRotation = heldO.moveKeys.currentRotation ∧
    (heldO.updateGame 0).currentRotation = heldO.currentRotation := by
  refine ⟨turnedO_reachable, rfl, rfl, ?_⟩
  decide

/-! ## Keys in a paused frame and the quit key in a locking frame -/

set_option maxRecDepth 100000 in
theorem pausedO_reachable : Reachable pausedO :=
  Reachable.frame freshO pausedO (pressKey 'p') freshO_reachable rfl (by decide)

set_option maxRecDepth 1000000 in
set_option maxHeartbeats 4000000 in
theorem dueO_run :
    freshO.runFrames (List.replicate 17 (pressKey 's') ++ List.replicate 12 noKey) =
      some dueO := by
  decide

theorem dueO_reachable : Reachable dueO :=
  reachable_runFrames _ freshO dueO freshO_reachable dueO_run

set_option maxRecDepth 100000 in
/-- C15 at the failing input: `pausedO` is the new session `freshO` after a
frame with the pause key; the frame that receives the hard-drop key while
`isPaused` is true leaves the session paused and moves the active piece from row
`0` to row `17`. -/
theorem paused_drop_moves :
    Reachable pausedO ∧ pausedO.isGameOver = false ∧ pausedO.isPaused = true ∧
    pausedO.currentY = 0 ∧
    pausedO.frame (pressKey ' ') =
      some { pausedO with currentY := 17, forcePieceDown := true } := by
  refine ⟨pausedO_reachable, rfl, rfl, rfl, ?_⟩
  decide

set_option maxRecDepth 100000 in
/-- C16 at the failing input: `dueO` is the new session `freshO` after seventeen
frames with the soft-drop key and twelve frames without a key; in the next
frame the quit key sets `isGameOver` in `handleInput`, the gravity step of
`updateGame` locks the O piece, and the frame ends with `isGameOver` false. -/
theorem quit_key_lost :
    Reachable dueO ∧ dueO.isGameOver = false ∧ dueO.isPaused = false ∧
    (dueO.tick.handleInput (pressKey 'x')).map (fun h => h.isGameOver) = some true ∧
    (dueO.tick.handleInput (pressKey 'x')).map (fun h => decide h.locksNow) = some true ∧
    (dueO.frame (pressKey 'x')).map (fun h => h.isGameOver) = some false := by
  refine ⟨dueO_reachable, rfl, rfl, ?_⟩
  decide

/-! ## A session in which the speed rises

The step counter `pieceCounter` is read by `countStep` only, so the frames of
the cycle "hard drop, undo" from `cycleState n` are the same for every `n` that
is not followed by a multiple of `50`. -/

theorem undo_counter (c : Int) (g : TetrisGame) :
    TetrisGame.undo { g with pieceCounter := c } = { g.undo with pieceCounter := c } := by
  unfold TetrisGame.undo
  cases hp : g.previousField with
  | none => simp only [hp]
  | some saved => simp only [hp]

theorem lockPiece_counter (c : Int) (g : TetrisGame) (draw : Nat) :
    TetrisGame.lockPiece { g with pieceCounter := c } draw =
      { g.lockPiece draw with pieceCounter := c } := by
  unfold TetrisGame.lockPiece
  simp only
  by_cases he : (detectLines (TetrisGame.mergePiece g.saveState)).isEmpty = true
  · have he2 : (detectLines (TetrisGame.mergePiece
        (TetrisGame.saveState { g with pieceCounter := c }))).isEmpty = true := he
    simp only [he, he2, not_true_eq_false, if_false]
    rfl
  · have he2 : ¬ (detectLines (TetrisGame.mergePiece
        (TetrisGame.saveState { g with pieceCounter := c }))).isEmpty = true := he
    simp only [he, he2, not_false_eq_true, if_true]
    rfl

theorem moveKeys_idle (g : TetrisGame) (hk : g.keys = [false, false, false, false]) :
    g.moveKeys = g := by
  have h0 : g.keys.getD 0 false = false := by rw [hk]; rfl
  have h1 : g.keys.getD 1 false = false := by rw [hk]; rfl
  have h2 : g.keys.getD 2 false = false := by rw [hk]; rfl
  unfold TetrisGame.moveKeys
  simp only [h0, h1, h2, Bool.false_and, Bool.false_eq_true, if_false]

theorem rotateKey_idle (g : TetrisGame) (hk : g.keys = [false, false, false, false])
    (hh : g.rotationHold = true) : g.rotateKey = g := by
  have h3 : g.keys.getD 3 false = false := by rw [hk]; rfl
  unfold TetrisGame.rotateKey
  rw [h3]
  simp only [Bool.false_eq_true, if_false]
  rw [← hh]

set_option maxRecDepth 100000 in
theorem cycle_rest :
    (cycleState 0).doesPieceFit 0 0 0 (17 + 1) = false ∧
    TetrisGame.lockPiece { cycleState 0 with speedCounter := 0, forcePieceDown := true } 0 =
      lockedState 0 ∧
    (lockedState 0).tick.undo = cycleState 0 := by
  decide

theorem cycle_drop (n : Int) (hn : Int.tmod (n + 1) 50 ≠ 0) :
    (cycleState n).frame (pressKey ' ') = some (lockedState (n + 1)) := by
  have e1 : (cycleState n).frame (pressKey ' ') =
      some { TetrisGame.gravityStep
        { cycleState n with speedCounter := 2, forcePieceDown := true } 0 with
        keys := [false, false, false, false] } := rfl
  have e2 : TetrisGame.countStep { cycleState n with speedCounter := 2, forcePieceDown := true } =
      { cycleState 0 with speedCounter := 0, forcePieceDown := true, pieceCounter := n + 1 } := by
    unfold TetrisGame.countStep
    simp only
    rw [if_neg (fun h => hn h.1)]
    rfl
  have e3 : TetrisGame.gravityStep
      { cycleState n with speedCounter := 2, forcePieceDown := true } 0 =
      TetrisGame.lockPiece
        { cycleState 0 with speedCounter := 0, forcePieceDown := true, pieceCounter := n + 1 } 0 := by
    unfold TetrisGame.gravityStep
    rw [if_pos rfl]
    simp only
    rw [e2]
    rw [if_neg]
    intro h
    have h2 := (doesPieceFit_congr _ (cycleState 0) rfl _ _ _ _).symm.trans h
    have h3 : (cycleState 0).doesPieceFit 0 0 0 (17 + 1) = true := h2
    rw [cycle_rest.1] at h3
    exact Bool.false_ne_true h3
  rw [e1, e3]
  have e4 := lockPiece_counter (n + 1) { cycleState 0 with speedCounter := 0, forcePieceDown := true } 0
  rw [cycle_rest.2.1] at e4
  rw [e4]
  rfl

theorem cycle_undo (n : Int) :
    (lockedState n).frame (pressKey 'u') = some (cycleState n) := by
  have e1 : (lockedState n).frame (pressKey 'u') =
      some { TetrisGame.updateGame
        (TetrisGame.undo { (lockedState 0).tick with pieceCounter := n }) 0 with
        keys := [false, false, false, false] } := rfl
  rw [e1, undo_counter, cycle_rest.2.2]
  have e2 : ({ cycleState 0 with pieceCounter := n } : TetrisGame) = cycleState n := rfl
  rw [e2]
  unfold TetrisGame.updateGame
  rw [moveKeys_idle _ rfl, rotateKey_idle _ rfl rfl]
  rfl

theorem freshI_reachable : Reachable freshI := by
  have h := Reachable.start 0 0 0
  rw [new_eq_literal] at h
  exact h

set_option maxRecDepth 1000000 in
set_option maxHeartbeats 4000000 in
theorem cycleEntry_run : freshI.runFrames cycleEntry = some (cycleState 5) := by
  decide!

theorem cycleState_reachable : ∀ k : Nat, k ≤ 44 → Reachable (cycleState (5 + (k : Int))) := by
  intro k
  induction k with
  | zero =>
    intro _
    exact reachable_runFrames _ freshI _ freshI_reachable cycleEntry_run
  | succ k ih =>
    intro hk
    have hmod : Int.tmod (5 + (k : Int) + 1) 50 ≠ 0 := by
      rw [Int.tmod_eq_emod (by omega) (by omega)]
      omega
    have h1 : Reachable (lockedState (5 + (k : Int) + 1)) :=
      Reachable.frame _ _ (pressKey ' ') (ih (by omega)) rfl (cycle_drop _ hmod)
    have h2 : Reachable (cycleState (5 + (k : Int) + 1)) :=
      Reachable.frame _ _ (pressKey 'u') h1 rfl (cycle_undo _)
    have e : (5 : Int) + ((k + 1 : Nat) : Int) = 5 + (k : Int) + 1 := by push_cast; ring
    rw [e]
    exact h2

set_option maxRecDepth 1000000 in
set_option maxHeartbeats 4000000 in
theorem dipState_frame : (cycleState 49).frame (pressKey ' ') = some dipState := by
  decide

theorem dipState_reachable : Reachable dipState :=
  Reachable.frame _ _ (pressKey ' ') (cycleState_reachable 44 (le_refl _)) rfl dipState_frame

set_option maxRecDepth 1000000 in
set_option maxHeartbeats 4000000 in
theorem dipState_drop : dipState.tick.handleInput (pressKey ' ') = some dipDropped := by
  decide

set_option maxRecDepth 1000000 in
set_option maxHeartbeats 4000000 in
theorem speed_step_bound_witness :
    Reachable dipState ∧ dipState.tick.handleInput (pressKey ' ') = some dipDropped ∧
    (dipDropped.totalLinesCleared < (dipDropped.updateGame 0).totalLinesCleared ∧
      (dipDropped.updateGame 0).speed = max 2 (30 - 2 * (dipDropped.updateGame 0).level) ∧
      (dipDropped.updateGame 0).speed ≤ max 2 (30 - 2 * dipDropped.level)) :=
  have h := speed_step_bound dipState dipDropped (pressKey ' ') 0 dipState_reachable rfl rfl
    dipState_drop
  have hlt : dipDropped.totalLinesCleared < (dipDropped.updateGame 0).totalLinesCleared := by
    decide
  ⟨dipState_reachable, dipState_drop, hlt, h.2.1 hlt⟩

set_option maxRecDepth 1000000 in
set_option maxHeartbeats 4000000 in
/-- C12 does not hold as stated: `dipState` is reachable from a new session (two
rows completed, then the fiftieth gravity step lowers the speed from `26` to
`25` at level `2`); in its next frame the hard drop completes a third row, the
level stays `2`, and the `updateGame` step that starts with speed `25` ends
with speed `max(2, 30 - 2 * 2) = 26`. -/
theorem speed_step_bound_counterexample :
    Reachable dipState ∧ dipState.isGameOver = false ∧ dipState.isPaused = false ∧
    dipState.tick.handleInput (pressKey ' ') = some dipDropped ∧
    dipDropped.speed = 25 ∧ dipDropped.totalLinesCleared = 2 ∧
    (dipDropped.updateGame 0).totalLinesCleared = 3 ∧
    (dipDropped.updateGame 0).level = 2 ∧
    (dipDropped.updateGame 0).speed = 26 := by
  refine ⟨dipState_reachable, rfl, rfl, dipState_drop, rfl, rfl, ?_⟩
  decide

/-! ## The reads of `doesPieceFit` -/

theorem fitLoop_result (field : List Nat) (pieceIdx rot posX posY : Int) :
    ∀ cells : List (Nat × Nat),
      (fitLoop field pieceIdx rot posX posY cells).2 =
        cells.all fun c => (fitCell field pieceIdx rot posX posY c.1 c.2).2 := by
  intro cells
  induction cells with
  | nil => rfl
  | cons c rest ih =>
    unfold fitLoop
    simp only [List.all_cons]
    by_cases h : (fitCell field pieceIdx rot posX posY c.1 c.2).2 = true
    · rw [if_pos h, h, Bool.true_and]; exact ih
    · rw [if_neg h]
      rw [Bool.not_eq_true] at h
      rw [h, Bool.false_and]

theorem fitLoop_reads (field : List Nat) (pieceIdx rot posX posY : Int) (P : Access → Prop) :
    ∀ cells : List (Nat × Nat),
      (∀ c ∈ cells, ∀ a ∈ (fitCell field pieceIdx rot posX posY c.1 c.2).1, P a) →
      ∀ a ∈ (fitLoop field pieceIdx rot posX posY cells).1, P a := by
  intro cells
  induction cells with
  | nil => intro _ a ha; simp [fitLoop] at ha
  | cons c rest ih =>
    intro hc a ha
    unfold fitLoop at ha
    by_cases h : (fitCell field pieceIdx rot posX posY c.1 c.2).2 = true
    · rw [if_pos h] at ha
      rcases List.mem_append.mp ha with h1 | h1
      · exact hc c (List.mem_cons_self _ _) a h1
      · exact ih (fun d hd => hc d (List.mem_cons_of_mem _ hd)) a h1
    · rw [if_neg h] at ha
      exact hc c (List.mem_cons_self _ _) a ha

/-- The answer of one cell of the instrumented loop is the answer of the body of
`doesPieceFit`. -/
theorem fitCell_result (field : List Nat) (pieceIdx rot posX posY : Int) (px py : Nat) :
    (fitCell field pieceIdx rot posX posY px py).2 =
      (if !occupied pieceIdx (rotate px py rot (pieceSizeOf pieceIdx)) then true
       else
        if posX + px + 1 ≤ 0 ∨ posX + px + 1 ≥ (fieldWidth : Int) - 1 then false
        else if posY + py ≥ (fieldHeight : Int) - 1 then false
        else if readField field ((posY + py) * fieldWidth + (posX + px + 1)) ≠ 0 then false
        else true) := by
  unfold fitCell occupied
  simp only
  generalize rotate px py rot (pieceSizeOf pieceIdx) = pi
  generalize tetrominoes.getD pieceIdx.toNat [] = str
  by_cases h1 : pi < 0 ∨ pi ≥ (str.length : Int)
  · have hd : (decide (0 ≤ pi) && decide (pi < (str.length : Int)) &&
        (str.getD pi.toNat '.' != '.')) = false := by
      rcases h1 with h | h
      · rw [decide_eq_false (by omega : ¬ 0 ≤ pi)]; rfl
      · rw [decide_eq_false (by omega : ¬ pi < (str.length : Int)), Bool.and_false]; rfl
    simp only [if_pos h1, hd, Bool.not_false, if_true]
  · push_neg at h1
    have h1n : ¬ (pi < 0 ∨ pi ≥ (str.length : Int)) := by omega
    by_cases h2 : str.getD pi.toNat '.' = '.'
    · have hd : (decide (0 ≤ pi) && decide (pi < (str.length : Int)) &&
          (str.getD pi.toNat '.' != '.')) = false := by
        rw [h2, Bool.and_eq_false_iff]; right; rfl
      simp only [if_neg h1n, if_pos h2, hd, Bool.not_false, if_true]
    · have hd : (decide (0 ≤ pi) && decide (pi < (str.length : Int)) &&
          (str.getD pi.toNat '.' != '.')) = true := by
        rw [decide_eq_true h1.1, decide_eq_true h1.2, bne_iff_ne.mpr h2]; rfl
      simp only [if_neg h1n, if_neg h2, hd, Bool.not_true, Bool.false_eq_true, if_false]
      by_cases hA : posX + px + 1 ≤ 0 ∨ posX + px + 1 ≥ (fieldWidth : Int) - 1
      · simp only [if_pos hA]
      · simp only [if_neg hA]
        by_cases hB : posY + py ≥ (fieldHeight : Int) - 1
        · simp only [if_pos hB]
        · simp only [if_neg hB]
          by_cases hC : readField field ((posY + py) * fieldWidth + (posX + px + 1)) = 0
          · simp only [hC, ne_eq, not_true_eq_false, if_false, decide_True]
          · simp only [hC, ne_eq, not_false_eq_true, if_true, decide_False]

theorem all_map_pair (x : Nat) (ys : List Nat) (f : Nat → Nat → Bool) :
    ((ys.map fun b => (x, b)).all fun c => f c.1 c.2) = ys.all fun b => f x b := by
  induction ys with
  | nil => rfl
  | cons y ys ihy => rw [List.map_cons, List.all_cons, List.all_cons, ihy]

theorem all_flatMap_pairs (xs ys : List Nat) (f : Nat → Nat → Bool) :
    ((xs.flatMap fun a => ys.map fun b => (a, b)).all fun c => f c.1 c.2) =
      xs.all fun a => ys.all fun b => f a b := by
  induction xs with
  | nil => rfl
  | cons x xs ih =>
    rw [List.flatMap_cons, List.all_append, ih, List.all_cons, all_map_pair]

theorem doesPieceFitReads_result (g : TetrisGame) (pieceIdx rot posX posY : Int) :
    (g.doesPieceFitReads pieceIdx rot posX posY).2 = g.doesPieceFit pieceIdx rot posX posY := by
  unfold TetrisGame.doesPieceFitReads TetrisGame.doesPieceFit
  simp only
  rw [fitLoop_result,
    all_flatMap_pairs _ _ fun a b => (fitCell g.field pieceIdx rot posX posY a b).2]
  congr 1
  funext px
  congr 1
  funext py
  exact fitCell_result g.field pieceIdx rot posX posY px py

/-- The index computed by `rotate` for a cell of the box lies in the box,
whatever the rotation. -/
theorem rotate_range (px py n : Nat) (rot : Int) (hx : px < n) (hy : py < n) :
    0 ≤ rotate px py rot n ∧ rotate px py rot n < (n : Int) * n := by
  have hxi : (px : Int) < n := by exact_mod_cast hx
  have hyi : (py : Int) < n := by exact_mod_cast hy
  have hx0 : (0 : Int) ≤ px := Int.ofNat_nonneg _
  have hy0 : (0 : Int) ≤ py := Int.ofNat_nonneg _
  unfold rotate
  split_ifs
  all_goals constructor
  all_goals nlinarith

/-- The reads of one cell are in range, and a field read is the read of an
interior cell, for a piece index in `0 .. 6` and a row `posY >= 0`. -/
theorem fitCell_reads (field : List Nat) (pieceIdx rot posX posY : Int) (px py : Nat)
    (hp : 0 ≤ pieceIdx ∧ pieceIdx ≤ 6) (hy : 0 ≤ posY) :
    ∀ a ∈ (fitCell field pieceIdx rot posX posY px py).1, a.InRange ∧ a.Interior := by
  have hw : ((fieldWidth : Nat) : Int) = 12 := rfl
  have hh : ((fieldHeight : Nat) : Int) = 20 := rfl
  have hpy : (0 : Int) ≤ py := Int.ofNat_nonneg _
  have htab : (Access.table pieceIdx).InRange ∧ (Access.table pieceIdx).Interior :=
    ⟨⟨hp.1, by omega⟩, trivial⟩
  intro a ha
  unfold fitCell at ha
  simp only at ha
  split_ifs at ha with h1 h2 h3 h4
  · rw [List.mem_singleton] at ha; rw [ha]; exact htab
  all_goals
    have hsh : (Access.shape pieceIdx (rotate px py rot (pieceSizeOf pieceIdx))).InRange ∧
        (Access.shape pieceIdx (rotate px py rot (pieceSizeOf pieceIdx))).Interior := by
      push_neg at h1
      exact ⟨⟨⟨hp.1, by omega⟩, h1.1, h1.2⟩, trivial⟩
  · simp only [List.mem_cons, List.mem_singleton, List.not_mem_nil, or_false] at ha
    rcases ha with rfl | rfl
    · exact htab
    · exact hsh
  · simp only [List.mem_cons, List.mem_singleton, List.not_mem_nil, or_false] at ha
    rcases ha with rfl | rfl
    · exact htab
    · exact hsh
  · simp only [List.mem_cons, List.mem_singleton, List.not_mem_nil, or_false] at ha
    rcases ha with rfl | rfl
    · exact htab
    · exact hsh
  · simp only [List.mem_cons, List.mem_singleton, List.not_mem_nil, or_false] at ha
    rcases ha with rfl | rfl | rfl
    · exact htab
    · exact hsh
    · rw [hw, hh] at *
      push_neg at h3 h4
      refine ⟨⟨by omega, ?_⟩, ⟨by omega, by omega⟩, by omega, by omega⟩
      show (posY + py) * 12 + (posX + px + 1) < ((12 * 20 : Nat) : Int)
      push_cast
      omega

/-- C23: for a piece index in `0 .. 6`, any rotation, any `posX` and a row
`posY >= 0`, every read that `doesPieceFit` makes stays inside its object: the
array `tetrominoes` is read at the piece index, a shape string is read only
below its length (an index from its length on, as in the 7- and 6-character S,
T and Z strings, counts as an empty cell without a read), and `field` is read
only at indices in `[0, 240)` that are interior cells (column `1 .. 10`, row
`0 .. 18`).  The instrumented function returns what `doesPieceFit` returns, and
the index computed by `rotate` is in `[0, pieceSize * pieceSize)`. -/
theorem doesPieceFit_reads_safe (g : TetrisGame) (pieceIdx rot posX posY : Int)
    (hp : 0 ≤ pieceIdx ∧ pieceIdx ≤ 6) (hy : 0 ≤ posY) :
    (g.doesPieceFitReads pieceIdx rot posX posY).2 = g.doesPieceFit pieceIdx rot posX posY ∧
    (∀ a ∈ (g.doesPieceFitReads pieceIdx rot posX posY).1, a.InRange ∧ a.Interior) ∧
    (∀ pi : Int, ((tetrominoes.getD pieceIdx.toNat []).length : Int) ≤ pi →
      occupied pieceIdx pi = false) ∧
    (∀ px py : Nat, px < pieceSizeOf pieceIdx → py < pieceSizeOf pieceIdx →
      0 ≤ rotate px py rot (pieceSizeOf pieceIdx) ∧
        rotate px py rot (pieceSizeOf pieceIdx) <
          (pieceSizeOf pieceIdx : Int) * pieceSizeOf pieceIdx) := by
  refine ⟨doesPieceFitReads_result g pieceIdx rot posX posY, ?_, ?_, ?_⟩
  · unfold TetrisGame.doesPieceFitReads
    exact fitLoop_reads g.field pieceIdx rot posX posY (fun a => a.InRange ∧ a.Interior) _
      (fun c _ => fitCell_reads g.field pieceIdx rot posX posY c.1 c.2 hp hy)
  · intro pi hpi
    unfold occupied
    simp only
    rw [decide_eq_false (by omega : ¬ pi < ((tetrominoes.getD pieceIdx.toNat []).length : Int)),
      Bool.and_false]
    rfl
  · intro px py hx hy2
    exact rotate_range px py _ rot hx hy2

set_option maxRecDepth 100000 in
theorem doesPieceFit_reads_safe_witness :
    ((0 : Int) ≤ 4 ∧ (4 : Int) ≤ 6) ∧
    ((tetrominoes.getD 4 []).length = 7 ∧ (tetrominoes.getD 5 []).length = 7 ∧
      (tetrominoes.getD 6 []).length = 6) ∧
    (freshO.doesPieceFitReads 4 1 4 0).1.length = 20 ∧
    Access.cell 18 ∈ (freshO.doesPieceFitReads 4 1 4 0).1 ∧
    (∀ a ∈ (freshO.doesPieceFitReads 4 1 4 0).1, a.InRange ∧ a.Interior) :=
  ⟨by decide, by decide, by decide, by decide,
    (doesPieceFit_reads_safe freshO 4 1 4 0 (by decide) (by decide)).2.1⟩

/-! ## The gravity counter -/

theorem countStep_speedCounter (g : TetrisGame) : g.countStep.speedCounter = 0 := by
  unfold TetrisGame.countStep
  simp only
  split_ifs <;> rfl

theorem moveKeys_speedCounter (g : TetrisGame) : g.moveKeys.speedCounter = g.speedCounter := by
  unfold TetrisGame.moveKeys
  simp only
  split_ifs <;> rfl

theorem rotateKey_speedCounter (g : TetrisGame) :
    g.rotateKey.speedCounter = g.speedCounter := by
  unfold TetrisGame.rotateKey
  simp only
  split_ifs <;> rfl

theorem lockPiece_speedCounter (g : TetrisGame) (draw : Nat) :
    (g.lockPiece draw).speedCounter = g.speedCounter := by
  unfold TetrisGame.lockPiece
  simp only
  split_ifs <;> rfl

/-- What `updateGame` does to the gravity counter: a gravity step resets it,
a step without gravity leaves the counter and the speed alone. -/
theorem updateGame_counter (k : TetrisGame) (draw : Nat) :
    (k.forcePieceDown = true → (k.updateGame draw).speedCounter = 0) ∧
    (k.forcePieceDown = false →
      (k.updateGame draw).speedCounter = k.speedCounter ∧
        (k.updateGame draw).speed = k.speed) := by
  have hf : k.moveKeys.rotateKey.forcePieceDown = k.forcePieceDown := by
    rw [(rotateKey_frame _).2.2.2.2.1, (moveKeys_frame _).2.2.2.2.1]
  have hc : k.moveKeys.rotateKey.speedCounter = k.speedCounter := by
    rw [rotateKey_speedCounter, moveKeys_speedCounter]
  have hs : k.moveKeys.rotateKey.speed = k.speed := by
    rw [(rotateKey_frame _).2.2.2.2.2.2.2.2.2.1, (moveKeys_frame _).2.2.2.2.2.2.2.2.2.1]
  unfold TetrisGame.updateGame TetrisGame.gravityStep
  constructor
  · intro h
    rw [if_pos (hf.trans h)]
    simp only
    split_ifs
    · exact countStep_speedCounter _
    · rw [lockPiece_speedCounter]; exact countStep_speedCounter _
  · intro h
    rw [if_neg (by rw [hf, h]; exact Bool.false_ne_true)]
    exact ⟨hc, hs⟩

/-- What `handleInput` does to the gravity counter: the restart key sets the
counter to `0`, the speed to `30` and clears `forcePieceDown`; every other key
leaves counter and speed alone and does not clear `forcePieceDown`. -/
theorem handleInput_ticks (g h : TetrisGame) (inp : FrameInput)
    (hres : g.handleInput inp = some h) :
    ((inp.key = some 'r' ∨ inp.key = some 'R') ∧
      h.speedCounter = 0 ∧ h.speed = 30 ∧ h.forcePieceDown = false) ∨
    ((inp.key ≠ some 'r' ∧ inp.key ≠ some 'R') ∧
      h.speedCounter = g.speedCounter ∧ h.speed = g.speed ∧
        (g.forcePieceDown = true → h.forcePieceDown = true)) := by
  unfold TetrisGame.handleInput at hres
  cases hkey : inp.key with
  | none =>
    rw [hkey] at hres
    rw [← Option.some.inj hres]
    exact Or.inr ⟨⟨by simp, by simp⟩, rfl, rfl, id⟩
  | some k =>
    rw [hkey] at hres
    simp only at hres
    split_ifs at hres with c1 c2 c3 c4 c5 c6 c7 c8 c9
    · have hk : k ≠ 'r' ∧ k ≠ 'R' := by rcases c1 with e | e <;> rw [e] <;> decide
      rw [← Option.some.inj hres]
      exact Or.inr ⟨⟨by simpa using hk.1, by simpa using hk.2⟩, rfl, rfl, id⟩
    · have hk : k ≠ 'r' ∧ k ≠ 'R' := by rcases c2 with e | e <;> rw [e] <;> decide
      rw [← Option.some.inj hres]
      exact Or.inr ⟨⟨by simpa using hk.1, by simpa using hk.2⟩, rfl, rfl, id⟩
    · have hk : k ≠ 'r' ∧ k ≠ 'R' := by rcases c3 with e | e <;> rw [e] <;> decide
      rw [← Option.some.inj hres]
      exact Or.inr ⟨⟨by simpa using hk.1, by simpa using hk.2⟩, rfl, rfl, id⟩
    · have hk : k ≠ 'r' ∧ k ≠ 'R' := by rcases c4 with e | e <;> rw [e] <;> decide
      rw [← Option.some.inj hres]
      exact Or.inr ⟨⟨by simpa using hk.1, by simpa using hk.2⟩, rfl, rfl, id⟩
    · have hk : k ≠ 'r' ∧ k ≠ 'R' := by rcases c5 with e | e <;> rw [e] <;> decide
      rw [← Option.some.inj hres]
      exact Or.inr ⟨⟨by simpa using hk.1, by simpa using hk.2⟩, rfl, rfl, id⟩
    · rw [← Option.some.inj hres]
      refine Or.inl ⟨?_, rfl, rfl, rfl⟩
      rcases c6 with e | e
      · left; rw [e]
      · right; rw [e]
    · have hk : k ≠ 'r' ∧ k ≠ 'R' := ⟨fun e => c6 (Or.inl e), fun e => c6 (Or.inr e)⟩
      rw [← Option.some.inj hres]
      exact Or.inr ⟨⟨by simpa using hk.1, by simpa using hk.2⟩, rfl, rfl, id⟩
    · have hk : k ≠ 'r' ∧ k ≠ 'R' := ⟨fun e => c6 (Or.inl e), fun e => c6 (Or.inr e)⟩
      unfold TetrisGame.dropPiece at hres
      cases hd : g.dropLoop inp.fuel with
      | none => rw [hd] at hres; simp at hres
      | some d =>
        rw [hd] at hres
        simp only [Option.map_some', Option.some.injEq] at hres
        rw [← hres, (dropLoop_result _ g d hd).1]
        exact Or.inr ⟨⟨by simpa using hk.1, by simpa using hk.2⟩, rfl, rfl, fun _ => rfl⟩
    · have hk : k ≠ 'r' ∧ k ≠ 'R' := ⟨fun e => c6 (Or.inl e), fun e => c6 (Or.inr e)⟩
      rw [← Option.some.inj hres]
      refine Or.inr ⟨⟨by simpa using hk.1, by simpa using hk.2⟩, ?_⟩
      unfold TetrisGame.undo
      cases g.previousField <;> exact ⟨rfl, rfl, id⟩
    · have hk : k ≠ 'r' ∧ k ≠ 'R' := ⟨fun e => c6 (Or.inl e), fun e => c6 (Or.inr e)⟩
      rw [← Option.some.inj hres]
      exact Or.inr ⟨⟨by simpa using hk.1, by simpa using hk.2⟩, rfl, rfl, id⟩

/-- One frame and the gravity counter.  From a state with
`0 <= speedCounter < speed`: when `updateGame` is called the counter is at most
the speed and `forcePieceDown` holds if they are equal; a frame with a gravity
step ends with the counter at `0`; a frame without one that is not a restart has
raised the counter by one and left the speed alone, a restart without one ends
with counter `0` and speed `30`. -/
theorem frame_counter (g h : TetrisGame) (inp : FrameInput)
    (hc : 0 ≤ g.speedCounter ∧ g.speedCounter < g.speed) (hp : g.isPaused = false)
    (hres : g.frame inp = some h) :
    ∃ k, g.tick.handleInput inp = some k ∧
      h = { k.updateGame inp.draw with keys := [false, false, false, false] } ∧
      (0 ≤ k.speedCounter ∧ k.speedCounter ≤ k.speed) ∧
      (k.speedCounter = k.speed → k.forcePieceDown = true) ∧
      (k.forcePieceDown = true → h.speedCounter = 0) ∧
      (k.forcePieceDown = false →
        h.speed = k.speed ∧ h.speedCounter = k.speedCounter ∧ h.speedCounter < h.speed ∧
        ((inp.key ≠ some 'r' ∧ inp.key ≠ some 'R') →
          h.speed = g.speed ∧ h.speedCounter = g.speedCounter + 1)) := by
  unfold TetrisGame.frame at hres
  rw [if_neg (by rw [hp]; exact Bool.false_ne_true)] at hres
  cases hk : g.tick.handleInput inp with
  | none => rw [hk] at hres; simp at hres
  | some k =>
    rw [hk] at hres
    simp only [Option.map_some', Option.some.injEq] at hres
    have hu := updateGame_counter k inp.draw
    have ht1 : g.tick.speedCounter = g.speedCounter + 1 := rfl
    have ht2 : g.tick.speed = g.speed := rfl
    have ht3 : g.tick.forcePieceDown = decide (g.speedCounter + 1 = g.speed) := rfl
    have hsc : h.speedCounter = (k.updateGame inp.draw).speedCounter := by rw [← hres]
    have hsp : h.speed = (k.updateGame inp.draw).speed := by rw [← hres]
    refine ⟨k, rfl, hres.symm, ?_⟩
    rcases handleInput_ticks _ k inp hk with ⟨hrk, r1, r2, r3⟩ | ⟨hn, r1, r2, r3⟩
    · refine ⟨⟨by omega, by omega⟩, fun e => by omega, fun e => ?_, fun _ => ?_⟩
      · rw [r3] at e; exact absurd e Bool.false_ne_true
      · obtain ⟨u1, u2⟩ := hu.2 r3
        refine ⟨by rw [hsp, u2], by rw [hsc, u1], by rw [hsc, hsp, u1, u2]; omega, ?_⟩
        intro hnr
        rcases hrk with e | e
        · exact absurd e hnr.1
        · exact absurd e hnr.2
    · rw [ht1] at r1
      rw [ht2] at r2
      refine ⟨⟨by omega, by omega⟩, ?_, fun e => by rw [hsc]; exact hu.1 e, ?_⟩
      · intro e
        apply r3
        rw [ht3]
        exact decide_eq_true (by omega)
      · intro e
        obtain ⟨u1, u2⟩ := hu.2 e
        have hne : g.speedCounter + 1 ≠ g.speed := by
          intro he
          have := r3 (by rw [ht3]; exact decide_eq_true he)
          rw [e] at this
          exact Bool.false_ne_true this
        exact ⟨by rw [hsp, u2], by rw [hsc, u1], by rw [hsc, hsp, u1, u2]; omega,
          fun _ => ⟨by rw [hsp, u2, r2], by rw [hsc, u1, r1]⟩⟩

/-- The gravity counter stays below the speed in every state of a session. -/
theorem reachable_counter (g : TetrisGame) (hr : Reachable g) :
    0 ≤ g.speedCounter ∧ g.speedCounter < g.speed := by
  induction hr with
  | start d1 d2 high =>
    show (0 : Int) ≤ 0 ∧ (0 : Int) < 30
    exact ⟨le_refl _, by decide⟩
  | restart g d1 d2 _ _ _ =>
    show (0 : Int) ≤ 0 ∧ (0 : Int) < 30
    exact ⟨le_refl _, by decide⟩
  | frame g h inp hg hover hres ih =>
    by_cases hp : g.isPaused = true
    · unfold TetrisGame.frame at hres
      rw [if_pos hp] at hres
      rcases handleInput_ticks g h inp hres with ⟨-, r1, r2, -⟩ | ⟨-, r1, r2, -⟩
      · rw [r1, r2]; exact ⟨le_refl _, by decide⟩
      · rw [r1, r2]; exact ih
    · rw [Bool.not_eq_true] at hp
      have hsound := (reachable_sound h (Reachable.frame g h inp hg hover hres)).1.speed_floor
      obtain ⟨k, -, -, hk1, -, hk3, hk4⟩ := frame_counter g h inp ih hp hres
      cases hf : k.forcePieceDown with
      | true =>
        rw [hk3 hf]
        exact ⟨le_refl _, by omega⟩
      | false =>
        obtain ⟨-, e2, e3, -⟩ := hk4 hf
        exact ⟨by rw [e2]; exact hk1.1, e3⟩

/-- Unpaused frames without a gravity step and without a restart: each raises
the counter by one and leaves the speed alone. -/
theorem runQuiet_counter : ∀ (l : List FrameInput) (g h : TetrisGame), Reachable g →
    (∀ inp ∈ l, inp.key ≠ some 'r' ∧ inp.key ≠ some 'R') → g.runQuiet l = some h →
    Reachable h ∧ h.speed = g.speed ∧ h.speedCounter = g.speedCounter + l.length := by
  intro l
  induction l with
  | nil =>
    intro g h hg _ hres
    unfold TetrisGame.runQuiet at hres
    rw [← Option.some.inj hres]
    exact ⟨hg, rfl, by simp⟩
  | cons inp rest ih =>
    intro g h hg hkeys hres
    unfold TetrisGame.runQuiet at hres
    by_cases hstop : g.isGameOver = true ∨ g.isPaused = true ∨ g.stepsDown inp = true
    · rw [if_pos hstop] at hres
      exact absurd hres (by simp)
    · rw [if_neg hstop] at hres
      push_neg at hstop
      obtain ⟨hover, hpause, hquiet⟩ := hstop
      rw [ne_eq, Bool.not_eq_true] at hover hpause hquiet
      cases hf : g.frame inp with
      | none => rw [hf] at hres; exact absurd hres (by simp)
      | some h1 =>
        rw [hf] at hres
        simp only at hres
        obtain ⟨k, hk, -, -, -, -, hk4⟩ :=
          frame_counter g h1 inp (reachable_counter g hg) hpause hf
        have hforce : k.forcePieceDown = false := by
          unfold TetrisGame.stepsDown at hquiet
          rw [hk] at hquiet
          exact hquiet
        obtain ⟨-, -, -, e4⟩ := hk4 hforce
        obtain ⟨e5, e6⟩ := e4 (hkeys inp (List.mem_cons_self _ _))
        obtain ⟨r1, r2, r3⟩ := ih h1 h (Reachable.frame g h1 inp hg hover hf)
          (fun i hi => hkeys i (List.mem_cons_of_mem _ hi)) hres
        refine ⟨r1, by rw [r2, e5], ?_⟩
        rw [r3, e6, List.length_cons]
        push_cast
        ring

/-- C22: in every state reachable from a new session `0 <= speedCounter < speed`.
In an unpaused frame of such a state the counter is at most the speed when
`updateGame` is called, the gravity step is taken (`forcePieceDown`) whenever
they are equal, and a gravity step resets the counter; a frame entered with
`speedCounter + 1 = speed` that is not a restart takes the gravity step.  A run
of unpaused frames without gravity step and without restart raises the counter
by one per frame at unchanged speed, so it has fewer than `speed - speedCounter`
frames: the gravity step is taken after at most `speed` frames. -/
theorem gravity_counter_in_range (g : TetrisGame) (hr : Reachable g) :
    (0 ≤ g.speedCounter ∧ g.speedCounter < g.speed) ∧
    (∀ (inp : FrameInput) (h : TetrisGame), g.isGameOver = false → g.isPaused = false →
      g.frame inp = some h →
        ∃ k, g.tick.handleInput inp = some k ∧
          k.speedCounter ≤ k.speed ∧
          (k.speedCounter = k.speed → k.forcePieceDown = true) ∧
          (k.forcePieceDown = true → h.speedCounter = 0) ∧
          (g.speedCounter + 1 = g.speed → inp.key ≠ some 'r' → inp.key ≠ some 'R' →
            k.forcePieceDown = true)) ∧
    (∀ (l : List FrameInput) (h : TetrisGame),
      (∀ inp ∈ l, inp.key ≠ some 'r' ∧ inp.key ≠ some 'R') → g.runQuiet l = some h →
        h.speed = g.speed ∧ h.speedCounter = g.speedCounter + l.length ∧
          (l.length : Int) < g.speed - g.speedCounter) := by
  have hc := reachable_counter g hr
  refine ⟨hc, ?_, ?_⟩
  · intro inp h _ hpause hres
    obtain ⟨k, hk, -, hk1, hk2, hk3, -⟩ := frame_counter g h inp hc hpause hres
    refine ⟨k, hk, hk1.2, hk2, hk3, ?_⟩
    intro hdue hr1 hr2
    rcases handleInput_ticks _ k inp hk with ⟨hrk, -⟩ | ⟨-, -, -, r3⟩
    · rcases hrk with e | e
      · exact absurd e hr1
      · exact absurd e hr2
    · apply r3
      show decide (g.speedCounter + 1 = g.speed) = true
      exact decide_eq_true hdue
  · intro l h hkeys hres
    obtain ⟨r1, r2, r3⟩ := runQuiet_counter l g h hr hkeys hres
    have hh := reachable_counter h r1
    refine ⟨r2, r3, ?_⟩
    omega

set_option maxRecDepth 100000 in
theorem gravity_counter_in_range_witness :
    Reachable freshO ∧
    (0 ≤ freshO.speedCounter ∧ freshO.speedCounter < freshO.speed) ∧
    freshO.runQuiet [noKey, pressKey 'a'] =
      some { freshO with speedCounter := 2, currentX := 3 } ∧
    (([noKey, pressKey 'a'] : List FrameInput).length : Int) <
      freshO.speed - freshO.speedCounter :=
  have h := gravity_counter_in_range freshO freshO_reachable
  have hrun : freshO.runQuiet [noKey, pressKey 'a'] =
      some { freshO with speedCounter := 2, currentX := 3 } := by decide
  ⟨freshO_reachable, h.1, hrun,
    (h.2.2 [noKey, pressKey 'a'] _ (by decide) hrun).2.2⟩

end Tetris
